import Mathlib

/-!
Verification of the `ugit` core (files `ugit/base.py`, `ugit/data.py`, `ugit/remote.py`)
against its natural-language specification.

The Python code is shallowly embedded: the object store, ref store and index are
association lists inside an explicit `GitState`; Python exceptions become the
`Err` sum carried by `Except`; Python generators are modelled by fueled functions
that either materialise the yielded sequence eagerly (when the caller does so,
e.g. `set(...)`) or step the generator lazily (when the caller is a membership
test or a short-circuiting loop).  Dictionaries keep Python insertion-order
semantics.  String helpers (`splitlines`, `split`, `strip`) reproduce the
corresponding Python methods, including the full set of line-break characters
recognised by `str.splitlines` and the combined CR-LF rule.
-/

namespace Ugit

/-- Python exceptions that the embedded code can raise.  `outOfFuel` is the
artefact of fueled recursion; it never occurs on the concrete runs below. -/
inductive Err where
  | fileNotFound
  | assertionError
  | typeError
  | valueError
  | nameError
  | outOfFuel
deriving DecidableEq, Repr

/-- Equality of embedded run results is decidable (used by the concrete
evaluations below). -/
instance {e a : Type} [DecidableEq e] [DecidableEq a] : DecidableEq (Except e a) :=
  fun x y =>
    match x, y with
    | .ok v, .ok w =>
      if h : v = w then isTrue (by rw [h]) else isFalse (by intro hh; cases hh; exact h rfl)
    | .error v, .error w =>
      if h : v = w then isTrue (by rw [h]) else isFalse (by intro hh; cases hh; exact h rfl)
    | .ok _, .error _ => isFalse (by intro hh; cases hh)
    | .error _, .ok _ => isFalse (by intro hh; cases hh)

/-! ### Python dictionary primitives (insertion-ordered association lists) -/

/-- Dictionary lookup: first (and, for a well-formed dict, only) binding wins. -/
def dlookup (k : String) : List (String × α) → Option α
  | [] => none
  | (k', v) :: rest => if k = k' then some v else dlookup k rest

/-- Python `d[k] = v`: replace in place if the key exists, else append. -/
def dinsert (k : String) (v : α) : List (String × α) → List (String × α)
  | [] => [(k, v)]
  | (k', v') :: rest => if k = k' then (k, v) :: rest else (k', v') :: dinsert k v rest

/-- Python `del d[k]` / `os.remove` of a ref file: drop the binding. -/
def dremove (k : String) : List (String × α) → List (String × α)
  | [] => []
  | (k', v') :: rest => if k = k' then rest else (k', v') :: dremove k rest

/-- Python `d.update(sub)`: fold the bindings of `sub` into `d`, later wins. -/
def dupdate (d sub : List (String × α)) : List (String × α) :=
  sub.foldl (fun acc (kv : String × α) => dinsert kv.1 kv.2 acc) d

/-! ### Python string primitives -/

/-- The line-break characters recognised by Python `str.splitlines`. -/
def isLineBreak (c : Char) : Bool :=
  c = '\n' || c = '\r' || c = '\x0b' || c = '\x0c' ||
  c = '\x1c' || c = '\x1d' || c = '\x1e' || c = '\x85' ||
  c = '\u2028' || c = '\u2029'

/-- The scanning loop of `str.splitlines`: `acc` holds the current line in
reverse; a line terminator flushes it (CR directly followed by LF counts as
one terminator), and a terminator at the very end produces no extra empty
line. -/
def slGo (acc : List Char) : List Char → List (List Char)
  | [] => [acc.reverse]
  | [c] => if isLineBreak c then [acc.reverse] else [(c :: acc).reverse]
  | c :: d :: rest =>
    if c = '\r' then
      if d = '\n' then acc.reverse :: (if rest.isEmpty then [] else slGo [] rest)
      else acc.reverse :: slGo [] (d :: rest)
    else if isLineBreak c then acc.reverse :: slGo [] (d :: rest)
    else slGo (c :: acc) (d :: rest)

/-- Python `str.splitlines` on character lists (empty string: no lines). -/
def pySplitlinesL : List Char → List (List Char)
  | [] => []
  | s => slGo [] s

/-- Python `str.splitlines`. -/
def pySplitlines (s : String) : List String :=
  (pySplitlinesL s.data).map String.mk

/-- Python `str.split(sep)` (no max-split) on character lists; total, returns
`[[]]` on the empty string like Python returns a one-element list. -/
def splitCharL (sep : Char) : List Char → List (List Char)
  | [] => [[]]
  | c :: cs =>
    if c = sep then [] :: splitCharL sep cs
    else
      match splitCharL sep cs with
      | [] => [[c]]
      | l :: ls => (c :: l) :: ls

/-- Python `str.split(sep)`. -/
def pySplit (sep : Char) (s : String) : List String :=
  (splitCharL sep s.data).map String.mk

/-- Python `str.split(sep, 1)`: split at the first occurrence only; `none`
when the separator does not occur (Python then returns a one-element list). -/
def splitOnceL (sep : Char) : List Char → Option (List Char × List Char)
  | [] => none
  | c :: cs =>
    if c = sep then some ([], cs)
    else (splitOnceL sep cs).map (fun p => (c :: p.1, p.2))

/-- Python `str.startswith` on character lists. -/
def strStartsL : List Char → List Char → Bool
  | _, [] => true
  | [], _ :: _ => false
  | c :: cs, p :: ps => c = p && strStartsL cs ps

/-- Python `str.startswith`. -/
def pyStartsWith (s pre : String) : Bool :=
  strStartsL s.data pre.data

/-- The whitespace stripped by Python `str.strip()`. -/
def isPySpace (c : Char) : Bool :=
  c = ' ' || c = '\t' || c = '\n' || c = '\r' || c = '\x0b' || c = '\x0c'

/-- Python `str.strip()`. -/
def pyStrip (s : String) : String :=
  ⟨((s.data.dropWhile isPySpace).reverse.dropWhile isPySpace).reverse⟩

/-- Python `sep.join(list)`. -/
def pyJoin (sep : String) : List String → String
  | [] => ""
  | [x] => x
  | x :: xs => x ++ sep ++ pyJoin sep xs

/-- Python truthiness of an optional string (`None` and the empty string are
falsy). -/
def optTruthy : Option String → Bool
  | none => false
  | some s => s ≠ ""

/-! ### The data layer (`ugit/data.py`) -/

/-- The object store: one file per object id, holding the kind tag and the
payload (in `data.py` the file content is `kind + NUL byte + payload`; the
kind tags used are NUL-free, so storing the two parts of the partition is
equivalent). -/
abbrev Store := List (String × String × String)

/-- A parsed ref (`data.RefValue`): `value` is `none` when the ref file is
absent, mirroring the Python `None`. -/
structure RefValue where
  symbolic : Bool
  value : Option String
deriving DecidableEq, Repr

/-- The state of one repository: object files, ref files (name to raw file
content) and the optional index file (`None` when it was never written). -/
structure GitState where
  store : Store
  refs : List (String × String)
  indexFile : Option (List (String × String))
deriving DecidableEq, Repr

/-- `data.hash_object`: the digest function is a parameter `H` taking the kind
and the payload (in the source, SHA-1 of the concatenation); the object file
is (over)written. -/
def hash_object (H : String → String → String) (st : Store) (ty content : String) :
    String × Store :=
  let oid := H ty content
  (oid, dinsert oid (ty, content) st)

/-- `data.get_object`: read the object file, check the expected kind.
A missing file is `FileNotFoundError`; a kind mismatch is the `assert`. -/
def get_object (st : Store) (oid : String) (expected : Option String) :
    Except Err String :=
  match dlookup oid st with
  | none => .error .fileNotFound
  | some (ty, content) =>
    match expected with
    | some e => if ty = e then .ok content else .error .assertionError
    | none => .ok content

/-- `data.object_exists`. -/
def object_exists (st : Store) (oid : String) : Bool :=
  (dlookup oid st).isSome

/-- The target of a symbolic ref file content: Python
`value.split(with colon, maxsplit 1)[1].strip()`. -/
def symTarget (v : String) : String :=
  match splitOnceL ':' v.data with
  | some p => pyStrip ⟨p.2⟩
  | none => pyStrip v

/-- `data._get_ref_internal`: read the ref file (stripping its content),
follow symbolic refs when `deref` is set; fueled because a symbolic cycle
would not terminate (Python would hit the recursion limit). -/
def get_ref_internal (refs : List (String × String)) :
    Nat → String → Bool → Except Err (String × RefValue)
  | 0, _, _ => .error .outOfFuel
  | fuel + 1, ref, deref =>
    let value := (dlookup ref refs).map pyStrip
    let symbolic :=
      match value with
      | some v => v ≠ "" && pyStartsWith v "ref:"
      | none => false
    if symbolic && deref then
      get_ref_internal refs fuel (symTarget (value.getD "")) true
    else
      .ok (ref, ⟨symbolic, value⟩)

/-- `data.get_ref`. -/
def get_ref (refs : List (String × String)) (fuel : Nat) (ref : String)
    (deref : Bool) : Except Err RefValue :=
  (get_ref_internal refs fuel ref deref).map (·.2)

/-- `data.update_ref`: write through to the final ref of a symbolic chain when
`deref` is set; the `assert value.value` rejects an unset value. -/
def update_ref (refs : List (String × String)) (fuel : Nat) (ref : String)
    (rv : RefValue) (deref : Bool) : Except Err (List (String × String)) := do
  let (name, _) ← get_ref_internal refs fuel ref deref
  if optTruthy rv.value then
    let content := if rv.symbolic then "ref: " ++ rv.value.getD "" else rv.value.getD ""
    .ok (dinsert name content refs)
  else
    .error .assertionError

/-- `data.delete_ref`: `os.remove` of the named ref file raises
`FileNotFoundError` when the file does not exist. -/
def delete_ref (refs : List (String × String)) (fuel : Nat) (ref : String)
    (deref : Bool) : Except Err (List (String × String)) := do
  let (name, _) ← get_ref_internal refs fuel ref deref
  match dlookup name refs with
  | some _ => .ok (dremove name refs)
  | none => .error .fileNotFound

/-- `data.iter_refs`: the candidate names are `HEAD`, `MERGE_HEAD` and every
ref file under `refs/` (the walk order is the file order of the ref dict);
each is filtered by the prefix, dereferenced, and kept only when truthy. -/
def iter_refs (refs : List (String × String)) (fuel : Nat) (pre : String)
    (deref : Bool) : Except Err (List (String × RefValue)) := do
  let names := ["HEAD", "MERGE_HEAD"] ++
    (refs.map (·.1)).filter (fun n => pyStartsWith n "refs/")
  let names := names.filter (fun n => pyStartsWith n pre)
  let withVals ← names.mapM (fun n => do
    let rv ← get_ref refs fuel n deref
    pure (n, rv))
  .ok (withVals.filter (fun p => optTruthy p.2.value))

/-- `data.get_index` used as a scope (`with data.get_index() as index:`): load
the persisted mapping (empty when the file does not exist), run the body on
it, and dump the body-side mapping back — but only when the body finishes
normally; an exception propagates through the `yield` of the context manager,
which has no try/finally, so the two dump lines are skipped.  The body
returns the mapping as mutated so far together with its outcome. -/
def withIndexRun (st : GitState)
    (body : List (String × String) → List (String × String) × Except Err α) :
    GitState × Except Err α :=
  let index := st.indexFile.getD []
  let (index2, r) := body index
  match r with
  | .ok a => ({ st with indexFile := some index2 }, .ok a)
  | .error e => (st, .error e)

/-- `data.fetch_object_if_missing`: copy one object file from the remote store
into the local store unless it is already present; a missing remote file is
`FileNotFoundError` (from `shutil.copy`). -/
def fetch_object_if_missing (locSt remote : Store) (oid : String) :
    Except Err Store :=
  if object_exists locSt oid then .ok locSt
  else
    match dlookup oid remote with
    | some v => .ok (dinsert oid v locSt)
    | none => .error .fileNotFound

/-- `data.push_object`: copy one object file from the local store to the
remote store. -/
def push_object (locSt remote : Store) (oid : String) : Except Err Store :=
  match dlookup oid locSt with
  | some v => .ok (dinsert oid v remote)
  | none => .error .fileNotFound

/-! ### The tree codec (`base.write_tree` / `base.get_tree`) -/

/-- The nested dictionary `index_as_tree` built by `base.write_tree`: a value
is either a blob oid (a string in Python) or a sub-dictionary. -/
inductive PyTree where
  | oid (s : String)
  | dict (entries : List (String × PyTree))
deriving Repr

/-- One step of the index-to-tree grouping: walk `dirpath` with `setdefault`
and finally assign the blob oid at `fname`.  Meeting a string where a
dictionary is needed is the Python `TypeError` (item assignment or
`setdefault` on a `str`). -/
def insertPath : List (String × PyTree) → List String → String → String →
    Except Err (List (String × PyTree))
  | node, [], fname, oid => .ok (dinsert fname (.oid oid) node)
  | node, d :: rest, fname, oid =>
    match dlookup d node with
    | none => do
      let sub ← insertPath [] rest fname oid
      .ok (dinsert d (.dict sub) node)
    | some (.dict sub) => do
      let sub2 ← insertPath sub rest fname oid
      .ok (dinsert d (.dict sub2) node)
    | some (.oid _) => .error .typeError

/-- The grouping loop of `base.write_tree`: split each index path on the
separator, the last component is the file name, the rest the directory
path. -/
def buildIndexTree (index : List (String × String)) :
    Except Err (List (String × PyTree)) :=
  index.foldlM (fun node pv =>
    let comps := pySplit '/' pv.1
    insertPath node comps.dropLast (comps.getLastD "") pv.2) []

/-- An entry tuple of `base.write_tree_recursive`, in the tuple order of the
source: `(name, oid, type)`. -/
abbrev E3 := String × String × String

/-- Python string comparison: strict lexicographic order on code points. -/
def lexLt : List Char → List Char → Bool
  | [], [] => false
  | [], _ :: _ => true
  | _ :: _, [] => false
  | c :: cs, d :: ds => if c = d then lexLt cs ds else decide (c < d)

/-- Python `a < b` on strings. -/
def strLtB (a b : String) : Bool :=
  lexLt a.data b.data

/-- Python `a <= b` on strings. -/
def strLeB (a b : String) : Bool :=
  strLtB a b || decide (a = b)

theorem lexLt_irrefl (a : List Char) : lexLt a a = false := by
  induction a with
  | nil => rfl
  | cons c cs ih => simpa [lexLt] using ih

theorem lexLt_total (a b : List Char) :
    lexLt a b = true ∨ a = b ∨ lexLt b a = true := by
  induction a generalizing b with
  | nil =>
    cases b with
    | nil => exact Or.inr (Or.inl rfl)
    | cons d ds => exact Or.inl (by simp [lexLt])
  | cons c cs ih =>
    cases b with
    | nil => exact Or.inr (Or.inr (by simp [lexLt]))
    | cons d ds =>
      by_cases h : c = d
      · subst h
        rcases ih ds with h1 | h1 | h1
        · exact Or.inl (by simp [lexLt, h1])
        · exact Or.inr (Or.inl (by rw [h1]))
        · exact Or.inr (Or.inr (by simp [lexLt, h1]))
      · rcases lt_or_gt_of_ne h with h1 | h1
        · exact Or.inl (by simp [lexLt, h, h1])
        · refine Or.inr (Or.inr ?_)
          have h2 : ¬ d = c := fun hh => h hh.symm
          simp [lexLt, h2, h1]

theorem lexLt_trans : ∀ {a b c : List Char},
    lexLt a b = true → lexLt b c = true → lexLt a c = true
  | [], _ :: _, _ :: _, _, _ => by simp [lexLt]
  | x :: xs, y :: ys, z :: zs, hab, hbc => by
    simp only [lexLt] at hab hbc ⊢
    by_cases hxy : x = y
    · subst hxy
      by_cases hyz : x = z
      · subst hyz
        simp at hab hbc
        simp [lexLt_trans hab hbc]
      · simp [hyz] at hbc ⊢
        simpa [hyz] using hbc
    · by_cases hyz : y = z
      · subst hyz
        simp [hxy] at hab ⊢
        exact hab
      · simp [hxy] at hab
        simp [hyz] at hbc
        have hxz : x < z := lt_trans hab hbc
        have : ¬ x = z := ne_of_lt hxz
        simp [this, hxz]

theorem lexLt_ne {a b : List Char} (h : lexLt a b = true) : a ≠ b := by
  intro hh
  subst hh
  rw [lexLt_irrefl] at h
  cases h

/-- The order in which Python `sorted` arranges the `(name, oid, type)`
tuples: lexicographic on the triple. -/
def eLE (a b : E3) : Prop :=
  (strLtB a.1 b.1 ||
    (decide (a.1 = b.1) &&
      (strLtB a.2.1 b.2.1 ||
        (decide (a.2.1 = b.2.1) && strLeB a.2.2 b.2.2)))) = true

instance : DecidableRel eLE := fun a b =>
  inferInstanceAs (Decidable
    ((strLtB a.1 b.1 ||
      (decide (a.1 = b.1) &&
        (strLtB a.2.1 b.2.1 ||
          (decide (a.2.1 = b.2.1) && strLeB a.2.2 b.2.2)))) = true))

theorem strLtB_trans {a b c : String} (h1 : strLtB a b = true)
    (h2 : strLtB b c = true) : strLtB a c = true :=
  lexLt_trans h1 h2

theorem strLtB_ne {a b : String} (h : strLtB a b = true) : a ≠ b := by
  intro hh
  subst hh
  rw [strLtB, lexLt_irrefl] at h
  cases h

theorem strLtB_total (a b : String) :
    strLtB a b = true ∨ a = b ∨ strLtB b a = true := by
  rcases lexLt_total a.data b.data with h | h | h
  · exact Or.inl h
  · refine Or.inr (Or.inl ?_)
    cases a
    cases b
    exact congrArg String.mk h
  · exact Or.inr (Or.inr h)

/-- The disjunctive reading of `eLE`. -/
theorem eLE_iff (a b : E3) :
    eLE a b ↔ strLtB a.1 b.1 = true ∨
      (a.1 = b.1 ∧ (strLtB a.2.1 b.2.1 = true ∨
        (a.2.1 = b.2.1 ∧ (strLtB a.2.2 b.2.2 = true ∨ a.2.2 = b.2.2)))) := by
  unfold eLE strLeB
  constructor
  · intro h
    simp only [Bool.or_eq_true, Bool.and_eq_true, decide_eq_true_eq] at h
    tauto
  · intro h
    simp only [Bool.or_eq_true, Bool.and_eq_true, decide_eq_true_eq]
    tauto

instance : IsTotal E3 eLE := by
  refine ⟨fun a b => ?_⟩
  rw [eLE_iff, eLE_iff]
  rcases strLtB_total a.1 b.1 with h1 | h1 | h1
  · exact Or.inl (Or.inl h1)
  · rcases strLtB_total a.2.1 b.2.1 with h2 | h2 | h2
    · exact Or.inl (Or.inr ⟨h1, Or.inl h2⟩)
    · rcases strLtB_total a.2.2 b.2.2 with h3 | h3 | h3
      · exact Or.inl (Or.inr ⟨h1, Or.inr ⟨h2, Or.inl h3⟩⟩)
      · exact Or.inl (Or.inr ⟨h1, Or.inr ⟨h2, Or.inr h3⟩⟩)
      · exact Or.inr (Or.inr ⟨h1.symm, Or.inr ⟨h2.symm, Or.inl h3⟩⟩)
    · exact Or.inr (Or.inr ⟨h1.symm, Or.inl h2⟩)
  · exact Or.inr (Or.inl h1)

instance : IsTrans E3 eLE := by
  refine ⟨fun a b c hab hbc => ?_⟩
  rw [eLE_iff] at hab hbc ⊢
  rcases hab with h1 | ⟨h1, h2⟩
  · rcases hbc with g1 | ⟨g1, _⟩
    · exact Or.inl (strLtB_trans h1 g1)
    · exact Or.inl (g1 ▸ h1)
  · rcases hbc with g1 | ⟨g1, g2⟩
    · exact Or.inl (h1 ▸ g1)
    · refine Or.inr ⟨h1.trans g1, ?_⟩
      rcases h2 with h2 | ⟨h2, h3⟩
      · rcases g2 with g2 | ⟨g2, _⟩
        · exact Or.inl (strLtB_trans h2 g2)
        · exact Or.inl (g2 ▸ h2)
      · rcases g2 with g2 | ⟨g2, g3⟩
        · exact Or.inl (h2 ▸ g2)
        · refine Or.inr ⟨h2.trans g2, ?_⟩
          rcases h3 with h3 | h3
          · rcases g3 with g3 | g3
            · exact Or.inl (strLtB_trans h3 g3)
            · exact Or.inl (g3 ▸ h3)
          · rcases g3 with g3 | g3
            · exact Or.inl (h3 ▸ g3)
            · exact Or.inr (h3.trans g3)

/-- Python `sorted` on the entry tuples (a stable sort; the entries of one
level have distinct names, so any sort for this total order gives the same
list). -/
def pySort (l : List E3) : List E3 :=
  l.insertionSort eLE

/-- One serialized line of a tree object: `type oid name` plus newline, as in
the format expression of `base.write_tree_recursive`. -/
def entryLine (e : E3) : String :=
  e.2.2 ++ " " ++ e.2.1 ++ " " ++ e.1 ++ "\n"

/-- Python string-join with the empty separator. -/
def concatStr (l : List String) : String :=
  l.foldr (fun s acc => s ++ acc) ""

/-- The serialized payload of one tree object: the sorted entries, one line
each. -/
def serializeEntries (es : List E3) : String :=
  concatStr ((pySort es).map entryLine)

/-- The entry-collection loop of `base.write_tree_recursive`: directories
are written recursively (bottom-up) as they are met, files contribute their
blob oid; the serialization and store write for one completed level
(the body of `write_tree_recursive`) is inlined at each `dict` entry and at
the root by `write_tree`.  Fueled (the Python recursion is over a finite
nested dict and always terminates; `outOfFuel` is the embedding artefact). -/
def wtGo (H : String → String → String) :
    Nat → List (String × PyTree) → Store → Except Err (List E3 × Store)
  | 0, _, _ => .error .outOfFuel
  | _ + 1, [], st => .ok ([], st)
  | fuel + 1, (name, .oid o) :: rest, st => do
    let p ← wtGo H fuel rest st
    .ok ((name, o, "blob") :: p.1, p.2)
  | fuel + 1, (name, .dict sub) :: rest, st => do
    let q ← wtGo H fuel sub st
    let h := hash_object H q.2 "tree" (serializeEntries q.1)
    let p ← wtGo H fuel rest h.2
    .ok ((name, h.1, "tree") :: p.1, p.2)

/-- `base.write_tree_recursive`: collect the entries of one level, serialize
them and store the level as a `tree` object. -/
def wt_node (H : String → String → String) (fuel : Nat)
    (entries : List (String × PyTree)) (st : Store) :
    Except Err (String × Store) := do
  let p ← wtGo H fuel entries st
  .ok (hash_object H p.2 "tree" (serializeEntries p.1))

/-- `base.write_tree`: group the index (the scoped access persists the
unchanged mapping), then write the tree objects; the recursive write happens
after the index scope has closed. -/
def write_tree (H : String → String → String) (st : GitState) (fuel : Nat) :
    GitState × Except Err String :=
  let index := st.indexFile.getD []
  match buildIndexTree index with
  | .error e => (st, .error e)
  | .ok node =>
    let st2 := { st with indexFile := some index }
    match wt_node H fuel node st2.store with
    | .error e => (st2, .error e)
    | .ok p => ({ st2 with store := p.2 }, .ok p.1)

/-- Parse one line of a tree object: Python split on space with maxsplit 2 and
unpacking into three names (fewer than three parts is a `ValueError`).  The
triple is in yield order of `base._iter_tree_entries`: `(type, oid, name)`. -/
def parseTreeEntry (line : String) : Except Err (String × String × String) :=
  match splitOnceL ' ' line.data with
  | none => .error .valueError
  | some p =>
    match splitOnceL ' ' p.2 with
    | none => .error .valueError
    | some q => .ok (⟨p.1⟩, ⟨q.1⟩, ⟨q.2⟩)

/-- `base._iter_tree_entries`, materialised: an empty oid yields nothing. -/
def iter_tree_entries (st : Store) (oid : String) :
    Except Err (List (String × String × String)) :=
  if oid = "" then .ok []
  else do
    let content ← get_object st oid (some "tree")
    (pySplitlines content).mapM parseTreeEntry

/-- Python `in` on a string and a character. -/
def containsChar (s : String) (c : Char) : Bool :=
  s.data.contains c

/-- `base.get_tree`: expand a tree object into the flat path-to-blob map,
asserting the name invariants; fueled for the recursion into subtrees. -/
def get_tree (st : Store) : Nat → String → String →
    Except Err (List (String × String))
  | 0, _, _ => .error .outOfFuel
  | fuel + 1, oid, base => do
    let entries ← iter_tree_entries st oid
    entries.foldlM (fun results e => do
      let (ty, oid2, name) := e
      if containsChar name '/' then .error .assertionError
      else if name = ".." || name = "." then .error .assertionError
      else
        let path := base ++ name
        if ty = "blob" then .ok (dinsert path oid2 results)
        else if ty = "tree" then do
          let sub ← get_tree st fuel oid2 (path ++ "/")
          .ok (dupdate results sub)
        else .error .assertionError) []

/-! ### The commit model (`base.commit`, `base.get_commit`, traversals) -/

/-- The `Commit` named tuple of `base.py`. -/
structure Commit where
  tree : String
  parents : List String
  message : String
deriving DecidableEq, Repr

/-- The header-line step of `base.get_commit`: split the line on the first
space into key and value (fewer than two parts is the unpacking
`ValueError`), record a `tree` value, append a `parent` value, and fail on
any other key. -/
def commitHeaderStep (acc : Option String × List String) (line : String) :
    Except Err (Option String × List String) :=
  match splitOnceL ' ' line.data with
  | none => .error .valueError
  | some p =>
    let key : String := ⟨p.1⟩
    let val : String := ⟨p.2⟩
    if key = "tree" then .ok (some val, acc.2)
    else if key = "parent" then .ok (acc.1, acc.2 ++ [val])
    else .error .assertionError

/-- `base.get_commit`: header lines are the lines before the first blank line
(the blank line itself is consumed by `takewhile`); each is split on the
first space into key and value; only `tree` and `parent` keys are legal; the
remaining lines joined by newlines form the message.  The local `tree` is
never initialised, so a commit without a `tree` line would raise
`UnboundLocalError` (the commented-out default in the source). -/
def get_commit (st : Store) (oid : String) : Except Err Commit := do
  let content ← get_object st oid (some "commit")
  let lines := pySplitlines content
  let headerLines := lines.takeWhile (fun l => l ≠ "")
  let messageLines := (lines.dropWhile (fun l => l ≠ "")).tail
  let hp ← headerLines.foldlM commitHeaderStep ((none, []) : Option String × List String)
  match hp.1 with
  | none => .error .nameError
  | some t => .ok ⟨t, hp.2, pyJoin "\n" messageLines⟩

/-- The argument that the Python callers hand to the traversal generators:
either an iterable of id strings (a set, list, filter or dict view), a single
string (iterated character by character by `deque`), or — as in
`remote.fetch` — an uncalled bound method, on which `deque` raises
`TypeError`. -/
inductive PyIterable where
  | strList (l : List String)
  | pyStr (s : String)
  | boundMethod

/-- `collections.deque(x)` over the iterable. -/
def pyDeque : PyIterable → Except Err (List String)
  | .strList l => .ok l
  | .pyStr s => .ok (s.data.map (fun c => (⟨[c]⟩ : String)))
  | .boundMethod => .error .typeError

/-- The loop of `base.iter_commits_and_parents`, materialised eagerly: pop
from the front, skip falsy or visited ids, yield, read the commit, push the
first parent to the front and the remaining parents to the back.  The
`visited` set is threaded exactly as in the source: it is initialised empty
and the loop never adds to it. -/
def icapGo (st : Store) : Nat → List String → List String → Except Err (List String)
  | 0, _, _ => .error .outOfFuel
  | _ + 1, [], _ => .ok []
  | fuel + 1, oid :: rest, visited =>
    if oid = "" || visited.contains oid then icapGo st fuel rest visited
    else do
      let c ← get_commit st oid
      let tail ← icapGo st fuel (c.parents.take 1 ++ rest ++ c.parents.drop 1) visited
      .ok (oid :: tail)

/-- `base.iter_commits_and_parents`, consumed in full (as `set(...)` and the
ref-listing callers do). -/
def iter_commits_and_parents (st : Store) (fuel : Nat) (oids : PyIterable) :
    Except Err (List String) := do
  icapGo st fuel (← pyDeque oids) []

/-- Lazy consumption of `base.iter_commits_and_parents` by a short-circuiting
search (the `in` operator, or the loop of `get_merge_base`): each yielded id
is tested before the generator is resumed — a found id means the commit
object behind it is never read. -/
def icapFindGo (st : Store) (found : String → Bool) :
    Nat → List String → List String → Except Err (Option String)
  | 0, _, _ => .error .outOfFuel
  | _ + 1, [], _ => .ok none
  | fuel + 1, oid :: rest, visited =>
    if oid = "" || visited.contains oid then icapFindGo st found fuel rest visited
    else if found oid then .ok (some oid)
    else do
      let c ← get_commit st oid
      icapFindGo st found fuel (c.parents.take 1 ++ rest ++ c.parents.drop 1) visited

/-- `base.get_merge_base`: materialise the full ancestor list of `oid1`, then
scan the ancestors of `oid2` lazily for the first member; `none` is the
implicit Python `None` when the loop ends. -/
def get_merge_base (st : Store) (fuel : Nat) (oid1 oid2 : String) :
    Except Err (Option String) := do
  let parents1 ← iter_commits_and_parents st fuel (.strList [oid1])
  let seed ← pyDeque (.strList [oid2])
  icapFindGo st (fun oid => parents1.contains oid) fuel seed []

/-- `base.is_ancestor_of`.  NOTE: the source passes the commit id itself — a
plain string — to `iter_commits_and_parents`, so the deque is seeded with the
single-character strings of the id, not with the id. -/
def is_ancestor_of (st : Store) (fuel : Nat) (commit maybe_ancestor : String) :
    Except Err Bool := do
  let seed ← pyDeque (.pyStr commit)
  let r ← icapFindGo st (fun oid => oid = maybe_ancestor) fuel seed []
  .ok r.isSome

/-- `iter_objects_in_tree` inside `base.iter_objects_in_commits`, with its
entry loop folded into one fueled function: the left summand expands one
tree id (mark it visited, yield it, walk its entries), the right summand
processes a list of remaining entries (unvisited subtree ids are expanded
recursively, other unvisited ids are marked and yielded). -/
def iotGo (st : Store) : Nat → (String ⊕ List (String × String × String)) →
    List String → Except Err (List String × List String)
  | 0, _, _ => .error .outOfFuel
  | fuel + 1, .inl oid, visited => do
    let visited := oid :: visited
    let entries ← iter_tree_entries st oid
    let p ← iotGo st fuel (.inr entries) visited
    .ok (oid :: p.1, p.2)
  | _ + 1, .inr [], visited => .ok ([], visited)
  | fuel + 1, .inr (e :: rest), visited =>
    if visited.contains e.2.1 then iotGo st fuel (.inr rest) visited
    else if e.1 = "tree" then do
      let p ← iotGo st fuel (.inl e.2.1) visited
      let q ← iotGo st fuel (.inr rest) p.2
      .ok (p.1 ++ q.1, q.2)
    else do
      let q ← iotGo st fuel (.inr rest) (e.2.1 :: visited)
      .ok (e.2.1 :: q.1, q.2)

/-- `iter_objects_in_tree` on one tree id. -/
def iotTree (st : Store) (fuel : Nat) (oid : String) (visited : List String) :
    Except Err (List String × List String) :=
  iotGo st fuel (.inl oid) visited

/-- The interleaved loop of `base.iter_objects_in_commits`: for each commit id
yielded by `iter_commits_and_parents` (whose visited set never grows — see
`icapGo`), yield the id, then the objects of its tree unless the tree id was
already visited, then resume the commit traversal. -/
def ioicGo (st : Store) : Nat → List String → List String → List String →
    Except Err (List String)
  | 0, _, _, _ => .error .outOfFuel
  | _ + 1, [], _, _ => .ok []
  | fuel + 1, oid :: rest, icapVisited, treeVisited =>
    if oid = "" || icapVisited.contains oid then
      ioicGo st fuel rest icapVisited treeVisited
    else do
      let c ← get_commit st oid
      let p ← if treeVisited.contains c.tree then pure (([], treeVisited) : List String × List String)
              else iotTree st fuel c.tree treeVisited
      let tail ← ioicGo st fuel (c.parents.take 1 ++ rest ++ c.parents.drop 1)
        icapVisited p.2
      .ok (oid :: p.1 ++ tail)

/-- `base.iter_objects_in_commits`, consumed in full. -/
def iter_objects_in_commits (st : Store) (fuel : Nat) (oids : PyIterable) :
    Except Err (List String) := do
  ioicGo st fuel (← pyDeque oids) [] []

/-! ### The merge engine and top-level operations -/

/-- The loop of keep-first deduplication. -/
def dedupGo (seen : List String) : List String → List String
  | [] => []
  | k :: rest =>
    if seen.contains k then dedupGo seen rest
    else k :: dedupGo (k :: seen) rest

/-- Keep-first deduplication, as iterating a Python dict built from repeated
keys or a set built in insertion order. -/
def dedupKeys (l : List String) : List String :=
  dedupGo [] l

/-- Modelled from the spec: the per-path decision of the tree-level three-way
merge (`diff.merge_trees` lives in `ugit/diff.py`, which is not under `src/`).
Spec section 4.6: union of paths; for each path, if only one side changed
from base, take that side; if both changed identically, take either; if both
changed differently, invoke the injected file-level three-way merge and
accept its output (conflict markers and all) as valid content.  The injected
per-file merge is the opaque parameter `fm`, returning the blob id of the
merged content. -/
def mergeEntry (fm : Option String → Option String → Option String → String)
    (b h o : Option String) : Option String :=
  if h = b then o
  else if o = b then h
  else if h = o then h
  else some (fm b h o)

/-- Modelled from the spec: `diff.merge_trees` — merge three flat
path-to-blob-id maps path by path over the union of their paths, producing
the merged flat map (spec section 4.6). -/
def merge_trees (fm : Option String → Option String → Option String → String)
    (base head other : List (String × String)) : List (String × String) :=
  let paths := dedupKeys (base.map (·.1) ++ head.map (·.1) ++ other.map (·.1))
  paths.foldl (fun acc p =>
    match mergeEntry fm (dlookup p base) (dlookup p head) (dlookup p other) with
    | some o => dinsert p o acc
    | none => acc) []

/-- `base.read_tree` (with `update_working` false, as in all calls reasoned
about here): inside the index scope, clear the mapping, then expand the tree
and load it.  The clearing happens before `get_tree` runs, so a failure
inside `get_tree` leaves the cleared-but-unpersisted mapping behind. -/
def read_tree (st : GitState) (fuel : Nat) (tree_oid : String) :
    GitState × Except Err Unit :=
  withIndexRun st (fun _ =>
    match get_tree st.store fuel tree_oid "" with
    | .ok t => (t, .ok ())
    | .error e => ([], .error e))

/-- `base.read_tree_merged` (with `update_working` false): clear the index,
merge the three expanded trees, load the result.  The parameter roles are
those of the source signature: `(t_base, t_HEAD, t_other)`. -/
def read_tree_merged (fm : Option String → Option String → Option String → String)
    (st : GitState) (fuel : Nat) (t_base t_HEAD t_other : String) :
    GitState × Except Err Unit :=
  withIndexRun st (fun _ =>
    match get_tree st.store fuel t_base "" with
    | .error e => ([], .error e)
    | .ok b =>
      match get_tree st.store fuel t_HEAD "" with
      | .error e => ([], .error e)
      | .ok h =>
        match get_tree st.store fuel t_other "" with
        | .error e => ([], .error e)
        | .ok o => (merge_trees fm b h o, .ok ()))

/-- `base.merge`: fast-forward when the merge base equals `HEAD`; otherwise
set `MERGE_HEAD` and do the in-index three-way merge.  The source passes
`(c_HEAD.tree, c_base.tree, c_other.tree)` positionally into
`read_tree_merged (t_base, t_HEAD, t_other, ...)` — kept verbatim here.  A
`None` merge base reaches `get_commit(None)`, i.e. a missing object file. -/
def mergeOp (fm : Option String → Option String → Option String → String)
    (st : GitState) (fuel : Nat) (other : String) : Except Err GitState := do
  let headRv ← get_ref st.refs fuel "HEAD" true
  if ¬ optTruthy headRv.value then .error .assertionError
  else do
    let HEAD := headRv.value.getD ""
    let merge_base ← get_merge_base st.store fuel other HEAD
    let c_other ← get_commit st.store other
    if merge_base = some HEAD then do
      let p := read_tree st fuel c_other.tree
      let _ ← p.2
      let refs2 ← update_ref p.1.refs fuel "HEAD" ⟨false, some other⟩ true
      .ok { p.1 with refs := refs2 }
    else do
      let refs2 ← update_ref st.refs fuel "MERGE_HEAD" ⟨false, some other⟩ true
      let st2 := { st with refs := refs2 }
      let c_HEAD ← get_commit st2.store HEAD
      let c_base ← match merge_base with
        | some b => get_commit st2.store b
        | none => .error .fileNotFound
      let p := read_tree_merged fm st2 fuel c_HEAD.tree c_base.tree c_other.tree
      let _ ← p.2
      .ok p.1

/-- `base.commit`: write the tree, add `HEAD` as first parent when set, add
`MERGE_HEAD` as second parent when set — and then call
`data.delete_ref(MERGE_HEAD, deref=False)`, i.e. delete the ref whose NAME is
the VALUE of `MERGE_HEAD` (kept verbatim from the source); append the blank
line and the message, store the commit, advance `HEAD`. -/
def commitOp (H : String → String → String) (st : GitState) (fuel : Nat)
    (message : String) : Except Err (String × GitState) := do
  let p := write_tree H st fuel
  let treeOid ← p.2
  let st1 := p.1
  let headRv ← get_ref st1.refs fuel "HEAD" true
  let s0 := "tree " ++ treeOid ++ "\n"
  let s1 := if optTruthy headRv.value
            then s0 ++ "parent " ++ headRv.value.getD "" ++ "\n"
            else s0
  let mhRv ← get_ref st1.refs fuel "MERGE_HEAD" true
  let sr ← if optTruthy mhRv.value then do
      let s2 := s1 ++ "parent " ++ mhRv.value.getD "" ++ "\n"
      let refs2 ← delete_ref st1.refs fuel (mhRv.value.getD "") false
      pure (s2, refs2)
    else
      pure (s1, st1.refs)
  let content := sr.1 ++ "\n" ++ message ++ "\n"
  let q := hash_object H st1.store "commit" content
  let refs3 ← update_ref sr.2 fuel "HEAD" ⟨false, some q.1⟩ true
  .ok (q.1, { st1 with store := q.2, refs := refs3 })

/-! ### The remote layer (`ugit/remote.py`) -/

/-- `remote._get_remote_refs`: all (truthy, dereferenced) refs of the remote
repository under a prefix, as a name-to-oid dict. -/
def get_remote_refs (remote : GitState) (fuel : Nat) (pre : String) :
    Except Err (List (String × String)) := do
  let rs ← iter_refs remote.refs fuel pre true
  .ok (rs.map (fun p => (p.1, p.2.value.getD "")))

/-- `remote.fetch`: list the remote branch refs, then iterate
`base.iter_objects_in_commits(refs.values)` — the source passes the bound
method `refs.values` without calling it, and `deque` raises `TypeError` on
it; the per-object `fetch_object_if_missing` loop and the tracking-ref
writes come after. -/
def fetchOp (locSt remote : GitState) (fuel : Nat) : Except Err GitState := do
  let refs ← get_remote_refs remote fuel "refs/heads/"
  let oids ← iter_objects_in_commits locSt.store fuel .boundMethod
  let store2 ← oids.foldlM (fun acc oid =>
    fetch_object_if_missing acc remote.store oid) locSt.store
  let refs2 ← refs.foldlM (fun acc p =>
    update_ref acc fuel ("refs/remote/" ++ "/" ++ p.1.drop ("refs/heads/".length))
      ⟨false, some p.2⟩ true) locSt.refs
  .ok { locSt with store := store2, refs := refs2 }

/-- `remote.push`: read all remote refs, require the local ref to be truthy,
then `assert not remote_refs or base.is_ancestor_of(local_ref, remote_refs)`
— kept verbatim: the whole remote ref DICT is passed where a single oid
belongs (the unused `remote_ref` of the source is dropped), and
`is_ancestor_of` iterates the characters of `local_ref`; a yielded
one-character id never equals the dict, so the comparison is always false.
When the assert passes, compute the object delta and copy it, then update
the remote ref. -/
def pushOp (locSt remote : GitState) (fuel : Nat) (refname : String) :
    Except Err (GitState × GitState) := do
  let remote_refs ← get_remote_refs remote fuel ""
  let localRv ← get_ref locSt.refs fuel refname true
  if ¬ optTruthy localRv.value then .error .assertionError
  else do
    let local_ref := localRv.value.getD ""
    let ffOk ← if remote_refs.isEmpty then pure true
      else do
        let seed ← pyDeque (.pyStr local_ref)
        let r ← icapFindGo locSt.store (fun _ => false) fuel seed []
        pure r.isSome
    if ¬ ffOk then .error .assertionError
    else do
      let known := (remote_refs.map (·.2)).filter (object_exists locSt.store)
      let remoteObjs ← iter_objects_in_commits locSt.store fuel (.strList known)
      let localObjs ← iter_objects_in_commits locSt.store fuel (.strList [local_ref])
      let toPush := (dedupKeys localObjs).filter (fun o => ¬ remoteObjs.contains o)
      let rstore2 ← toPush.foldlM (fun acc oid => push_object locSt.store acc oid)
        remote.store
      let rrefs2 ← update_ref remote.refs fuel refname ⟨false, some local_ref⟩ true
      .ok (locSt, { remote with store := rstore2, refs := rrefs2 })

/-! ### String-level facts about the tree codec serialization -/

theorem slGo_safe_step (acc rest : List Char) {c : Char} (hc : isLineBreak c = false) :
    slGo acc (c :: rest) = slGo (c :: acc) rest := by
  have h1 : (c = '\r') = False := by
    simp only [eq_iff_iff, iff_false]
    intro h
    subst h
    simp [isLineBreak] at hc
  cases rest with
  | nil => simp [slGo, hc]
  | cons d ds => simp [slGo, h1, hc]

theorem slGo_flush_lf (acc rest : List Char) :
    slGo acc ('\n' :: rest) = acc.reverse :: (if rest.isEmpty then [] else slGo [] rest) := by
  cases rest with
  | nil => simp [slGo, isLineBreak]
  | cons d ds => simp [slGo, isLineBreak]

/-- Scanning a break-free line followed by LF flushes exactly that line. -/
theorem slGo_line (l : List Char) (hl : l.all (fun c => !isLineBreak c) = true) :
    ∀ acc rest, slGo acc (l ++ '\n' :: rest) =
      (acc.reverse ++ l) :: (if rest.isEmpty then [] else slGo [] rest) := by
  induction l with
  | nil =>
    intro acc rest
    simpa using slGo_flush_lf acc rest
  | cons x l2 ih =>
    intro acc rest
    simp only [List.all_cons, Bool.and_eq_true] at hl
    have hx : isLineBreak x = false := by
      rcases hl with ⟨h1, _⟩
      simpa using h1
    have step := slGo_safe_step acc (l2 ++ '\n' :: rest) hx
    simp only [List.cons_append]
    rw [step]
    rw [ih (by rcases hl with ⟨_, h2⟩; exact h2) (x :: acc) rest]
    simp

/-- `splitlines` of a break-free line, an LF, and a remainder. -/
theorem pySplitlinesL_line (l rest : List Char)
    (hl : l.all (fun c => !isLineBreak c) = true) :
    pySplitlinesL (l ++ '\n' :: rest) = l :: pySplitlinesL rest := by
  have hne : l ++ '\n' :: rest ≠ [] := by
    cases l <;> simp
  have h1 : pySplitlinesL (l ++ '\n' :: rest) = slGo [] (l ++ '\n' :: rest) := by
    cases hx : l ++ '\n' :: rest with
    | nil => exact absurd hx hne
    | cons a as => rfl
  rw [h1, slGo_line l hl [] rest]
  simp only [List.reverse_nil, List.nil_append]
  congr 1
  cases rest with
  | nil => simp [pySplitlinesL]
  | cons a as => simp [pySplitlinesL]

/-- Splitting at the first separator after a separator-free head. -/
theorem splitOnceL_append (sep : Char) (u v : List Char)
    (hu : u.all (fun c => !(c = sep)) = true) :
    splitOnceL sep (u ++ sep :: v) = some (u, v) := by
  induction u with
  | nil => simp [splitOnceL]
  | cons x u2 ih =>
    simp only [List.all_cons, Bool.and_eq_true] at hu
    rcases hu with ⟨h1, h2⟩
    have hx : (x = sep) = False := by
      simpa using h1
    simp only [List.cons_append, splitOnceL, hx, if_false, List.append_eq]
    rw [ih h2]
    rfl

theorem string_data_append (a b : String) : (a ++ b).data = a.data ++ b.data := by
  cases a
  cases b
  rfl

theorem string_mk_data (s : String) : String.mk s.data = s := by
  cases s
  rfl

theorem dlookup_dinsert {α : Type} (k k2 : String) (v : α) (l : List (String × α)) :
    dlookup k (dinsert k2 v l) = if k = k2 then some v else dlookup k l := by
  induction l with
  | nil => by_cases h : k = k2 <;> simp [dinsert, dlookup, h]
  | cons p rest ih =>
    obtain ⟨pk, pv⟩ := p
    by_cases h2 : k2 = pk
    · by_cases h : k = k2
      · simp [dinsert, dlookup, h2, h, h.trans h2]
      · have hkp : ¬ k = pk := fun hh => h (hh.trans h2.symm)
        simp [dinsert, dlookup, h2, h, hkp]
    · by_cases h : k = pk
      · have hkk : ¬ k = k2 := fun hh => h2 (hh.symm.trans h)
        have hpk : ¬ pk = k2 := fun hh => h2 hh.symm
        simp [dinsert, dlookup, h2, h, hkk, hpk]
      · simp [dinsert, dlookup, h2, h, ih]

/-- A string with no line-break characters. -/
def breakFree (s : String) : Bool :=
  s.data.all (fun c => !isLineBreak c)

/-- A string with no space characters. -/
def spaceFreeB (s : String) : Bool :=
  s.data.all (fun c => !(decide (c = ' ')))

/-- Well-formed entry tuple `(name, oid, type)` of one tree level: the kind is
`blob` or `tree`, the name and the oid contain no line break, the oid no
space. -/
def entryWF (e : E3) : Bool :=
  (decide (e.2.2 = "blob") || decide (e.2.2 = "tree")) &&
  breakFree e.1 && breakFree e.2.1 && spaceFreeB e.2.1

theorem parse_body (t o n : String)
    (ht : t.data.all (fun c => !(decide (c = ' '))) = true)
    (ho : o.data.all (fun c => !(decide (c = ' '))) = true) :
    parseTreeEntry ⟨t.data ++ ' ' :: (o.data ++ ' ' :: n.data)⟩ = .ok (t, o, n) := by
  unfold parseTreeEntry
  rw [show (String.mk (t.data ++ ' ' :: (o.data ++ ' ' :: n.data))).data =
      t.data ++ ' ' :: (o.data ++ ' ' :: n.data) from rfl]
  rw [splitOnceL_append ' ' t.data _ ht]
  show (match splitOnceL ' ' (o.data ++ ' ' :: n.data) with
      | none => (Except.error Err.valueError : Except Err (String × String × String))
      | some q => Except.ok (⟨t.data⟩, ⟨q.1⟩, ⟨q.2⟩)) = Except.ok (t, o, n)
  rw [splitOnceL_append ' ' o.data _ ho]

theorem entryLine_data (e : E3) :
    (entryLine e).data =
      (e.2.2.data ++ ' ' :: (e.2.1.data ++ ' ' :: e.1.data)) ++ '\n' :: ([] : List Char) := by
  unfold entryLine
  simp only [string_data_append]
  simp [List.append_assoc]

theorem concatStr_cons (s : String) (l : List String) :
    concatStr (s :: l) = s ++ concatStr l := rfl

/-- Parsing back the serialization of well-formed entry lines gives exactly
the `(type, oid, name)` triples in line order. -/
theorem parse_lines (es : List E3) (h : ∀ e ∈ es, entryWF e = true) :
    (pySplitlines (concatStr (es.map entryLine))).mapM parseTreeEntry =
      .ok (es.map (fun e => (e.2.2, e.2.1, e.1))) := by
  induction es with
  | nil => rfl
  | cons e rest ih =>
    have he := h e (List.mem_cons_self e rest)
    simp only [entryWF, Bool.and_eq_true, Bool.or_eq_true, decide_eq_true_eq] at he
    obtain ⟨⟨⟨hty, hn⟩, ho⟩, hosp⟩ := he
    unfold breakFree at hn ho
    unfold spaceFreeB at hosp
    have hty_space : e.2.2.data.all (fun c => !(decide (c = ' '))) = true := by
      rcases hty with h2 | h2 <;> rw [h2] <;> decide
    have hty_break : e.2.2.data.all (fun c => !isLineBreak c) = true := by
      rcases hty with h2 | h2 <;> rw [h2] <;> decide
    have hbody : (e.2.2.data ++ ' ' :: (e.2.1.data ++ ' ' :: e.1.data)).all
        (fun c => !isLineBreak c) = true := by
      simp [List.all_append, List.all_cons, hty_break, ho, hn]
      decide
    rw [List.map_cons, concatStr_cons]
    unfold pySplitlines
    rw [string_data_append, entryLine_data e, List.append_assoc, List.singleton_append]
    rw [pySplitlinesL_line _ _ hbody]
    rw [List.map_cons, List.mapM_cons]
    rw [parse_body _ _ _ hty_space hosp]
    unfold pySplitlines at ih
    rw [ih (fun e2 he2 => h e2 (List.mem_cons_of_mem _ he2))]
    rfl

/-! ### Claim C1: argument order of the three-way merge in `base.merge` -/

/-- A divergent history over one file `f`: the common base tree maps `f` to
`o1`, the `HEAD` tree changed it to `o2`, the incoming tree kept `o1`. -/
def c1Store : Store := [
  ("cB", ("commit", "tree tB\n\nm\n")),
  ("cH", ("commit", "tree tH\nparent cB\n\nm\n")),
  ("cO", ("commit", "tree tO\nparent cB\n\nm\n")),
  ("tB", ("tree", "blob o1 f\n")),
  ("tH", ("tree", "blob o2 f\n")),
  ("tO", ("tree", "blob o1 f\n"))]

def c1State : GitState := ⟨c1Store, [("HEAD", "cH")], some []⟩

/-- An arbitrary injected per-file merge; the run below never invokes it. -/
def mergeFm : Option String → Option String → Option String → String :=
  fun _ _ _ => "oX"

/-- Claim C1: with `HEAD = cH`, `other = cO` and merge base `cB` (neither
empty nor `HEAD`), `merge` does set `MERGE_HEAD = cO`, but it loads
`[(f, o1)]` into the index — the three-way merge of the trees with `HEAD`
and the base in swapped roles (both-changed-identically, keep `o1`) — while
the merge of `(base.tree, HEAD.tree, other.tree)` in the claimed role order
is `[(f, o2)]` (only `HEAD` changed, keep its side).  The call at
`base.py:244` passes `c_HEAD.tree` as `t_base` and `c_base.tree` as
`t_HEAD`. -/
theorem c1_merge_swaps_base_and_head_trees :
    mergeOp mergeFm c1State 30 "cO" =
      .ok ⟨c1Store, [("HEAD", "cH"), ("MERGE_HEAD", "cO")], some [("f", "o1")]⟩ ∧
    get_tree c1Store 30 "tB" "" = .ok [("f", "o1")] ∧
    get_tree c1Store 30 "tH" "" = .ok [("f", "o2")] ∧
    get_tree c1Store 30 "tO" "" = .ok [("f", "o1")] ∧
    merge_trees mergeFm [("f", "o1")] [("f", "o2")] [("f", "o1")] = [("f", "o2")] ∧
    (some [("f", "o1")] : Option (List (String × String))) ≠ some [("f", "o2")] := by
  refine ⟨by decide, by decide, by decide, by decide, by decide, by decide⟩

/-! ### Claim C2: `commit` finalising a merge -/

/-- A state in mid-merge: `HEAD = cH`, `MERGE_HEAD = cM`, empty index. -/
def c2State : GitState := ⟨[
  ("tE", ("tree", "")),
  ("cH", ("commit", "tree tE\n\nm\n")),
  ("cM", ("commit", "tree tE\nparent cH\n\nm\n"))],
  [("HEAD", "cH"), ("MERGE_HEAD", "cM")], some []⟩

/-- Claim C2: with `MERGE_HEAD = cM` set, `commit` raises
`FileNotFoundError` instead of producing the two-parent commit: the source
calls `delete_ref` on the VALUE `cM` (the oid) instead of on the NAME
`MERGE_HEAD`, and no ref file named `cM` exists, so `os.remove` fails; the
commit object is never stored and `MERGE_HEAD` survives. -/
theorem c2_commit_deletes_ref_named_by_value :
    dlookup "MERGE_HEAD" c2State.refs = some "cM" ∧
    dlookup "cM" c2State.refs = none ∧
    delete_ref c2State.refs 30 "cM" false = .error .fileNotFound ∧
    commitOp (fun _ _ => "h0") c2State 30 "msg" = .error .fileNotFound := by
  refine ⟨by decide, by decide, by decide, by decide⟩

/-! ### Claim C3: at-most-once traversal of the commit graph -/

/-- A diamond: `cA` merges `cB` and `cC`, which share the parent `cD`. -/
def c3Store : Store := [
  ("cA", ("commit", "tree t0\nparent cB\nparent cC\n\nm\n")),
  ("cB", ("commit", "tree t0\nparent cD\n\nm\n")),
  ("cC", ("commit", "tree t0\nparent cD\n\nm\n")),
  ("cD", ("commit", "tree t0\n\nm\n")),
  ("t0", ("tree", ""))]

/-- Claim C3: on the diamond, `iter_commits_and_parents` yields `cD` twice
(and `iter_objects_in_commits` therefore repeats it as well): the loop
declares a `visited` set but never adds to it. -/
theorem c3_traversal_repeats_shared_ancestor :
    iter_commits_and_parents c3Store 30 (.strList ["cA"]) =
      .ok ["cA", "cB", "cD", "cC", "cD"] ∧
    iter_objects_in_commits c3Store 30 (.strList ["cA"]) =
      .ok ["cA", "t0", "cB", "cD", "cC", "cD"] ∧
    ["cA", "cB", "cD", "cC", "cD"].count "cD" = 2 ∧
    ¬ ["cA", "cB", "cD", "cC", "cD"].Nodup ∧
    ¬ ["cA", "t0", "cB", "cD", "cC", "cD"].Nodup := by
  refine ⟨by decide, by decide, by decide, by decide, by decide⟩

/-! ### Claim C4: persistence of the scoped index access -/

/-- A body that mutates the mapping and then fails. -/
def c4Body (i : List (String × String)) :
    List (String × String) × Except Err Unit :=
  (dinsert "b" "2" i, .error .assertionError)

/-- A body that mutates the mapping and finishes normally. -/
def c4BodyOk (i : List (String × String)) :
    List (String × String) × Except Err Unit :=
  (dinsert "b" "2" i, .ok ())

def c4State : GitState := ⟨[], [], some [("a", "1")]⟩

/-- Claim C4 counterexample: the body mutates the loaded mapping to
`[(a,1), (b,2)]` and then raises; `get_index` has no try/finally, so the
dump is skipped and the persisted index file still holds `[(a,1)]` — not
the mutated mapping the claim promises. -/
theorem c4_error_skips_persistence :
    c4Body [("a", "1")] = ([("a", "1"), ("b", "2")], .error .assertionError) ∧
    withIndexRun c4State c4Body = (c4State, .error .assertionError) ∧
    (withIndexRun c4State c4Body).1.indexFile = some [("a", "1")] ∧
    (some [("a", "1")] : Option (List (String × String))) ≠
      some [("a", "1"), ("b", "2")] :=
  ⟨rfl, rfl, rfl, by decide⟩

/-- Claim C4 as amended: the scoped access persists the mutated mapping on
normal completion of the body only; when the body fails, the error
propagates and the persisted index file is left exactly as it was. -/
theorem c4_persists_only_on_normal_exit {α : Type} (st : GitState)
    (body : List (String × String) → List (String × String) × Except Err α)
    (i2 : List (String × String)) (a : α) (e : Err) :
    (body (st.indexFile.getD []) = (i2, .ok a) →
      (withIndexRun st body).1.indexFile = some i2 ∧
      (withIndexRun st body).2 = .ok a) ∧
    (body (st.indexFile.getD []) = (i2, .error e) →
      (withIndexRun st body).1.indexFile = st.indexFile ∧
      (withIndexRun st body).2 = .error e) := by
  constructor
  · intro h
    simp [withIndexRun, h]
  · intro h
    simp [withIndexRun, h]

theorem c4_persists_only_on_normal_exit_witness :
    (c4BodyOk [("a", "1")] = ([("a", "1"), ("b", "2")], .ok ()) ∧
      (withIndexRun c4State c4BodyOk).1.indexFile = some [("a", "1"), ("b", "2")] ∧
      (withIndexRun c4State c4BodyOk).2 = .ok ()) ∧
    (c4Body [("a", "1")] = ([("a", "1"), ("b", "2")], .error .assertionError) ∧
      (withIndexRun c4State c4Body).1.indexFile = some [("a", "1")] ∧
      (withIndexRun c4State c4Body).2 = .error .assertionError) := by
  have h1 := (c4_persists_only_on_normal_exit c4State c4BodyOk
    [("a", "1"), ("b", "2")] () Err.assertionError).1 rfl
  have h2 := (c4_persists_only_on_normal_exit c4State c4Body
    [("a", "1"), ("b", "2")] () Err.assertionError).2 rfl
  exact ⟨⟨rfl, h1.1, h1.2⟩, ⟨rfl, h2.1, h2.2⟩⟩

/-! ### Claim C5: non-fast-forward rejection in `remote.push` -/

/-- Local history `c1 <- c2` with branch `master` at `c2`. -/
def c5Local : GitState := ⟨[
  ("c1", ("commit", "tree t0\n\nm\n")),
  ("c2", ("commit", "tree t0\nparent c1\n\nm\n")),
  ("t0", ("tree", ""))],
  [("refs/heads/master", "c2")], none⟩

/-- The remote holds `master = c1`, an ancestor of the local `c2`: the
fast-forward condition of the claim holds and the push should succeed. -/
def c5Remote : GitState := ⟨[("c1", ("commit", "tree t0\n\nm\n")), ("t0", ("tree", ""))],
  [("refs/heads/master", "c1")], none⟩

/-- Claim C5: the remote value `c1` IS an ancestor of the local `c2` (the
correctly seeded traversal finds it), yet `push` fails with
`FileNotFoundError` — the source asserts
`is_ancestor_of(local_ref, remote_refs)` with the whole remote ref dict as
the candidate and the bare oid string as the seed, so the traversal pops the
character `c` of `c2` and tries to read a commit object named `c`.  No
object is copied and no remote ref is written. -/
theorem c5_push_rejects_fast_forward_push :
    get_remote_refs c5Remote 30 "" = .ok [("refs/heads/master", "c1")] ∧
    icapFindGo c5Local.store (fun o => o = "c1") 30 ["c2"] [] = .ok (some "c1") ∧
    pushOp c5Local c5Remote 30 "refs/heads/master" = .error .fileNotFound := by
  refine ⟨by decide, by decide, by decide⟩

/-! ### Claim C6: `remote.fetch` -/

/-- A remote with one branch (`master = cD`) and its objects. -/
def c6Remote : GitState :=
  ⟨[("cD", ("commit", "tree t0\n\nm\n")), ("t0", ("tree", ""))],
  [("refs/heads/master", "cD")], none⟩

def c6Local : GitState := ⟨[], [], none⟩

/-- Claim C6: the remote branch listing succeeds, but `fetch` raises
`TypeError` before transferring anything: the source passes the bound method
`refs.values` (uncalled) to `iter_objects_in_commits`, and `deque` cannot
iterate a method object.  No object and no tracking ref is ever written. -/
theorem c6_fetch_passes_uncalled_values_method :
    get_remote_refs c6Remote 30 "refs/heads/" = .ok [("refs/heads/master", "cD")] ∧
    fetchOp c6Local c6Remote 30 = .error .typeError := by
  refine ⟨by decide, by decide⟩

/-! ### Claim C8: `is_ancestor_of` on a linear chain -/

/-- A linear chain `cA <- cB <- cC`. -/
def c8Store : Store := [
  ("cA", ("commit", "tree t0\n\nm\n")),
  ("cB", ("commit", "tree t0\nparent cA\n\nm\n")),
  ("cC", ("commit", "tree t0\nparent cB\n\nm\n")),
  ("t0", ("tree", ""))]

/-- Claim C8: on the chain `cA <- cB <- cC`, `is_ancestor_of` raises
`FileNotFoundError` in both directions instead of returning true and false:
the source seeds the traversal with the id string itself instead of a
singleton set, so the deque holds the single characters of the id and the
first resumption tries to read the commit object named `c`.  The correctly
seeded traversal (singleton queue) does find `cA` from `cC`. -/
theorem c8_is_ancestor_of_iterates_characters :
    is_ancestor_of c8Store 30 "cC" "cA" = .error .fileNotFound ∧
    is_ancestor_of c8Store 30 "cA" "cC" = .error .fileNotFound ∧
    icapFindGo c8Store (fun o => o = "cA") 30 ["cC"] [] = .ok (some "cA") ∧
    pyDeque (.pyStr "cC") = .ok ["c", "C"] := by
  refine ⟨by decide, by decide, by decide, by decide⟩

/-! ### Facts about LF-splitting and joining (for the commit codec) -/

theorem string_ext {a b : String} (h : a.data = b.data) : a = b := by
  cases a
  cases b
  exact congrArg String.mk h

theorem splitCharL_ne_nil (sep : Char) (m : List Char) : splitCharL sep m ≠ [] := by
  cases m with
  | nil => simp [splitCharL]
  | cons c cs =>
    by_cases h : c = sep
    · simp [splitCharL, h]
    · simp only [splitCharL, h, if_false]
      cases hs : splitCharL sep cs <;> simp

theorem splitCharL_no_sep (sep : Char) (m : List Char) :
    ∀ p ∈ splitCharL sep m, p.all (fun c => !(decide (c = sep))) = true := by
  induction m with
  | nil =>
    intro p hp
    simp [splitCharL] at hp
    subst hp
    rfl
  | cons c cs ih =>
    intro p hp
    by_cases h : c = sep
    · subst h
      have hstep : splitCharL c (c :: cs) = [] :: splitCharL c cs := by
        simp [splitCharL]
      rw [hstep, List.mem_cons] at hp
      rcases hp with hp | hp
      · subst hp; rfl
      · exact ih p hp
    · cases hs : splitCharL sep cs with
      | nil => exact absurd hs (splitCharL_ne_nil sep cs)
      | cons l ls =>
        simp only [splitCharL, h, if_false, hs, List.mem_cons] at hp
        rcases hp with hp | hp
        · subst hp
          simp only [List.all_cons, Bool.and_eq_true]
          refine ⟨by simpa using h, ?_⟩
          exact ih l (by rw [hs]; exact List.mem_cons_self l ls)
        · exact ih p (by rw [hs]; exact List.mem_cons_of_mem l hp)

theorem splitCharL_chars (sep : Char) (m : List Char) :
    ∀ p ∈ splitCharL sep m, ∀ c ∈ p, c ∈ m := by
  induction m with
  | nil =>
    intro p hp c hc
    simp [splitCharL] at hp
    subst hp
    simp at hc
  | cons x cs ih =>
    intro p hp c hc
    by_cases h : x = sep
    · subst h
      have hstep : splitCharL x (x :: cs) = [] :: splitCharL x cs := by
        simp [splitCharL]
      rw [hstep, List.mem_cons] at hp
      rcases hp with hp | hp
      · subst hp; simp at hc
      · exact List.mem_cons_of_mem x (ih p hp c hc)
    · cases hs : splitCharL sep cs with
      | nil => exact absurd hs (splitCharL_ne_nil sep cs)
      | cons l ls =>
        simp only [splitCharL, h, if_false, hs, List.mem_cons] at hp
        rcases hp with hp | hp
        · subst hp
          simp only [List.mem_cons] at hc
          rcases hc with hc | hc
          · exact hc ▸ List.mem_cons_self x cs
          · exact List.mem_cons_of_mem x
              (ih l (by rw [hs]; exact List.mem_cons_self l ls) c hc)
        · exact List.mem_cons_of_mem x
            (ih p (by rw [hs]; exact List.mem_cons_of_mem l hp) c hc)

theorem splitCharL_reconstruct_trailing (sep : Char) (m : List Char) :
    (splitCharL sep m).foldr (fun l acc => l ++ sep :: acc) [] = m ++ [sep] := by
  induction m with
  | nil => rfl
  | cons c cs ih =>
    by_cases h : c = sep
    · subst h
      have hstep : splitCharL c (c :: cs) = [] :: splitCharL c cs := by
        simp [splitCharL]
      rw [hstep, List.foldr_cons, ih]
      rfl
    · cases hs : splitCharL sep cs with
      | nil => exact absurd hs (splitCharL_ne_nil sep cs)
      | cons l ls =>
        have hstep : splitCharL sep (c :: cs) = (c :: l) :: ls := by
          simp [splitCharL, h, hs]
        rw [hs, List.foldr_cons] at ih
        rw [hstep, List.foldr_cons, List.cons_append, ih]
        rfl

/-- `splitlines` of break-free lines joined by LF terminators. -/
theorem pySplitlinesL_join (ls : List (List Char))
    (h : ∀ l ∈ ls, l.all (fun c => !isLineBreak c) = true) :
    pySplitlinesL (ls.foldr (fun l acc => l ++ '\n' :: acc) []) = ls := by
  induction ls with
  | nil => rfl
  | cons l ls2 ih =>
    simp only [List.foldr_cons]
    rw [pySplitlinesL_line _ _ (h l (List.mem_cons_self l ls2))]
    rw [ih (fun x hx => h x (List.mem_cons_of_mem l hx))]

/-- On a string whose only line-break character is LF, `splitlines` of the
string plus a final LF equals Python split on LF. -/
theorem pySplitlinesL_nl_only (m : List Char)
    (hm : m.all (fun c => !isLineBreak c || decide (c = '\n')) = true) :
    pySplitlinesL (m ++ ['\n']) = splitCharL '\n' m := by
  rw [← splitCharL_reconstruct_trailing '\n' m]
  apply pySplitlinesL_join
  intro l hl
  rw [List.all_eq_true]
  intro c hc
  have hmem : c ∈ m := splitCharL_chars '\n' m l hl c hc
  have hnl : (!(decide (c = '\n'))) = true := by
    have := splitCharL_no_sep '\n' m l hl
    rw [List.all_eq_true] at this
    exact this c hc
  rw [List.all_eq_true] at hm
  have h2 := hm c hmem
  simp only [Bool.or_eq_true] at h2
  rcases h2 with h2 | h2
  · exact h2
  · rw [h2] at hnl
    cases hnl

/-- Join the LF-split pieces back (no trailing terminator). -/
def joinNlL : List (List Char) → List Char
  | [] => []
  | [x] => x
  | x :: xs => x ++ '\n' :: joinNlL xs

theorem joinNlL_splitCharL (m : List Char) : joinNlL (splitCharL '\n' m) = m := by
  induction m with
  | nil => rfl
  | cons c cs ih =>
    by_cases h : c = '\n'
    · subst h
      simp only [splitCharL, if_pos rfl]
      cases hs : splitCharL '\n' cs with
      | nil => exact absurd hs (splitCharL_ne_nil _ cs)
      | cons l ls =>
        rw [hs] at ih
        show [] ++ '\n' :: joinNlL (l :: ls) = '\n' :: cs
        rw [List.nil_append, ih]
    · simp only [splitCharL, h, if_false]
      cases hs : splitCharL '\n' cs with
      | nil => exact absurd hs (splitCharL_ne_nil _ cs)
      | cons l ls =>
        rw [hs] at ih
        cases ls with
        | nil =>
          show c :: l = c :: cs
          have : joinNlL [l] = cs := ih
          simp only [joinNlL] at this
          rw [this]
        | cons l2 ls2 =>
          show (c :: l) ++ '\n' :: joinNlL (l2 :: ls2) = c :: cs
          have : l ++ '\n' :: joinNlL (l2 :: ls2) = cs := ih
          rw [List.cons_append, this]

theorem pyJoin_mk (ls : List (List Char)) :
    pyJoin "\n" (ls.map String.mk) = ⟨joinNlL ls⟩ := by
  induction ls with
  | nil => rfl
  | cons l ls2 ih =>
    cases ls2 with
    | nil => rfl
    | cons l2 ls3 =>
      show String.mk l ++ "\n" ++ pyJoin "\n" ((l2 :: ls3).map String.mk) =
        String.mk (l ++ '\n' :: joinNlL (l2 :: ls3))
      rw [ih]
      apply string_ext
      simp [string_data_append]

/-! ### Claim C9: the sort key of the tree-object serialization -/

/-- A two-object digest stub for the counterexample run (the sort order of a
level does not depend on the digest). -/
def c9Hash : String → String → String :=
  fun _ c => if c = "blob o2 f\n" then "hsub" else "hroot"

/-- An index with a file `z` and a subdirectory `a` containing `f`. -/
def c9State : GitState := ⟨[], [], some [("z", "o1"), ("a/f", "o2")]⟩

def c9Node : List (String × PyTree) :=
  [("z", PyTree.oid "o1"), ("a", PyTree.dict [("f", PyTree.oid "o2")])]

def c9StoreAfter : Store :=
  [("hsub", ("tree", "blob o2 f\n")),
   ("hroot", ("tree", "tree hsub a\nblob o1 z\n"))]

/-- Claim C9 counterexample: the root tree object stored by `write_tree` for
the index `z -> o1, a/f -> o2` has the `tree` line before the `blob` line
(its entries are sorted by the `(name, oid, type)` tuple — the source
appends `(name, oid, type_)` tuples and calls `sorted` on them — and the
name `a` sorts before `z`), so the stored lines are NOT ordered first by
entry kind as the claim states: the first line's `(kind, id, name)` tuple is
strictly greater than the second one's. -/
theorem c9_root_level_sorted_by_name_not_kind :
    write_tree c9Hash c9State 9 =
      (⟨c9StoreAfter, [], some [("z", "o1"), ("a/f", "o2")]⟩, .ok "hroot") ∧
    pySplitlines "tree hsub a\nblob o1 z\n" = ["tree hsub a", "blob o1 z"] ∧
    parseTreeEntry "tree hsub a" = .ok ("tree", "hsub", "a") ∧
    parseTreeEntry "blob o1 z" = .ok ("blob", "o1", "z") ∧
    ¬ eLE ("tree", "hsub", "a") ("blob", "o1", "z") := by
  refine ⟨by decide, by decide, by decide, by decide, by decide⟩

/-- Claim C9 as amended: when `write_tree_recursive` serializes one directory
level, the entries are sorted by the `(name, id, kind)` tuple (the tuple
order in which the source builds them), so the newline-delimited lines of
every stored tree object are ordered first by name, then by child object id,
then by entry kind; parsing the stored payload back yields exactly those
sorted `(kind, id, name)` triples, and the payload stored for a level by
`wt_node` is exactly this serialization of its collected entries. -/
theorem c9_tree_levels_sorted_by_name_id_kind
    (es : List E3) (h : ∀ e ∈ es, entryWF e = true)
    (H : String → String → String) (fuel : Nat)
    (node : List (String × PyTree)) (st : Store) (oid : String) (st2 : Store) :
    ((pySplitlines (serializeEntries es)).mapM parseTreeEntry =
        .ok ((pySort es).map (fun e => (e.2.2, e.2.1, e.1))) ∧
      (pySort es).Sorted eLE ∧ (pySort es).Perm es) ∧
    (wt_node H fuel node st = .ok (oid, st2) →
      ∃ p, wtGo H fuel node st = .ok p ∧
        oid = H "tree" (serializeEntries p.1) ∧
        dlookup oid st2 = some ("tree", serializeEntries p.1)) := by
  constructor
  · refine ⟨?_, ?_, ?_⟩
    · unfold serializeEntries
      apply parse_lines
      intro e he
      exact h e ((List.perm_insertionSort eLE es).subset he)
    · exact List.sorted_insertionSort eLE es
    · exact List.perm_insertionSort eLE es
  · intro hw
    unfold wt_node at hw
    cases hq : wtGo H fuel node st with
    | error e =>
      rw [hq] at hw
      cases hw
    | ok p =>
      rw [hq] at hw
      refine ⟨p, rfl, ?_, ?_⟩
      · have : hash_object H p.2 "tree" (serializeEntries p.1) = (oid, st2) := by
          cases hw
          rfl
        unfold hash_object at this
        exact (Prod.mk.injEq _ _ _ _ ▸ this).1.symm
      · have h2 : hash_object H p.2 "tree" (serializeEntries p.1) = (oid, st2) := by
          cases hw
          rfl
        unfold hash_object at h2
        have ho : H "tree" (serializeEntries p.1) = oid :=
          (Prod.mk.injEq _ _ _ _ ▸ h2).1
        have hs : dinsert (H "tree" (serializeEntries p.1))
            ("tree", serializeEntries p.1) p.2 = st2 :=
          (Prod.mk.injEq _ _ _ _ ▸ h2).2
        rw [← hs, ho, dlookup_dinsert]
        simp

theorem c9_tree_levels_sorted_witness :
    (∀ e ∈ ([("z", "o1", "blob"), ("a", "hsub", "tree")] : List E3), entryWF e = true) ∧
    (((pySplitlines (serializeEntries [("z", "o1", "blob"), ("a", "hsub", "tree")])).mapM
          parseTreeEntry =
        .ok ((pySort [("z", "o1", "blob"), ("a", "hsub", "tree")]).map
          (fun e => (e.2.2, e.2.1, e.1))) ∧
      (pySort [("z", "o1", "blob"), ("a", "hsub", "tree")]).Sorted eLE ∧
      (pySort [("z", "o1", "blob"), ("a", "hsub", "tree")]).Perm
        [("z", "o1", "blob"), ("a", "hsub", "tree")]) ∧
    (wt_node c9Hash 9 c9Node [] = .ok ("hroot", c9StoreAfter) →
      ∃ p, wtGo c9Hash 9 c9Node [] = .ok p ∧
        "hroot" = c9Hash "tree" (serializeEntries p.1) ∧
        dlookup "hroot" c9StoreAfter = some ("tree", serializeEntries p.1))) :=
  ⟨by decide,
    c9_tree_levels_sorted_by_name_id_kind
      [("z", "o1", "blob"), ("a", "hsub", "tree")] (by decide)
      c9Hash 9 c9Node [] "hroot" c9StoreAfter⟩


theorem string_append_assoc (a b c : String) : a ++ b ++ c = a ++ (b ++ c) := by
  apply string_ext
  simp [string_data_append, List.append_assoc]

theorem pySplitlinesL_join_tail (ls : List (List Char)) (tail : List Char)
    (h : ∀ l ∈ ls, l.all (fun c => !isLineBreak c) = true) :
    pySplitlinesL (ls.foldr (fun l acc => l ++ '\n' :: acc) tail) =
      ls ++ pySplitlinesL tail := by
  induction ls with
  | nil => rfl
  | cons l ls2 ih =>
    simp only [List.foldr_cons]
    rw [pySplitlinesL_line _ _ (h l (List.mem_cons_self l ls2))]
    rw [ih (fun x hx => h x (List.mem_cons_of_mem l hx))]
    rfl

theorem takeWhile_header (xs ys : List String) (h : ∀ x ∈ xs, x ≠ "") :
    (xs ++ "" :: ys).takeWhile (fun l => l ≠ "") = xs := by
  induction xs with
  | nil => rfl
  | cons x xs2 ih =>
    have hx : x ≠ "" := h x (List.mem_cons_self x xs2)
    have ih2 := ih (fun y hy => h y (List.mem_cons_of_mem x hy))
    simp [List.takeWhile_cons, hx]
    simpa using ih2

theorem dropWhile_header (xs ys : List String) (h : ∀ x ∈ xs, x ≠ "") :
    ((xs ++ "" :: ys).dropWhile (fun l => l ≠ "")).tail = ys := by
  induction xs with
  | nil => rfl
  | cons x xs2 ih =>
    have hx : x ≠ "" := h x (List.mem_cons_self x xs2)
    have ih2 := ih (fun y hy => h y (List.mem_cons_of_mem x hy))
    simp [List.dropWhile_cons, hx]
    simpa using ih2

theorem commitHeaderStep_tree (acc : Option String × List String) (t : String) :
    commitHeaderStep acc ⟨"tree".data ++ ' ' :: t.data⟩ = .ok (some t, acc.2) := by
  unfold commitHeaderStep
  rw [show (String.mk ("tree".data ++ ' ' :: t.data)).data =
      "tree".data ++ ' ' :: t.data from rfl]
  rw [splitOnceL_append ' ' "tree".data t.data (by decide)]
  show (if (⟨"tree".data⟩ : String) = "tree" then
      Except.ok ((some (⟨t.data⟩ : String)), acc.2)
    else if (⟨"tree".data⟩ : String) = "parent" then
      Except.ok (acc.1, acc.2 ++ [(⟨t.data⟩ : String)])
    else Except.error Err.assertionError) = Except.ok (some t, acc.2)
  rw [if_pos (by decide)]

theorem commitHeaderStep_parent (acc : Option String × List String) (p : String) :
    commitHeaderStep acc ⟨"parent".data ++ ' ' :: p.data⟩ = .ok (acc.1, acc.2 ++ [p]) := by
  unfold commitHeaderStep
  rw [show (String.mk ("parent".data ++ ' ' :: p.data)).data =
      "parent".data ++ ' ' :: p.data from rfl]
  rw [splitOnceL_append ' ' "parent".data p.data (by decide)]
  show (if (⟨"parent".data⟩ : String) = "tree" then
      Except.ok ((some (⟨p.data⟩ : String)), acc.2)
    else if (⟨"parent".data⟩ : String) = "parent" then
      Except.ok (acc.1, acc.2 ++ [(⟨p.data⟩ : String)])
    else Except.error Err.assertionError) = Except.ok (acc.1, acc.2 ++ [p])
  rw [if_neg (by decide), if_pos (by decide)]

theorem header_fold_parents (t : String) (ps : List String) (acc : List String) :
    List.foldlM commitHeaderStep ((some t, acc) : Option String × List String)
      (ps.map (fun p => (⟨"parent".data ++ ' ' :: p.data⟩ : String))) =
      .ok (some t, acc ++ ps) := by
  induction ps generalizing acc with
  | nil =>
    show pure (some t, acc) = Except.ok (some t, acc ++ [])
    simp
    rfl
  | cons p ps2 ih =>
    rw [List.map_cons, List.foldlM_cons, commitHeaderStep_parent]
    show List.foldlM commitHeaderStep ((some t, acc ++ [p]) : Option String × List String)
      (ps2.map (fun p => (⟨"parent".data ++ ' ' :: p.data⟩ : String))) = _
    rw [ih (acc ++ [p])]
    simp


theorem plines_fold (ps : List String) (tail : List Char) :
    (concatStr (ps.map (fun p => "parent " ++ p ++ "\n"))).data ++ tail =
    (ps.map (fun p => "parent".data ++ ' ' :: p.data)).foldr
      (fun l acc => l ++ '\n' :: acc) tail := by
  induction ps with
  | nil => rfl
  | cons p ps2 ih =>
    simp only [List.map_cons, concatStr_cons, string_data_append, List.foldr_cons]
    rw [← ih]
    simp [List.append_assoc]

theorem content_data (t msg : String) (ps : List String) :
    ("tree " ++ t ++ "\n" ++ concatStr (ps.map (fun p => "parent " ++ p ++ "\n")) ++
      "\n" ++ msg ++ "\n").data =
    (("tree".data ++ ' ' :: t.data) :: ps.map (fun p => "parent".data ++ ' ' :: p.data)
        ++ [([] : List Char)]).foldr (fun l acc => l ++ '\n' :: acc)
      (msg.data ++ ['\n']) := by
  rw [List.foldr_append, List.foldr_cons, List.foldr_cons, List.foldr_nil,
    List.nil_append]
  rw [← plines_fold ps ('\n' :: (msg.data ++ ['\n']))]
  simp [string_data_append, List.append_assoc]

theorem mk_cons_ne_empty (c : Char) (l : List Char) : String.mk (c :: l) ≠ "" := by
  intro h
  have h2 : (String.mk (c :: l)).data = ("" : String).data := by rw [h]
  exact List.noConfusion h2


theorem mk_ne_empty_of_ne_nil {l : List Char} (h : l ≠ []) : String.mk l ≠ "" :=
  fun hh => h (congrArg String.data hh)

theorem string_mk_nil : String.mk [] = "" := rfl

/-- Reading back a commit object whose payload has the exact shape written by
`base.commit` — a `tree` line, parent lines, a blank line, the message and a
final LF — recovers the tree id, the parents and the message, provided the
ids are break-free and the only line-break character of the message is LF. -/
theorem get_commit_of_content (st : Store) (oid t msg : String) (ps : List String)
    (hlook : dlookup oid st = some ("commit",
      "tree " ++ t ++ "\n" ++ concatStr (ps.map (fun p => "parent " ++ p ++ "\n")) ++
        "\n" ++ msg ++ "\n"))
    (ht : breakFree t = true)
    (hps : ∀ p ∈ ps, breakFree p = true)
    (hm : msg.data.all (fun c => !isLineBreak c || decide (c = '\n')) = true) :
    get_commit st oid = .ok ⟨t, ps, msg⟩ := by
  have hobj : get_object st oid (some "commit") =
      pure ("tree " ++ t ++ "\n" ++ concatStr (ps.map (fun p => "parent " ++ p ++ "\n")) ++
        "\n" ++ msg ++ "\n") := by
    unfold get_object
    rw [hlook]
    rfl
  have hbreaks : ∀ l ∈ (("tree".data ++ ' ' :: t.data) ::
      ps.map (fun p => "parent".data ++ ' ' :: p.data) ++ [([] : List Char)]),
      l.all (fun c => !isLineBreak c) = true := by
    intro l hl
    rcases List.mem_cons.1 hl with hl | hl
    · subst hl
      unfold breakFree at ht
      simp [List.all_append, List.all_cons, ht]
      decide
    · rcases List.mem_append.1 hl with hl | hl
      · rcases List.mem_map.1 hl with ⟨p, hp, hpe⟩
        subst hpe
        have := hps p hp
        unfold breakFree at this
        simp [List.all_append, List.all_cons, this]
        decide
      · simp at hl
        subst hl
        rfl
  have hsplit : pySplitlines ("tree " ++ t ++ "\n" ++
      concatStr (ps.map (fun p => "parent " ++ p ++ "\n")) ++ "\n" ++ msg ++ "\n") =
      (⟨"tree".data ++ ' ' :: t.data⟩ : String) ::
        ps.map (fun p => (⟨"parent".data ++ ' ' :: p.data⟩ : String)) ++
        "" :: (splitCharL '\n' msg.data).map String.mk := by
    unfold pySplitlines
    rw [content_data, pySplitlinesL_join_tail _ _ hbreaks, pySplitlinesL_nl_only _ hm]
    simp only [List.map_append, List.map_cons, List.map_map, List.map_nil,
      Function.comp_def, string_mk_nil, List.append_assoc, List.singleton_append]
  have hne : ∀ x ∈ (⟨"tree".data ++ ' ' :: t.data⟩ : String) ::
      ps.map (fun p => (⟨"parent".data ++ ' ' :: p.data⟩ : String)), x ≠ "" := by
    intro x hx
    rcases List.mem_cons.1 hx with hx | hx
    · subst hx
      exact mk_ne_empty_of_ne_nil (by simp)
    · rcases List.mem_map.1 hx with ⟨p, hp, hpe⟩
      subst hpe
      exact mk_ne_empty_of_ne_nil (by simp)
  have htake : (pySplitlines ("tree " ++ t ++ "\n" ++
      concatStr (ps.map (fun p => "parent " ++ p ++ "\n")) ++ "\n" ++ msg ++ "\n")).takeWhile
        (fun l => l ≠ "") =
      (⟨"tree".data ++ ' ' :: t.data⟩ : String) ::
        ps.map (fun p => (⟨"parent".data ++ ' ' :: p.data⟩ : String)) := by
    rw [hsplit]
    have := takeWhile_header ((⟨"tree".data ++ ' ' :: t.data⟩ : String) ::
      ps.map (fun p => (⟨"parent".data ++ ' ' :: p.data⟩ : String)))
      ((splitCharL '\n' msg.data).map String.mk) hne
    simpa [List.cons_append] using this
  have hdrop : ((pySplitlines ("tree " ++ t ++ "\n" ++
      concatStr (ps.map (fun p => "parent " ++ p ++ "\n")) ++ "\n" ++ msg ++ "\n")).dropWhile
        (fun l => l ≠ "")).tail =
      (splitCharL '\n' msg.data).map String.mk := by
    rw [hsplit]
    have := dropWhile_header ((⟨"tree".data ++ ' ' :: t.data⟩ : String) ::
      ps.map (fun p => (⟨"parent".data ++ ' ' :: p.data⟩ : String)))
      ((splitCharL '\n' msg.data).map String.mk) hne
    simpa [List.cons_append] using this
  have hfold : List.foldlM commitHeaderStep ((none, []) : Option String × List String)
      ((⟨"tree".data ++ ' ' :: t.data⟩ : String) ::
        ps.map (fun p => (⟨"parent".data ++ ' ' :: p.data⟩ : String))) =
      pure ((some t, ps) : Option String × List String) := by
    rw [List.foldlM_cons, commitHeaderStep_tree]
    show (pure ((some t, []) : Option String × List String) >>= fun b =>
      List.foldlM commitHeaderStep b
        (ps.map (fun p => (⟨"parent".data ++ ' ' :: p.data⟩ : String)))) = _
    rw [pure_bind]
    exact header_fold_parents t ps []
  have hmsg : pyJoin "\n" ((splitCharL '\n' msg.data).map String.mk) = msg := by
    rw [pyJoin_mk, joinNlL_splitCharL]
  unfold get_commit
  rw [hobj, pure_bind]
  simp only [htake, hdrop, hfold, pure_bind, hmsg]

theorem string_append_empty (s : String) : s ++ "" = s := by
  apply string_ext
  simp [string_data_append]

theorem eok_bind {a b : Type} (x : a) (f : a → Except Err b) :
    ((Except.ok x : Except Err a) >>= f) = f x := rfl

theorem eerr_bind {a b : Type} (e : Err) (f : a → Except Err b) :
    ((Except.error e : Except Err a) >>= f) = Except.error e := rfl

theorem dlookup_mem {a : Type} (k : String) (v : a) :
    ∀ l : List (String × a), dlookup k l = some v → (k, v) ∈ l := by
  intro l
  induction l with
  | nil => intro h; exact absurd h (by simp [dlookup])
  | cons p rest ih =>
    obtain ⟨pk, pv⟩ := p
    intro h
    by_cases hk : k = pk
    · subst hk
      simp [dlookup] at h
      subst h
      exact List.mem_cons_self _ _
    · simp [dlookup, hk] at h
      exact List.mem_cons_of_mem _ (ih h)

theorem pyStrip_breakFree (s : String) (h : breakFree s = true) :
    breakFree (pyStrip s) = true := by
  unfold breakFree at h ⊢
  unfold pyStrip
  rw [List.all_eq_true] at h ⊢
  intro c hc
  apply h
  simp only [List.mem_reverse] at hc
  have hc2 := (List.dropWhile_sublist _).mem hc
  simp only [List.mem_reverse] at hc2
  exact (List.dropWhile_sublist _).mem hc2

theorem get_ref_internal_value (refs : List (String × String)) :
    ∀ (fuel : Nat) (ref : String) (deref : Bool) (nr : String × RefValue),
      get_ref_internal refs fuel ref deref = .ok nr →
      nr.2.value = none ∨ ∃ r ∈ refs, nr.2.value = some (pyStrip r.2) := by
  intro fuel
  induction fuel with
  | zero => intro ref deref nr h; exact absurd h (by simp [get_ref_internal])
  | succ n ih =>
    intro ref deref nr h
    unfold get_ref_internal at h
    by_cases hs : ((match (dlookup ref refs).map pyStrip with
        | some v => v ≠ "" && pyStartsWith v "ref:"
        | none => false) && deref) = true
    · rw [if_pos hs] at h
      exact ih _ _ _ h
    · rw [if_neg hs] at h
      have h2 : nr = (ref, ⟨(match (dlookup ref refs).map pyStrip with
          | some v => v ≠ "" && pyStartsWith v "ref:"
          | none => false), (dlookup ref refs).map pyStrip⟩) := by
        cases h; rfl
      subst h2
      cases hdl : dlookup ref refs with
      | none => left; simp [hdl]
      | some v =>
        right
        exact ⟨(ref, v), dlookup_mem ref v refs hdl, by simp [hdl]⟩

theorem get_ref_value (refs : List (String × String)) (fuel : Nat)
    (ref : String) (deref : Bool) (rv : RefValue)
    (h : get_ref refs fuel ref deref = .ok rv) :
    rv.value = none ∨ ∃ r ∈ refs, rv.value = some (pyStrip r.2) := by
  unfold get_ref at h
  cases hi : get_ref_internal refs fuel ref deref with
  | error e => rw [hi] at h; exact absurd h (by simp [Except.map])
  | ok nr =>
    rw [hi] at h
    have : rv = nr.2 := by
      simp [Except.map] at h
      exact h.symm
    subst this
    exact get_ref_internal_value refs fuel ref deref nr hi

theorem wt_node_oid (H : String → String → String) (fuel : Nat)
    (entries : List (String × PyTree)) (st : Store) (pr : String × Store)
    (h : wt_node H fuel entries st = .ok pr) : ∃ c, pr.1 = H "tree" c := by
  unfold wt_node at h
  cases hq : wtGo H fuel entries st with
  | error e => rw [hq] at h; exact absurd h (by simp [eerr_bind])
  | ok p =>
    rw [hq, eok_bind] at h
    cases h
    exact ⟨serializeEntries p.1, rfl⟩

theorem write_tree_ok (H : String → String → String) (st : GitState)
    (fuel : Nat) (st1 : GitState) (oid : String)
    (h : write_tree H st fuel = (st1, .ok oid)) :
    (∃ c, oid = H "tree" c) ∧ st1.refs = st.refs := by
  unfold write_tree at h
  cases hb : buildIndexTree (st.indexFile.getD []) with
  | error e =>
    simp only [hb] at h
    exact absurd (congrArg Prod.snd h) (by simp)
  | ok node =>
    simp only [hb] at h
    cases hw : wt_node H fuel node st.store with
    | error e =>
      simp only [hw] at h
      exact absurd (congrArg Prod.snd h) (by simp)
    | ok p =>
      simp only [hw, Prod.mk.injEq, Except.ok.injEq] at h
      obtain ⟨h1, h2⟩ := h
      subst h2
      exact ⟨wt_node_oid H fuel node st.store p hw, by rw [← h1]⟩

theorem bind_ok_inv {a b : Type} (x : Except Err a) (f : a → Except Err b) (r : b)
    (h : (x >>= f) = .ok r) : ∃ v, x = .ok v ∧ f v = .ok r := by
  cases x with
  | error e => exact absurd h (by simp [eerr_bind])
  | ok v => exact ⟨v, rfl, h⟩

/-- The value a dereferencing `get_ref` returns is, when set, the stripped
content of some ref file, hence line-break-free when every ref file is. -/
theorem get_ref_breakFree (refs : List (String × String)) (fuel : Nat)
    (ref : String) (rv : RefValue)
    (hrefs : ∀ r ∈ refs, breakFree r.2 = true)
    (h : get_ref refs fuel ref true = .ok rv)
    (ht : optTruthy rv.value = true) :
    breakFree (rv.value.getD "") = true := by
  rcases get_ref_value refs fuel ref true rv h with hnone | ⟨r, hrmem, hrv⟩
  · rw [hnone] at ht
    exact absurd ht (by simp [optTruthy])
  · rw [hrv]
    exact pyStrip_breakFree _ (hrefs r hrmem)

/-- C10 (amended): the commit message round-trips through `commit` and
`get_commit` whenever the only line-break characters of the message are
ordinary newlines, the hash digests are line-break-free, and the ref files
hold line-break-free content; the message may be empty, multi-line, and may
or may not end in a newline. -/
theorem c10_commit_message_roundtrip (H : String → String → String)
    (st : GitState) (fuel : Nat) (msg oid : String) (st2 : GitState)
    (hH : ∀ ty c, breakFree (H ty c) = true)
    (hrefs : ∀ r ∈ st.refs, breakFree r.2 = true)
    (hm : (msg.data.all (fun c => !isLineBreak c || decide (c = '\n'))) = true)
    (hc : commitOp H st fuel msg = .ok (oid, st2)) :
    ∃ c, get_commit st2.store oid = .ok c ∧ c.message = msg := by
  unfold commitOp at hc
  obtain ⟨treeOid, hw, hc⟩ := bind_ok_inv _ _ _ hc
  have hpair : write_tree H st fuel = ((write_tree H st fuel).1, .ok treeOid) := by
    rw [← hw]
  obtain ⟨⟨c0, htc⟩, hrefs1⟩ := write_tree_ok H st fuel _ treeOid hpair
  have hbt : breakFree treeOid = true := by rw [htc]; exact hH "tree" c0
  obtain ⟨headRv, hh, hc⟩ := bind_ok_inv _ _ _ hc
  obtain ⟨mhRv, hmh, hc⟩ := bind_ok_inv _ _ _ hc
  cases hht : optTruthy headRv.value with
  | true =>
    simp only [if_pos hht] at hc
    have hbh : breakFree (headRv.value.getD "") = true := by
      refine get_ref_breakFree _ fuel "HEAD" headRv ?_ hh hht
      intro r hr
      exact hrefs r (by rw [← hrefs1]; exact hr)
    cases hmt : optTruthy mhRv.value with
    | true =>
      rw [if_pos hmt] at hc
      have hbm : breakFree (mhRv.value.getD "") = true := by
        refine get_ref_breakFree _ fuel "MERGE_HEAD" mhRv ?_ hmh hmt
        intro r hr
        exact hrefs r (by rw [← hrefs1]; exact hr)
      obtain ⟨refs2, hd, hc⟩ := bind_ok_inv _ _ _ hc
      obtain ⟨srv, hsr, hc⟩ := bind_ok_inv _ _ _ hc
      cases hsr
      obtain ⟨refs3, hu, hc⟩ := bind_ok_inv _ _ _ hc
      simp only [Except.ok.injEq, Prod.mk.injEq] at hc
      obtain ⟨hoid, hst2⟩ := hc
      subst hoid
      subst hst2
      dsimp only [hash_object]
      have hcontent : ("tree " ++ treeOid ++ "\n" ++ "parent " ++ headRv.value.getD "" ++ "\n"
            ++ "parent " ++ mhRv.value.getD "" ++ "\n") ++ "\n" ++ msg ++ "\n" =
          "tree " ++ treeOid ++ "\n" ++
            concatStr (([headRv.value.getD "", mhRv.value.getD ""]).map
              (fun p => "parent " ++ p ++ "\n")) ++ "\n" ++ msg ++ "\n" := by
        apply string_ext
        simp [string_data_append, concatStr, List.append_assoc]
      rw [hcontent]
      refine ⟨⟨treeOid, [headRv.value.getD "", mhRv.value.getD ""], msg⟩, ?_, rfl⟩
      apply get_commit_of_content _ _ _ _ _ (by rw [dlookup_dinsert, if_pos rfl]) hbt ?_ hm
      intro p hp
      simp only [List.mem_cons, List.not_mem_nil, or_false] at hp
      rcases hp with rfl | rfl
      · exact hbh
      · exact hbm
    | false =>
      rw [if_neg (show ¬ optTruthy mhRv.value = true by simp [hmt])] at hc
      obtain ⟨srv, hsr, hc⟩ := bind_ok_inv _ _ _ hc
      cases hsr
      obtain ⟨refs3, hu, hc⟩ := bind_ok_inv _ _ _ hc
      simp only [Except.ok.injEq, Prod.mk.injEq] at hc
      obtain ⟨hoid, hst2⟩ := hc
      subst hoid
      subst hst2
      dsimp only [hash_object]
      have hcontent : ("tree " ++ treeOid ++ "\n" ++ "parent " ++ headRv.value.getD "" ++ "\n")
            ++ "\n" ++ msg ++ "\n" =
          "tree " ++ treeOid ++ "\n" ++
            concatStr (([headRv.value.getD ""]).map
              (fun p => "parent " ++ p ++ "\n")) ++ "\n" ++ msg ++ "\n" := by
        apply string_ext
        simp [string_data_append, concatStr, List.append_assoc]
      rw [hcontent]
      refine ⟨⟨treeOid, [headRv.value.getD ""], msg⟩, ?_, rfl⟩
      apply get_commit_of_content _ _ _ _ _ (by rw [dlookup_dinsert, if_pos rfl]) hbt ?_ hm
      intro p hp
      simp only [List.mem_cons, List.not_mem_nil, or_false] at hp
      rcases hp with rfl
      exact hbh
  | false =>
    simp only [if_neg (show ¬ optTruthy headRv.value = true by simp [hht])] at hc
    cases hmt : optTruthy mhRv.value with
    | true =>
      rw [if_pos hmt] at hc
      have hbm : breakFree (mhRv.value.getD "") = true := by
        refine get_ref_breakFree _ fuel "MERGE_HEAD" mhRv ?_ hmh hmt
        intro r hr
        exact hrefs r (by rw [← hrefs1]; exact hr)
      obtain ⟨refs2, hd, hc⟩ := bind_ok_inv _ _ _ hc
      obtain ⟨srv, hsr, hc⟩ := bind_ok_inv _ _ _ hc
      cases hsr
      obtain ⟨refs3, hu, hc⟩ := bind_ok_inv _ _ _ hc
      simp only [Except.ok.injEq, Prod.mk.injEq] at hc
      obtain ⟨hoid, hst2⟩ := hc
      subst hoid
      subst hst2
      dsimp only [hash_object]
      have hcontent : ("tree " ++ treeOid ++ "\n" ++ "parent " ++ mhRv.value.getD "" ++ "\n")
            ++ "\n" ++ msg ++ "\n" =
          "tree " ++ treeOid ++ "\n" ++
            concatStr (([mhRv.value.getD ""]).map
              (fun p => "parent " ++ p ++ "\n")) ++ "\n" ++ msg ++ "\n" := by
        apply string_ext
        simp [string_data_append, concatStr, List.append_assoc]
      rw [hcontent]
      refine ⟨⟨treeOid, [mhRv.value.getD ""], msg⟩, ?_, rfl⟩
      apply get_commit_of_content _ _ _ _ _ (by rw [dlookup_dinsert, if_pos rfl]) hbt ?_ hm
      intro p hp
      simp only [List.mem_cons, List.not_mem_nil, or_false] at hp
      rcases hp with rfl
      exact hbm
    | false =>
      rw [if_neg (show ¬ optTruthy mhRv.value = true by simp [hmt])] at hc
      obtain ⟨srv, hsr, hc⟩ := bind_ok_inv _ _ _ hc
      cases hsr
      obtain ⟨refs3, hu, hc⟩ := bind_ok_inv _ _ _ hc
      simp only [Except.ok.injEq, Prod.mk.injEq] at hc
      obtain ⟨hoid, hst2⟩ := hc
      subst hoid
      subst hst2
      dsimp only [hash_object]
      have hcontent : ("tree " ++ treeOid ++ "\n") ++ "\n" ++ msg ++ "\n" =
          "tree " ++ treeOid ++ "\n" ++
            concatStr (([] : List String).map
              (fun p => "parent " ++ p ++ "\n")) ++ "\n" ++ msg ++ "\n" := by
        apply string_ext
        simp [string_data_append, concatStr, List.append_assoc]
      rw [hcontent]
      refine ⟨⟨treeOid, [], msg⟩, ?_, rfl⟩
      apply get_commit_of_content _ _ _ _ _ (by rw [dlookup_dinsert, if_pos rfl]) hbt ?_ hm
      intro p hp
      exact absurd hp (List.not_mem_nil p)


/-- A digest stub for the C10 runs: distinct, line-break-free ids per kind. -/
def c10H : String → String → String := fun ty _ => if ty = "commit" then "hC" else "hT"

/-- C10: counterexample to the unrestricted round trip — the message `"a\rb"`
does not end in a newline, yet committing it and parsing the commit back
returns `"a\nb"`: `str.splitlines` in `get_commit` also splits on the
carriage return and the message lines are rejoined with `"\n"`. -/
theorem c10_cr_message_not_round_tripped :
    ((commitOp c10H ⟨[], [], none⟩ 3 "a\rb").bind (fun r =>
      (get_commit r.2.store r.1).map Commit.message)) = .ok "a\nb" ∧
    "a\nb" ≠ "a\rb" := by
  constructor
  · decide
  · decide

/-- C10 witness: a concrete two-line message round-trips through `commit`
and `get_commit` in a fresh repository. -/
theorem c10_commit_message_roundtrip_witness :
    ∃ c, get_commit [("hT", ("tree", "")),
        ("hC", ("commit", "tree hT\n\nhello\nworld\n"))] "hC" = .ok c ∧
      c.message = "hello\nworld" :=
  c10_commit_message_roundtrip c10H ⟨[], [], none⟩ 3 "hello\nworld" "hC"
    ⟨[("hT", ("tree", "")), ("hC", ("commit", "tree hT\n\nhello\nworld\n"))],
      [("HEAD", "hC")], some []⟩
    (fun ty c => by by_cases h : ty = "commit" <;> simp [c10H, h] <;> decide)
    (by intro r hr; exact absurd hr (List.not_mem_nil r))
    (by decide)
    (by decide)


/-! ### Claim C7: infrastructure — split/join on an arbitrary separator -/

/-- Join pieces with a separator character (no trailing separator). -/
def joinSepL (sep : Char) : List (List Char) → List Char
  | [] => []
  | [x] => x
  | x :: xs => x ++ sep :: joinSepL sep xs

theorem joinSepL_splitCharL (sep : Char) (m : List Char) :
    joinSepL sep (splitCharL sep m) = m := by
  induction m with
  | nil => rfl
  | cons c cs ih =>
    by_cases h : c = sep
    · subst h
      simp only [splitCharL, if_pos rfl]
      cases hs : splitCharL c cs with
      | nil => exact absurd hs (splitCharL_ne_nil _ cs)
      | cons l ls =>
        rw [hs] at ih
        show [] ++ c :: joinSepL c (l :: ls) = c :: cs
        rw [List.nil_append, ih]
    · simp only [splitCharL, h, if_false]
      cases hs : splitCharL sep cs with
      | nil => exact absurd hs (splitCharL_ne_nil _ cs)
      | cons l ls =>
        rw [hs] at ih
        cases ls with
        | nil =>
          show c :: l = c :: cs
          have : joinSepL sep [l] = cs := ih
          simp only [joinSepL] at this
          rw [this]
        | cons l2 ls2 =>
          show (c :: l) ++ sep :: joinSepL sep (l2 :: ls2) = c :: cs
          have : l ++ sep :: joinSepL sep (l2 :: ls2) = cs := ih
          rw [List.cons_append, this]

theorem splitCharL_sep_free (sep : Char) (p : List Char)
    (h : p.all (fun c => !(decide (c = sep))) = true) :
    splitCharL sep p = [p] := by
  induction p with
  | nil => rfl
  | cons c cs ih =>
    simp only [List.all_cons, Bool.and_eq_true, Bool.not_eq_true'] at h
    obtain ⟨hc, hcs⟩ := h
    have hne : ¬ c = sep := by simpa using hc
    simp only [splitCharL, hne, if_false]
    rw [ih hcs]

theorem splitCharL_append_sep (sep : Char) (pre rest : List Char)
    (h : pre.all (fun c => !(decide (c = sep))) = true) :
    splitCharL sep (pre ++ sep :: rest) = pre :: splitCharL sep rest := by
  induction pre with
  | nil =>
    show splitCharL sep (sep :: rest) = [] :: splitCharL sep rest
    simp [splitCharL]
  | cons c cs ih =>
    simp only [List.all_cons, Bool.and_eq_true, Bool.not_eq_true'] at h
    obtain ⟨hc, hcs⟩ := h
    have hne : ¬ c = sep := by simpa using hc
    rw [List.cons_append]
    simp only [splitCharL, hne, if_false]
    rw [ih hcs]

theorem splitCharL_joinSepL (sep : Char) (ls : List (List Char))
    (hne : ls ≠ [])
    (h : ∀ p ∈ ls, p.all (fun c => !(decide (c = sep))) = true) :
    splitCharL sep (joinSepL sep ls) = ls := by
  induction ls with
  | nil => exact absurd rfl hne
  | cons x xs ih =>
    cases xs with
    | nil =>
      show splitCharL sep x = [x]
      exact splitCharL_sep_free sep x (h x (List.mem_cons_self x []))
    | cons y ys =>
      show splitCharL sep (x ++ sep :: joinSepL sep (y :: ys)) = x :: y :: ys
      rw [splitCharL_append_sep sep x _ (h x (List.mem_cons_self x _))]
      rw [ih (by simp) (fun p hp => h p (List.mem_cons_of_mem x hp))]

theorem pyJoin_sep_mk (sep : Char) (ls : List (List Char)) :
    pyJoin ⟨[sep]⟩ (ls.map String.mk) = ⟨joinSepL sep ls⟩ := by
  induction ls with
  | nil => rfl
  | cons l ls2 ih =>
    cases ls2 with
    | nil => rfl
    | cons l2 ls3 =>
      show String.mk l ++ ⟨[sep]⟩ ++ pyJoin ⟨[sep]⟩ ((l2 :: ls3).map String.mk) =
        String.mk (l ++ sep :: joinSepL sep (l2 :: ls3))
      rw [ih]
      apply string_ext
      simp [string_data_append]

theorem pyJoin_pySplit (s : String) : pyJoin "/" (pySplit '/' s) = s := by
  unfold pySplit
  have : ("/" : String) = ⟨['/']⟩ := rfl
  rw [this, pyJoin_sep_mk '/' (splitCharL '/' s.data), joinSepL_splitCharL]

theorem pySplit_ne_nil (sep : Char) (s : String) : pySplit sep s ≠ [] := by
  unfold pySplit
  intro h
  exact splitCharL_ne_nil sep s.data (by simpa using h)

theorem pySplit_inj (s1 s2 : String) (h : pySplit '/' s1 = pySplit '/' s2) :
    s1 = s2 := by
  rw [← pyJoin_pySplit s1, ← pyJoin_pySplit s2, h]

theorem pySplit_sep_free (s : String) :
    ∀ p ∈ pySplit '/' s, containsChar p '/' = false := by
  intro p hp
  unfold pySplit at hp
  rcases List.mem_map.1 hp with ⟨l, hl, hle⟩
  subst hle
  have := splitCharL_no_sep '/' s.data l hl
  rw [List.all_eq_true] at this
  unfold containsChar
  rw [List.contains_eq_any_beq]
  simp only [List.any_eq_false]
  intro c hc
  have h2 := this c hc
  simp only [Bool.not_eq_true', decide_eq_false_iff_not] at h2
  simp [h2]
  exact fun he => h2 he.symm

theorem string_nil_append (s : String) : "" ++ s = s := by
  apply string_ext
  simp [string_data_append]

/-! ### Claim C7: infrastructure — dictionary lemmas -/

theorem dlookup_none_iff {α : Type} (k : String) (l : List (String × α)) :
    dlookup k l = none ↔ k ∉ l.map Prod.fst := by
  induction l with
  | nil => simp [dlookup]
  | cons p rest ih =>
    obtain ⟨pk, pv⟩ := p
    by_cases h : k = pk
    · subst h
      simp [dlookup]
    · simp [dlookup, h, ih]

theorem dinsert_keys_mem {α : Type} (k : String) (v : α) (l : List (String × α))
    (h : k ∈ l.map Prod.fst) :
    (dinsert k v l).map Prod.fst = l.map Prod.fst := by
  induction l with
  | nil => simp at h
  | cons p rest ih =>
    obtain ⟨pk, pv⟩ := p
    by_cases hk : k = pk
    · subst hk
      simp [dinsert]
    · simp only [List.map_cons, List.mem_cons] at h
      rcases h with h | h
    
      · exact absurd h hk
      · simp [dinsert, hk, ih h]

theorem dinsert_keys_fresh {α : Type} (k : String) (v : α) (l : List (String × α))
    (h : k ∉ l.map Prod.fst) :
    (dinsert k v l).map Prod.fst = l.map Prod.fst ++ [k] := by
  induction l with
  | nil => rfl
  | cons p rest ih =>
    obtain ⟨pk, pv⟩ := p
    simp only [List.map_cons, List.mem_cons] at h
    push_neg at h
    obtain ⟨h1, h2⟩ := h
    simp [dinsert, h1, ih h2]

theorem dinsert_nodup {α : Type} (k : String) (v : α) (l : List (String × α))
    (h : (l.map Prod.fst).Nodup) : ((dinsert k v l).map Prod.fst).Nodup := by
  by_cases hk : k ∈ l.map Prod.fst
  · rw [dinsert_keys_mem k v l hk]
    exact h
  · rw [dinsert_keys_fresh k v l hk]
    simp only [List.nodup_append, List.nodup_cons]
    refine ⟨h, by simp, ?_⟩
    intro a ha
    simp only [List.mem_singleton]
    intro he
    subst he
    exact hk ha

theorem dlookup_of_mem_nodup {α : Type} (k : String) (v : α)
    (l : List (String × α)) (hmem : (k, v) ∈ l)
    (hnd : (l.map Prod.fst).Nodup) : dlookup k l = some v := by
  induction l with
  | nil => simp at hmem
  | cons p rest ih =>
    obtain ⟨pk, pv⟩ := p
    simp only [List.map_cons, List.nodup_cons] at hnd
    obtain ⟨hpk, hnd2⟩ := hnd
    rcases List.mem_cons.1 hmem with h | h
    · injection h with h1 h2
      subst h1
      subst h2
      simp [dlookup]
    · have hne : k ≠ pk := by
        intro he
        subst he
        exact hpk (by exact List.mem_map.2 ⟨(k, v), h, rfl⟩)
      simp only [dlookup, hne, if_false]
      exact ih h hnd2

theorem dlookup_dupdate {α : Type} (p : String) (d s : List (String × α))
    (hnd : (s.map Prod.fst).Nodup) :
    dlookup p (dupdate d s) =
      match dlookup p s with
      | some v => some v
      | none => dlookup p d := by
  induction s generalizing d with
  | nil => simp [dupdate, dlookup]
  | cons kv rest ih =>
    obtain ⟨sk, sv⟩ := kv
    simp only [List.map_cons, List.nodup_cons] at hnd
    obtain ⟨hks, hnd2⟩ := hnd
    show dlookup p (dupdate (dinsert sk sv d) rest) = _
    rw [ih (dinsert sk sv d) hnd2]
    by_cases hp : p = sk
    · subst hp
      have hnone : dlookup p rest = none := by
        rw [dlookup_none_iff]
        exact hks
      rw [hnone]
      simp [dlookup, dlookup_dinsert]
    · simp only [dlookup, hp, if_false]
      cases h2 : dlookup p rest with
      | some v => rfl
      | none =>
        rw [dlookup_dinsert]
        simp [hp]

theorem dupdate_nodup {α : Type} (d s : List (String × α))
    (hd : (d.map Prod.fst).Nodup) :
    ((dupdate d s).map Prod.fst).Nodup := by
  induction s generalizing d with
  | nil => exact hd
  | cons kv rest ih =>
    exact ih (dinsert kv.1 kv.2 d) (dinsert_nodup kv.1 kv.2 d hd)

theorem forall2_mem_left {α β : Type} {R : α → β → Prop} :
    ∀ {as : List α} {bs : List β}, List.Forall₂ R as bs → ∀ a ∈ as, ∃ b ∈ bs, R a b := by
  intro as bs h
  induction h with
  | nil => intro a ha; simp at ha
  | cons hR _ ih =>
    intro a ha
    rcases List.mem_cons.1 ha with ha | ha
    · subst ha
      exact ⟨_, List.mem_cons_self _ _, hR⟩
    · rcases ih a ha with ⟨b, hb, hRb⟩
      exact ⟨b, List.mem_cons_of_mem _ hb, hRb⟩

theorem forall2_fst_eq {α β γ : Type} {f : α → γ} {g : β → γ}
    {R : α → β → Prop} (hfg : ∀ a b, R a b → f a = g b) :
    ∀ {as : List α} {bs : List β}, List.Forall₂ R as bs → as.map f = bs.map g := by
  intro as bs h
  induction h with
  | nil => rfl
  | cons hR _ ih => simp [hfg _ _ hR, ih]

/-! ### Claim C7: the path view of the nested index tree -/

/-- Look a component path up in the nested dict: a blob oid sitting exactly at
the end of the path. -/
def treeLookup : List (String × PyTree) → List String → Option String
  | _, [] => none
  | node, f :: rest =>
    match dlookup f node with
    | some (.oid o) => if rest.isEmpty then some o else none
    | some (.dict sub) => if rest.isEmpty then none else treeLookup sub rest
    | none => none

/-- The sub-dictionary reached by walking a component path. -/
def dictAt : List (String × PyTree) → List String → Option (List (String × PyTree))
  | node, [] => some node
  | node, d :: rest =>
    match dlookup d node with
    | some (.dict sub) => dictAt sub rest
    | _ => none

/-- Index lookup keyed by the component list of the stored path. -/
def compsLookup : List (String × String) → List String → Option String
  | [], _ => none
  | pv :: rest, comps =>
    if pySplit '/' pv.1 = comps then some pv.2 else compsLookup rest comps

/-- `a` is a (not necessarily proper) leading segment of `b`. -/
def leadB : List String → List String → Bool
  | [], _ => true
  | _ :: _, [] => false
  | a :: as, b :: bs => decide (a = b) && leadB as bs

/-- `a` is a proper leading segment of `b`. -/
def properLeadB (a b : List String) : Bool :=
  leadB a b && decide (a.length < b.length)

/-- Does the `setdefault` walk along `dp` run into a blob oid? -/
def noOidOnPath : List (String × PyTree) → List String → Bool
  | _, [] => true
  | node, d :: rest =>
    match dlookup d node with
    | none => true
    | some (.oid _) => false
    | some (.dict sub) => noOidOnPath sub rest

/-- Is the final name unbound in the dict at the end of the walk (when that
dict is reached)? -/
def endFree : List (String × PyTree) → List String → String → Bool
  | node, [], f => (dlookup f node).isNone
  | node, d :: rest, f =>
    match dlookup d node with
    | none => true
    | some (.oid _) => true
    | some (.dict sub) => endFree sub rest f

/-- The name facts `get_tree` needs of every entry name. -/
def nameFacts (n : String) : Bool :=
  breakFree n && !(containsChar n '/') && !(decide (n = ".")) && !(decide (n = ".."))

/-- The oid facts the serialization needs of every blob oid. -/
def oidFacts (o : String) : Bool := breakFree o && spaceFreeB o

theorem treeLookup_nil (comps : List String) :
    treeLookup [] comps = none := by
  cases comps with
  | nil => rfl
  | cons c r => simp [treeLookup, dlookup]

theorem dictAt_nil (comps : List String) (sub : List (String × PyTree))
    (h : dictAt [] comps = some sub) : comps = [] ∧ sub = [] := by
  cases comps with
  | nil => exact ⟨rfl, by cases h; rfl⟩
  | cons c r => simp [dictAt, dlookup] at h

theorem noOidOnPath_nil (dp : List String) : noOidOnPath [] dp = true := by
  cases dp with
  | nil => rfl
  | cons d r => simp [noOidOnPath, dlookup]

theorem endFree_nil (dp : List String) (f : String) : endFree [] dp f = true := by
  cases dp with
  | nil => rfl
  | cons d r => simp [endFree, dlookup]

theorem leadB_refl (a : List String) : leadB a a = true := by
  induction a with
  | nil => rfl
  | cons x xs ih => simp [leadB, ih]

theorem leadB_take (j : Nat) (l m : List String) :
    leadB (l.take j) (l ++ m) = true := by
  induction l generalizing j with
  | nil => cases j <;> simp [leadB]
  | cons x xs ih =>
    cases j with
    | zero => simp [leadB]
    | succ j2 => simp [leadB, ih j2]

theorem leadB_of_properLeadB (a b : List String) (h : properLeadB a b = true) :
    leadB a b = true := by
  simp only [properLeadB, Bool.and_eq_true] at h
  exact h.1

theorem properLeadB_cons (d : String) (a b : List String)
    (h : properLeadB a b = true) : properLeadB (d :: a) (d :: b) = true := by
  simp only [properLeadB, Bool.and_eq_true] at h
  unfold properLeadB
  obtain ⟨h1, h2⟩ := h
  simp only [leadB, List.length_cons, decide_eq_true_eq] at *
  simp [h1, Nat.succ_lt_succ (by simpa using h2)]

theorem compsLookup_append (S S2 : List (String × String)) (comps : List String) :
    compsLookup (S ++ S2) comps =
      match compsLookup S comps with
      | some v => some v
      | none => compsLookup S2 comps := by
  induction S with
  | nil => simp [compsLookup]
  | cons pv rest ih =>
    by_cases h : pySplit '/' pv.1 = comps
    · simp [compsLookup, h]
    · simp [compsLookup, h, ih]

theorem compsLookup_some (S : List (String × String)) (comps : List String)
    (v : String) (h : compsLookup S comps = some v) :
    ∃ pv ∈ S, pySplit '/' pv.1 = comps ∧ pv.2 = v := by
  induction S with
  | nil => simp [compsLookup] at h
  | cons pv rest ih =>
    by_cases hc : pySplit '/' pv.1 = comps
    · simp only [compsLookup, hc, if_pos rfl] at h
      exact ⟨pv, List.mem_cons_self pv rest, hc, by injection h⟩
    · simp only [compsLookup, hc, if_false] at h
      rcases ih h with ⟨pv2, hm, he, hv⟩
      exact ⟨pv2, List.mem_cons_of_mem pv hm, he, hv⟩

theorem dropLast_getLastD (l : List String) (h : l ≠ []) :
    l.dropLast ++ [l.getLastD ""] = l := by
  induction l with
  | nil => exact absurd rfl h
  | cons x xs ih =>
    cases xs with
    | nil => rfl
    | cons y ys =>
      simp only [List.dropLast_cons₂, List.cons_append]
      rw [show (x :: y :: ys).getLastD "" = (y :: ys).getLastD "" from rfl]
      rw [ih (by simp)]

theorem noOidOnPath_false : ∀ (dp : List String) (node : List (String × PyTree)),
    noOidOnPath node dp = false →
      ∃ j, 0 < j ∧ j ≤ dp.length ∧ treeLookup node (dp.take j) ≠ none := by
  intro dp
  induction dp with
  | nil => intro node h; exact absurd h (by simp [noOidOnPath])
  | cons d rest ih =>
    intro node h
    cases hd : dlookup d node with
    | none => rw [noOidOnPath, hd] at h; cases h
    | some v =>
      cases v with
      | oid o =>
        refine ⟨1, by decide, by simp, ?_⟩
        show treeLookup node [d] ≠ none
        simp [treeLookup, hd]
      | dict sub =>
        rw [noOidOnPath, hd] at h
        rcases ih sub h with ⟨j, hj0, hjle, hjne⟩
        refine ⟨j + 1, by omega, by simp; omega, ?_⟩
        show treeLookup node (d :: rest.take j) ≠ none
        have hne2 : (rest.take j).isEmpty = false := by
          cases hr : rest.take j with
          | nil =>
            exfalso
            have : j = 0 ∨ rest = [] := by
              cases rest with
              | nil => right; rfl
              | cons a b => cases j with
                | zero => left; rfl
                | succ j2 => simp [List.take] at hr
            rcases this with h2 | h2
            · omega
            · subst h2; simp at hjle; omega
          | cons a b => rfl
        rw [treeLookup, hd, hne2]
        simpa using hjne
  
theorem endFree_false : ∀ (dp : List String) (node : List (String × PyTree)) (f : String),
    endFree node dp f = false →
    treeLookup node (dp ++ [f]) ≠ none ∨ (dictAt node (dp ++ [f])).isSome = true := by
  intro dp
  induction dp with
  | nil =>
    intro node f h
    rw [endFree] at h
    cases hd : dlookup f node with
    | none => rw [hd] at h; cases h
    | some v =>
      cases v with
      | oid o =>
        left
        show treeLookup node [f] ≠ none
        simp [treeLookup, hd]
      | dict sub =>
        right
        show (dictAt node [f]).isSome = true
        simp [dictAt, hd]
  | cons d rest ih =>
    intro node f h
    rw [endFree] at h
    cases hd : dlookup d node with
    | none => rw [hd] at h; cases h
    | some v =>
      cases v with
      | oid o => rw [hd] at h; cases h
      | dict sub =>
        rw [hd] at h
        rcases ih sub f h with h2 | h2
        · left
          show treeLookup node (d :: (rest ++ [f])) ≠ none
          rw [treeLookup, hd, show (rest ++ [f]).isEmpty = false by cases rest <;> rfl]
          exact h2
        · right
          show (dictAt node (d :: (rest ++ [f]))).isSome = true
          rw [dictAt, hd]
          exact h2

theorem mem_dinsert {α : Type} (k : String) (v : α) (l : List (String × α)) :
    ∀ nt ∈ dinsert k v l, nt = (k, v) ∨ nt ∈ l := by
  induction l with
  | nil => intro nt h; simp [dinsert] at h; exact Or.inl h
  | cons p rest ih =>
    obtain ⟨pk, pv⟩ := p
    intro nt h
    by_cases hk : k = pk
    · subst hk
      rw [show dinsert k v ((k, pv) :: rest) = (k, v) :: rest by
        rw [dinsert, if_pos rfl]] at h
      rw [List.mem_cons] at h
      rcases h with h | h
      · exact Or.inl h
      · exact Or.inr (List.mem_cons_of_mem _ h)
    · simp only [dinsert, hk, if_false, List.mem_cons] at h
      rcases h with h | h
      · exact Or.inr (by simp [h])
      · rcases ih nt h with h2 | h2
        · exact Or.inl h2
        · exact Or.inr (List.mem_cons_of_mem _ h2)

theorem treeLookup_cons_oid {node : List (String × PyTree)} {f o : String}
    (rest : List String) (h : dlookup f node = some (.oid o)) :
    treeLookup node (f :: rest) = if rest.isEmpty then some o else none := by
  rw [treeLookup, h]

theorem treeLookup_cons_dict {node sub : List (String × PyTree)} {f : String}
    (rest : List String) (h : dlookup f node = some (.dict sub)) :
    treeLookup node (f :: rest) = if rest.isEmpty then none else treeLookup sub rest := by
  rw [treeLookup, h]

theorem treeLookup_cons_none {node : List (String × PyTree)} {f : String}
    (rest : List String) (h : dlookup f node = none) :
    treeLookup node (f :: rest) = none := by
  rw [treeLookup, h]

theorem treeLookup_congr {n1 n2 : List (String × PyTree)} (c : String)
    (r : List String) (h : dlookup c n1 = dlookup c n2) :
    treeLookup n1 (c :: r) = treeLookup n2 (c :: r) := by
  rw [treeLookup, treeLookup, h]

theorem dictAt_cons_dict {node sub : List (String × PyTree)} {d : String}
    (rest : List String) (h : dlookup d node = some (.dict sub)) :
    dictAt node (d :: rest) = dictAt sub rest := by
  rw [dictAt, h]

theorem dictAt_cons_oid {node : List (String × PyTree)} {d o : String}
    (rest : List String) (h : dlookup d node = some (.oid o)) :
    dictAt node (d :: rest) = none := by
  rw [dictAt, h]

theorem dictAt_cons_none {node : List (String × PyTree)} {d : String}
    (rest : List String) (h : dlookup d node = none) :
    dictAt node (d :: rest) = none := by
  rw [dictAt, h]

theorem dictAt_congr {n1 n2 : List (String × PyTree)} (c : String)
    (r : List String) (h : dlookup c n1 = dlookup c n2) :
    dictAt n1 (c :: r) = dictAt n2 (c :: r) := by
  rw [dictAt, dictAt, h]

theorem isEmpty_false_of_ne {α : Type} (l : List α) (h : l ≠ []) :
    l.isEmpty = false := by
  cases l with
  | nil => exact absurd rfl h
  | cons a b => rfl

/-- The heart of the grouping loop: inserting one fresh, prefix-free path into
the nested dict sets exactly that path, leaves every other path lookup
unchanged, and creates sub-dicts only along the inserted path. -/
theorem insertPath_step : ∀ (dp : List String) (node : List (String × PyTree))
    (f oid : String),
    noOidOnPath node dp = true → endFree node dp f = true →
    ∃ node', insertPath node dp f oid = .ok node' ∧
      treeLookup node' (dp ++ [f]) = some oid ∧
      (∀ comps, comps ≠ dp ++ [f] → treeLookup node' comps = treeLookup node comps) ∧
      (∀ comps, (dictAt node' comps).isSome = true →
        (dictAt node comps).isSome = true ∨ properLeadB comps (dp ++ [f]) = true) := by
  intro dp
  induction dp with
  | nil =>
    intro node f oid hno hef
    rw [endFree, Option.isNone_iff_eq_none] at hef
    have hdl : dlookup f (dinsert f (.oid oid) node) = some (.oid oid) := by
      rw [dlookup_dinsert, if_pos rfl]
    refine ⟨dinsert f (.oid oid) node, rfl, ?_, ?_, ?_⟩
    · rw [show ([] ++ [f] : List String) = [f] from rfl, treeLookup_cons_oid [] hdl]
      rfl
    · intro comps hne
      cases comps with
      | nil => rfl
      | cons c r =>
        by_cases hc : c = f
        · subst hc
          have hr : r ≠ [] := fun h2 => hne (by rw [h2]; rfl)
          rw [treeLookup_cons_oid r hdl, treeLookup_cons_none r hef,
            isEmpty_false_of_ne r hr]
          rfl
        · exact treeLookup_congr c r (by rw [dlookup_dinsert, if_neg hc])
    · intro comps h
      cases comps with
      | nil => exact Or.inl rfl
      | cons c r =>
        by_cases hc : c = f
        · subst hc
          rw [dictAt_cons_oid r hdl] at h
          cases h
        · left
          rw [dictAt_congr c r (show dlookup c (dinsert f (PyTree.oid oid) node) = dlookup c node by
            rw [dlookup_dinsert, if_neg hc])] at h
          exact h
  | cons d dpr ih =>
    intro node f oid hno hef
    rw [noOidOnPath] at hno
    rw [endFree] at hef
    cases hd : dlookup d node with
    | none =>
      rcases ih [] f oid (noOidOnPath_nil dpr) (endFree_nil dpr f) with
        ⟨sub', hins, hT1, hT2, hT3⟩
      have hdl : dlookup d (dinsert d (.dict sub') node) = some (.dict sub') := by
        rw [dlookup_dinsert, if_pos rfl]
      refine ⟨dinsert d (.dict sub') node, ?_, ?_, ?_, ?_⟩
      · rw [insertPath, hd, hins]
        rfl
      · rw [List.cons_append, treeLookup_cons_dict (dpr ++ [f]) hdl,
          isEmpty_false_of_ne (dpr ++ [f]) (by simp)]
        rw [if_neg (by simp)]
        exact hT1
      · intro comps hne
        cases comps with
        | nil => rfl
        | cons c r =>
          by_cases hc : c = d
          · subst hc
            rw [treeLookup_cons_dict r hdl, treeLookup_cons_none r hd]
            cases hr : r with
            | nil => rfl
            | cons a b =>
              rw [show ((a :: b : List String)).isEmpty = false from rfl, if_neg (by simp)]
              rw [hT2 (a :: b) (by
                intro h2
                rw [List.cons_append] at hne
                exact hne (by rw [hr, h2]))]
              exact treeLookup_nil (a :: b)
          · exact treeLookup_congr c r (by rw [dlookup_dinsert, if_neg hc])
      · intro comps h
        cases comps with
        | nil => exact Or.inl rfl
        | cons c r =>
          by_cases hc : c = d
          · subst hc
            rw [dictAt_cons_dict r hdl] at h
            right
            rw [List.cons_append]
            rcases hT3 r h with h2 | h2
            · rw [Option.isSome_iff_exists] at h2
              rcases h2 with ⟨s, hs⟩
              rcases dictAt_nil r s hs with ⟨hr, _⟩
              subst hr
              unfold properLeadB
              simp [leadB]
            · exact properLeadB_cons c r (dpr ++ [f]) h2
          · left
            rw [dictAt_congr c r (show dlookup c (dinsert d (.dict sub') node) =
              dlookup c node by rw [dlookup_dinsert, if_neg hc])] at h
            exact h
    | some v =>
      cases v with
      | oid o => rw [hd] at hno; cases hno
      | dict sub =>
        rw [hd] at hno hef
        rcases ih sub f oid hno hef with ⟨sub2, hins, hT1, hT2, hT3⟩
        have hdl : dlookup d (dinsert d (.dict sub2) node) = some (.dict sub2) := by
          rw [dlookup_dinsert, if_pos rfl]
        refine ⟨dinsert d (.dict sub2) node, ?_, ?_, ?_, ?_⟩
        · rw [insertPath, hd]
          show (insertPath sub dpr f oid >>= fun sub2 =>
            (Except.ok (dinsert d (PyTree.dict sub2) node) :
              Except Err (List (String × PyTree)))) = _
          rw [hins, eok_bind]
        · rw [List.cons_append, treeLookup_cons_dict (dpr ++ [f]) hdl,
            isEmpty_false_of_ne (dpr ++ [f]) (by simp), if_neg (by simp)]
          exact hT1
        · intro comps hne
          cases comps with
          | nil => rfl
          | cons c r =>
            by_cases hc : c = d
            · subst hc
              rw [treeLookup_cons_dict r hdl, treeLookup_cons_dict r hd]
              cases hr : r with
              | nil => rfl
              | cons a b =>
                rw [show ((a :: b : List String)).isEmpty = false from rfl, if_neg (by simp)]
                rw [hT2 (a :: b) (by
                  intro h2
                  rw [List.cons_append] at hne
                  exact hne (by rw [hr, h2]))]
                rfl
            · exact treeLookup_congr c r (by rw [dlookup_dinsert, if_neg hc])
        · intro comps h
          cases comps with
          | nil => exact Or.inl rfl
          | cons c r =>
            by_cases hc : c = d
            · subst hc
              rw [dictAt_cons_dict r hdl] at h
              rcases hT3 r h with h2 | h2
              · left
                rw [dictAt_cons_dict r hd]
                exact h2
              · right
                rw [List.cons_append]
                exact properLeadB_cons c r (dpr ++ [f]) h2
            · left
              rw [dictAt_congr c r (show dlookup c (dinsert d (.dict sub2) node) =
                dlookup c node by rw [dlookup_dinsert, if_neg hc])] at h
              exact h

/-- Inserting a path with well-formed components keeps every dict of the
nested tree well-formed: distinct keys, good names, good blob oids. -/
theorem insertPath_dicts : ∀ (dp : List String) (node : List (String × PyTree))
    (f oid : String) (node' : List (String × PyTree)),
    insertPath node dp f oid = .ok node' →
    nameFacts f = true → (∀ d ∈ dp, nameFacts d = true) → oidFacts oid = true →
    (∀ comps sub, dictAt node comps = some sub → (sub.map Prod.fst).Nodup) →
    (∀ comps sub, dictAt node comps = some sub → ∀ nt ∈ sub,
        nameFacts nt.1 = true ∧ ∀ o2, nt.2 = .oid o2 → oidFacts o2 = true) →
    (∀ comps sub, dictAt node' comps = some sub → (sub.map Prod.fst).Nodup) ∧
    (∀ comps sub, dictAt node' comps = some sub → ∀ nt ∈ sub,
        nameFacts nt.1 = true ∧ ∀ o2, nt.2 = .oid o2 → oidFacts o2 = true) := by
  intro dp
  induction dp with
  | nil =>
    intro node f oid node' hins hf hdp ho hJ3 hJ4
    have hnode' : node' = dinsert f (.oid oid) node := by
      rw [insertPath] at hins
      injection hins with h2
      exact h2.symm
    subst hnode'
    constructor
    · intro comps sub h
      cases comps with
      | nil =>
        have hsub : sub = dinsert f (.oid oid) node := by
          rw [dictAt] at h
          injection h with h2
          exact h2.symm
        subst hsub
        exact dinsert_nodup f _ node (hJ3 [] node rfl)
      | cons c r =>
        by_cases hc : c = f
        · subst hc
          rw [dictAt_cons_oid r (show dlookup c (dinsert c (PyTree.oid oid) node) =
            some (.oid oid) by rw [dlookup_dinsert, if_pos rfl])] at h
          cases h
        · rw [dictAt_congr c r (show dlookup c (dinsert f (PyTree.oid oid) node) =
            dlookup c node by rw [dlookup_dinsert, if_neg hc])] at h
          exact hJ3 (c :: r) sub h
    · intro comps sub h
      cases comps with
      | nil =>
        have hsub : sub = dinsert f (.oid oid) node := by
          rw [dictAt] at h
          injection h with h2
          exact h2.symm
        subst hsub
        intro nt hnt
        rcases mem_dinsert f (.oid oid) node nt hnt with h2 | h2
        · subst h2
          refine ⟨hf, fun o2 ho2 => ?_⟩
          injection ho2 with h3
          rw [← h3]
          exact ho
        · exact hJ4 [] node rfl nt h2
      | cons c r =>
        by_cases hc : c = f
        · subst hc
          rw [dictAt_cons_oid r (show dlookup c (dinsert c (PyTree.oid oid) node) =
            some (.oid oid) by rw [dlookup_dinsert, if_pos rfl])] at h
          cases h
        · rw [dictAt_congr c r (show dlookup c (dinsert f (PyTree.oid oid) node) =
            dlookup c node by rw [dlookup_dinsert, if_neg hc])] at h
          exact hJ4 (c :: r) sub h
  | cons d dpr ih =>
    intro node f oid node' hins hf hdp ho hJ3 hJ4
    have hdpr : ∀ x ∈ dpr, nameFacts x = true :=
      fun x hx => hdp x (List.mem_cons_of_mem d hx)
    have hd_f : nameFacts d = true := hdp d (List.mem_cons_self d dpr)
    rw [insertPath] at hins
    cases hd : dlookup d node with
    | none =>
      rw [hd] at hins
      obtain ⟨sub', hins2, hok⟩ := bind_ok_inv _ _ _ hins
      have hnode' : node' = dinsert d (.dict sub') node := by
        injection hok with h2
        exact h2.symm
      subst hnode'
      obtain ⟨hs3, hs4⟩ := ih [] f oid sub' hins2 hf hdpr ho
        (fun comps sub h => by
          rcases dictAt_nil comps sub h with ⟨h1, h2⟩
          subst h2
          exact List.nodup_nil)
        (fun comps sub h => by
          rcases dictAt_nil comps sub h with ⟨h1, h2⟩
          subst h2
          intro nt hnt
          simp at hnt)
      constructor
      · intro comps sub h
        cases comps with
        | nil =>
          have hsub : sub = dinsert d (.dict sub') node := by
            rw [dictAt] at h
            injection h with h2
            exact h2.symm
          subst hsub
          exact dinsert_nodup d _ node (hJ3 [] node rfl)
        | cons c r =>
          by_cases hc : c = d
          · subst hc
            rw [dictAt_cons_dict r (show dlookup c (dinsert c (PyTree.dict sub') node) =
              some (.dict sub') by rw [dlookup_dinsert, if_pos rfl])] at h
            exact hs3 r sub h
          · rw [dictAt_congr c r (show dlookup c (dinsert d (PyTree.dict sub') node) =
              dlookup c node by rw [dlookup_dinsert, if_neg hc])] at h
            exact hJ3 (c :: r) sub h
      · intro comps sub h
        cases comps with
        | nil =>
          have hsub : sub = dinsert d (.dict sub') node := by
            rw [dictAt] at h
            injection h with h2
            exact h2.symm
          subst hsub
          intro nt hnt
          rcases mem_dinsert d (.dict sub') node nt hnt with h2 | h2
          · subst h2
            exact ⟨hd_f, fun o2 ho2 => by cases ho2⟩
          · exact hJ4 [] node rfl nt h2
        | cons c r =>
          by_cases hc : c = d
          · subst hc
            rw [dictAt_cons_dict r (show dlookup c (dinsert c (PyTree.dict sub') node) =
              some (.dict sub') by rw [dlookup_dinsert, if_pos rfl])] at h
            exact hs4 r sub h
          · rw [dictAt_congr c r (show dlookup c (dinsert d (PyTree.dict sub') node) =
              dlookup c node by rw [dlookup_dinsert, if_neg hc])] at h
            exact hJ4 (c :: r) sub h
    | some v =>
      cases v with
      | oid o =>
        rw [hd] at hins
        exact absurd hins (by simp)
      | dict sub0 =>
        rw [hd] at hins
        obtain ⟨sub2, hins2, hok⟩ := bind_ok_inv _ _ _ hins
        have hnode' : node' = dinsert d (.dict sub2) node := by
          injection hok with h2
          exact h2.symm
        subst hnode'
        obtain ⟨hs3, hs4⟩ := ih sub0 f oid sub2 hins2 hf hdpr ho
          (fun comps s h => hJ3 (d :: comps) s (by
            rw [dictAt_cons_dict comps hd]
            exact h))
          (fun comps s h => hJ4 (d :: comps) s (by
            rw [dictAt_cons_dict comps hd]
            exact h))
        constructor
        · intro comps sub h
          cases comps with
          | nil =>
            have hsub : sub = dinsert d (.dict sub2) node := by
              rw [dictAt] at h
              injection h with h2
              exact h2.symm
            subst hsub
            exact dinsert_nodup d _ node (hJ3 [] node rfl)
          | cons c r =>
            by_cases hc : c = d
            · subst hc
              rw [dictAt_cons_dict r (show dlookup c (dinsert c (PyTree.dict sub2) node) =
                some (.dict sub2) by rw [dlookup_dinsert, if_pos rfl])] at h
              exact hs3 r sub h
            · rw [dictAt_congr c r (show dlookup c (dinsert d (PyTree.dict sub2) node) =
                dlookup c node by rw [dlookup_dinsert, if_neg hc])] at h
              exact hJ3 (c :: r) sub h
        · intro comps sub h
          cases comps with
          | nil =>
            have hsub : sub = dinsert d (.dict sub2) node := by
              rw [dictAt] at h
              injection h with h2
              exact h2.symm
            subst hsub
            intro nt hnt
            rcases mem_dinsert d (.dict sub2) node nt hnt with h2 | h2
            · subst h2
              exact ⟨hd_f, fun o2 ho2 => by cases ho2⟩
            · exact hJ4 [] node rfl nt h2
          | cons c r =>
            by_cases hc : c = d
            · subst hc
              rw [dictAt_cons_dict r (show dlookup c (dinsert c (PyTree.dict sub2) node) =
                some (.dict sub2) by rw [dlookup_dinsert, if_pos rfl])] at h
              exact hs4 r sub h
            · rw [dictAt_congr c r (show dlookup c (dinsert d (PyTree.dict sub2) node) =
                dlookup c node by rw [dlookup_dinsert, if_neg hc])] at h
              exact hJ4 (c :: r) sub h

/-- The pairwise freedom the amended claim assumes of the index paths:
neither component list is a leading segment of the other (so in particular
the paths are distinct). -/
def pairFree (a b : String × String) : Prop :=
  leadB (pySplit '/' a.1) (pySplit '/' b.1) = false ∧
  leadB (pySplit '/' b.1) (pySplit '/' a.1) = false

/-- The grouping loop of `base.write_tree`, one pass: starting from a tree
that faithfully represents the processed prefix `S` of the index, folding the
remaining entries succeeds and yields a tree faithfully representing all of
`S ++ todo`. -/
theorem buildGo : ∀ (todo S : List (String × String)) (node : List (String × PyTree)),
    List.Pairwise pairFree (S ++ todo) →
    (∀ pv ∈ S ++ todo, (∀ c ∈ pySplit '/' pv.1, nameFacts c = true) ∧ oidFacts pv.2 = true) →
    (∀ comps, treeLookup node comps = compsLookup S comps) →
    (∀ comps, (dictAt node comps).isSome = true →
      comps = [] ∨ ∃ pv ∈ S, properLeadB comps (pySplit '/' pv.1) = true) →
    (∀ comps sub, dictAt node comps = some sub → (sub.map Prod.fst).Nodup) →
    (∀ comps sub, dictAt node comps = some sub → ∀ nt ∈ sub,
        nameFacts nt.1 = true ∧ ∀ o2, nt.2 = .oid o2 → oidFacts o2 = true) →
    ∃ node', todo.foldlM (fun node pv =>
        let comps := pySplit '/' pv.1
        insertPath node comps.dropLast (comps.getLastD "") pv.2) node = .ok node' ∧
      (∀ comps, treeLookup node' comps = compsLookup (S ++ todo) comps) ∧
      (∀ comps, (dictAt node' comps).isSome = true →
        comps = [] ∨ ∃ pv ∈ S ++ todo, properLeadB comps (pySplit '/' pv.1) = true) ∧
      (∀ comps sub, dictAt node' comps = some sub → (sub.map Prod.fst).Nodup) ∧
      (∀ comps sub, dictAt node' comps = some sub → ∀ nt ∈ sub,
          nameFacts nt.1 = true ∧ ∀ o2, nt.2 = .oid o2 → oidFacts o2 = true) := by
  intro todo
  induction todo with
  | nil =>
    intro S node hpw hfacts hJ1 hJ2 hJ3 hJ4
    refine ⟨node, rfl, ?_, ?_, hJ3, hJ4⟩
    · intro comps
      rw [List.append_nil]
      exact hJ1 comps
    · intro comps h
      rw [List.append_nil]
      exact hJ2 comps h
  | cons pv rest ih =>
    intro S node hpw hfacts hJ1 hJ2 hJ3 hJ4
    have hcne : pySplit '/' pv.1 ≠ [] := pySplit_ne_nil '/' pv.1
    have hsplit : (pySplit '/' pv.1).dropLast ++ [(pySplit '/' pv.1).getLastD ""] =
        pySplit '/' pv.1 := dropLast_getLastD _ hcne
    have hpairs : ∀ q ∈ S, pairFree q pv := by
      intro q hq
      exact (List.pairwise_append.1 hpw).2.2 q hq pv (List.mem_cons_self pv rest)
    have hno : noOidOnPath node (pySplit '/' pv.1).dropLast = true := by
      by_contra hcon
      rw [Bool.not_eq_true] at hcon
      rcases noOidOnPath_false (pySplit '/' pv.1).dropLast node hcon with ⟨j, hj0, hjle, hjne⟩
      cases ht : treeLookup node ((pySplit '/' pv.1).dropLast.take j) with
      | none => exact hjne ht
      | some o =>
        rw [hJ1] at ht
        rcases compsLookup_some S _ o ht with ⟨qv, hqm, hqs, _⟩
        have hlead : leadB (pySplit '/' qv.1) (pySplit '/' pv.1) = true := by
          rw [hqs]
          have hlt := leadB_take j ((pySplit '/' pv.1).dropLast)
            [(pySplit '/' pv.1).getLastD ""]
          rw [hsplit] at hlt
          exact hlt
        have hfree := (hpairs qv hqm).1
        rw [hlead] at hfree
        cases hfree
    have hef : endFree node (pySplit '/' pv.1).dropLast
        ((pySplit '/' pv.1).getLastD "") = true := by
      by_contra hcon
      rw [Bool.not_eq_true] at hcon
      rcases endFree_false (pySplit '/' pv.1).dropLast node
        ((pySplit '/' pv.1).getLastD "") hcon with h2 | h2
      · rw [hsplit] at h2
        cases ht : treeLookup node (pySplit '/' pv.1) with
        | none => exact h2 ht
        | some o =>
          rw [hJ1] at ht
          rcases compsLookup_some S _ o ht with ⟨qv, hqm, hqs, _⟩
          have hfree := (hpairs qv hqm).1
          rw [hqs, leadB_refl] at hfree
          cases hfree
      · rw [hsplit] at h2
        rcases hJ2 _ h2 with hc0 | ⟨qv, hqm, hql⟩
        · exact hcne hc0
        · have hfree := (hpairs qv hqm).2
          rw [leadB_of_properLeadB _ _ hql] at hfree
          cases hfree
    rcases insertPath_step (pySplit '/' pv.1).dropLast node
      ((pySplit '/' pv.1).getLastD "") pv.2 hno hef with ⟨node2, hins, hT1, hT2, hT3⟩
    have hfpv := hfacts pv (by simp)
    have hfould : ∀ x ∈ (pySplit '/' pv.1).dropLast, nameFacts x = true := by
      intro x hx
      exact hfpv.1 x (List.dropLast_subset _ hx)
    have hflast : nameFacts ((pySplit '/' pv.1).getLastD "") = true := by
      apply hfpv.1
      rw [← hsplit]
      exact List.mem_append_right _ (by simp)
    obtain ⟨hJ3n, hJ4n⟩ := insertPath_dicts (pySplit '/' pv.1).dropLast node
      ((pySplit '/' pv.1).getLastD "") pv.2 node2 hins hflast hfould hfpv.2 hJ3 hJ4
    have hJ1n : ∀ comps, treeLookup node2 comps = compsLookup (S ++ [pv]) comps := by
      intro comps
      rw [compsLookup_append]
      by_cases hceq : comps = pySplit '/' pv.1
      · subst hceq
        have hTT : treeLookup node2 (pySplit '/' pv.1) = some pv.2 := by
          rw [← hsplit]
          exact hT1
        rw [hTT]
        have hnone : compsLookup S (pySplit '/' pv.1) = none := by
          cases hcl : compsLookup S (pySplit '/' pv.1) with
          | none => rfl
          | some o =>
            rcases compsLookup_some S _ o hcl with ⟨qv, hqm, hqs, _⟩
            have hfree := (hpairs qv hqm).1
            rw [hqs, leadB_refl] at hfree
            cases hfree
        rw [hnone]
        show _ = compsLookup [pv] (pySplit '/' pv.1)
        rw [compsLookup, if_pos rfl]
      · rw [hT2 comps (by rw [hsplit]; exact hceq)]
        rw [hJ1 comps]
        cases hcl : compsLookup S comps with
        | none =>
          show _ = compsLookup [pv] comps
          rw [compsLookup, if_neg (fun he => hceq he.symm)]
          rfl
        | some v => rfl
    have hJ2n : ∀ comps, (dictAt node2 comps).isSome = true →
        comps = [] ∨ ∃ qv ∈ S ++ [pv], properLeadB comps (pySplit '/' qv.1) = true := by
      intro comps hds
      rcases hT3 comps hds with h2 | h2
      · rcases hJ2 comps h2 with hc0 | ⟨qv, hqm, hql⟩
        · exact Or.inl hc0
        · exact Or.inr ⟨qv, List.mem_append_left _ hqm, hql⟩
      · right
        refine ⟨pv, List.mem_append_right _ (by simp), ?_⟩
        rw [← hsplit]
        exact h2
    have hpw2 : List.Pairwise pairFree ((S ++ [pv]) ++ rest) := by
      rw [List.append_assoc]
      exact hpw
    have hfacts2 : ∀ qv ∈ (S ++ [pv]) ++ rest,
        (∀ c ∈ pySplit '/' qv.1, nameFacts c = true) ∧ oidFacts qv.2 = true := by
      intro qv hq
      apply hfacts
      rw [List.append_assoc] at hq
      exact hq
    rcases ih (S ++ [pv]) node2 hpw2 hfacts2 hJ1n hJ2n hJ3n hJ4n with
      ⟨node', hfold, hK1, hK2, hK3, hK4⟩
    refine ⟨node', ?_, ?_, ?_, hK3, hK4⟩
    · rw [List.foldlM_cons]
      show (insertPath node (pySplit '/' pv.1).dropLast
          ((pySplit '/' pv.1).getLastD "") pv.2 >>= fun node2 =>
        rest.foldlM (fun node pv =>
          let comps := pySplit '/' pv.1
          insertPath node comps.dropLast (comps.getLastD "") pv.2) node2) = .ok node'
      rw [hins, eok_bind]
      exact hfold
    · intro comps
      rw [show S ++ pv :: rest = (S ++ [pv]) ++ rest by rw [List.append_assoc]; rfl]
      exact hK1 comps
    · intro comps h
      rw [show S ++ pv :: rest = (S ++ [pv]) ++ rest by rw [List.append_assoc]; rfl]
      exact hK2 comps h

/-- `base.write_tree`'s grouping loop, characterized: under pairwise
leading-segment freedom the nested dict looks up exactly the index map (keyed
by component lists), and every reachable dict is well-formed. -/
theorem buildIndexTree_char (index : List (String × String))
    (hpw : List.Pairwise pairFree index)
    (hfacts : ∀ pv ∈ index,
      (∀ c ∈ pySplit '/' pv.1, nameFacts c = true) ∧ oidFacts pv.2 = true) :
    ∃ node, buildIndexTree index = .ok node ∧
      (∀ comps, treeLookup node comps = compsLookup index comps) ∧
      (∀ comps sub, dictAt node comps = some sub → (sub.map Prod.fst).Nodup) ∧
      (∀ comps sub, dictAt node comps = some sub → ∀ nt ∈ sub,
          nameFacts nt.1 = true ∧ ∀ o2, nt.2 = .oid o2 → oidFacts o2 = true) := by
  rcases buildGo index [] [] (by simpa using hpw) (by simpa using hfacts)
    (fun comps => by rw [treeLookup_nil]; rfl)
    (fun comps h => Or.inl (by
      rcases Option.isSome_iff_exists.1 h with ⟨s, hs⟩
      exact (dictAt_nil comps s hs).1))
    (fun comps sub h => by
      rcases dictAt_nil comps sub h with ⟨_, h2⟩
      subst h2
      exact List.nodup_nil)
    (fun comps sub h => by
      rcases dictAt_nil comps sub h with ⟨_, h2⟩
      subst h2
      intro nt hnt
      simp at hnt) with ⟨node, hfold, h1, _, h3, h4⟩
  refine ⟨node, ?_, ?_, h3, h4⟩
  · unfold buildIndexTree
    exact hfold
  · intro comps
    have := h1 comps
    rw [List.nil_append] at this
    exact this

/-! ### Claim C7: the stored-tree correspondence -/

/-- `stF` preserves every tree object stored under its own digest. -/
def hashKeep (H : String → String → String) (st1 st2 : Store) : Prop :=
  ∀ c, dlookup (H "tree" c) st1 = some ("tree", c) →
    dlookup (H "tree" c) st2 = some ("tree", c)

theorem hashKeep_refl (H : String → String → String) (st : Store) :
    hashKeep H st st := fun _ hc => hc

theorem hashKeep_trans {H : String → String → String} {st1 st2 st3 : Store}
    (h1 : hashKeep H st1 st2) (h2 : hashKeep H st2 st3) : hashKeep H st1 st3 :=
  fun c hc => h2 c (h1 c hc)

theorem hashKeep_dinsert (H : String → String → String)
    (hInj : ∀ t1 c1 t2 c2, H t1 c1 = H t2 c2 → t1 = t2 ∧ c1 = c2)
    (st : Store) (ty c2 : String) :
    hashKeep H st (dinsert (H ty c2) (ty, c2) st) := by
  intro c hc
  rw [dlookup_dinsert]
  by_cases he : H "tree" c = H ty c2
  · rcases hInj _ _ _ _ he with ⟨ht, hc2⟩
    rw [if_pos he, ← ht, ← hc2]
  · rw [if_neg he]
    exact hc

/-- Cross-fuel correspondence between a stored tree object and a nested
dict: the object parses back into entries matching the dict pointwise, blob
entries carrying the oid directly and tree entries pointing (with one fuel
step less) at stored subtrees. -/
def Corr (H : String → String → String) (stF : Store) :
    Nat → String → List (String × PyTree) → Prop
  | 0, _, _ => False
  | fuel + 1, oid, node => ∃ es,
      oid = H "tree" (serializeEntries es) ∧
      dlookup oid stF = some ("tree", serializeEntries es) ∧
      (∀ e ∈ es, entryWF e = true ∧ nameFacts e.1 = true) ∧
      (es.map (fun e => e.1)).Nodup ∧
      List.Forall₂ (fun (e : E3) (nt : String × PyTree) => e.1 = nt.1 ∧
        ((∃ o, nt.2 = .oid o ∧ e.2.1 = o ∧ e.2.2 = "blob") ∨
         (∃ sub, nt.2 = .dict sub ∧ e.2.2 = "tree" ∧ Corr H stF fuel e.2.1 sub))) es node

theorem Corr_mono (H : String → String → String) :
    ∀ (fuel : Nat) (st1 st2 : Store) (oid : String) (node : List (String × PyTree)),
    Corr H st1 fuel oid node → hashKeep H st1 st2 → Corr H st2 fuel oid node := by
  intro fuel
  induction fuel with
  | zero => intro st1 st2 oid node h _; exact absurd h (by rw [Corr]; simp)
  | succ f ih =>
    intro st1 st2 oid node h hk
    rw [Corr] at h ⊢
    rcases h with ⟨es, hoid, hlook, hwf, hnd, hcorr⟩
    refine ⟨es, hoid, ?_, hwf, hnd, ?_⟩
    · rw [hoid]
      exact hk _ (by rw [← hoid]; exact hlook)
    · refine List.Forall₂.imp ?_ hcorr
      intro e nt he
      refine ⟨he.1, ?_⟩
      rcases he.2 with h2 | ⟨sub, hs1, hs2, hs3⟩
      · exact Or.inl h2
      · exact Or.inr ⟨sub, hs1, hs2, ih st1 st2 e.2.1 sub hs3 hk⟩

theorem Corr_fuel_mono (H : String → String → String) :
    ∀ (fuel : Nat) (stF : Store) (oid : String) (node : List (String × PyTree)),
    Corr H stF fuel oid node → Corr H stF (fuel + 1) oid node := by
  intro fuel
  induction fuel with
  | zero => intro stF oid node h; exact absurd h (by rw [Corr]; simp)
  | succ f ih =>
    intro stF oid node h
    rw [Corr] at h ⊢
    rcases h with ⟨es, hoid, hlook, hwf, hnd, hcorr⟩
    refine ⟨es, hoid, hlook, hwf, hnd, ?_⟩
    refine List.Forall₂.imp ?_ hcorr
    intro e nt he
    refine ⟨he.1, ?_⟩
    rcases he.2 with h2 | ⟨sub, hs1, hs2, hs3⟩
    · exact Or.inl h2
    · exact Or.inr ⟨sub, hs1, hs2, ih stF e.2.1 sub hs3⟩

/-- Pointwise entry correspondence used by the write/read lemmas. -/
def entCorr (H : String → String → String) (stF : Store) (fuel : Nat)
    (e : E3) (nt : String × PyTree) : Prop :=
  e.1 = nt.1 ∧
    ((∃ o, nt.2 = .oid o ∧ e.2.1 = o ∧ e.2.2 = "blob") ∨
     (∃ sub, nt.2 = .dict sub ∧ e.2.2 = "tree" ∧ Corr H stF fuel e.2.1 sub))

theorem entCorr_mono {H : String → String → String} {st1 st2 : Store}
    {fuel : Nat} {e : E3} {nt : String × PyTree}
    (h : entCorr H st1 fuel e nt) (hk : hashKeep H st1 st2) :
    entCorr H st2 fuel e nt := by
  refine ⟨h.1, ?_⟩
  rcases h.2 with h2 | ⟨sub, h1, h2, h3⟩
  · exact Or.inl h2
  · exact Or.inr ⟨sub, h1, h2, Corr_mono H fuel st1 st2 e.2.1 sub h3 hk⟩

theorem entCorr_fuel_mono {H : String → String → String} {stF : Store}
    {fuel : Nat} {e : E3} {nt : String × PyTree}
    (h : entCorr H stF fuel e nt) : entCorr H stF (fuel + 1) e nt := by
  refine ⟨h.1, ?_⟩
  rcases h.2 with h2 | ⟨sub, h1, h2, h3⟩
  · exact Or.inl h2
  · exact Or.inr ⟨sub, h1, h2, Corr_fuel_mono H fuel stF e.2.1 sub h3⟩

theorem nameFacts_break (n : String) (h : nameFacts n = true) :
    breakFree n = true := by
  unfold nameFacts at h
  simp only [Bool.and_eq_true] at h
  exact h.1.1.1

theorem nameFacts_slash (n : String) (h : nameFacts n = true) :
    containsChar n '/' = false := by
  unfold nameFacts at h
  simp only [Bool.and_eq_true, Bool.not_eq_true'] at h
  exact h.1.1.2

theorem nameFacts_dot1 (n : String) (h : nameFacts n = true) : n ≠ "." := by
  unfold nameFacts at h
  simp only [Bool.and_eq_true, Bool.not_eq_true', decide_eq_false_iff_not] at h
  exact h.1.2

theorem nameFacts_dot2 (n : String) (h : nameFacts n = true) : n ≠ ".." := by
  unfold nameFacts at h
  simp only [Bool.and_eq_true, Bool.not_eq_true', decide_eq_false_iff_not] at h
  exact h.2

theorem oidFacts_break (o : String) (h : oidFacts o = true) :
    breakFree o = true := by
  unfold oidFacts at h
  simp only [Bool.and_eq_true] at h
  exact h.1

theorem oidFacts_space (o : String) (h : oidFacts o = true) :
    spaceFreeB o = true := by
  unfold oidFacts at h
  simp only [Bool.and_eq_true] at h
  exact h.2

theorem entryWF_mk (ty n o : String) (hty : ty = "blob" ∨ ty = "tree")
    (hn : breakFree n = true) (ho : breakFree o = true)
    (hsp : spaceFreeB o = true) : entryWF (n, o, ty) = true := by
  unfold entryWF
  rcases hty with h | h <;> subst h <;> simp [hn, ho, hsp]

theorem dictAt_tail_wf (nt0 : String × PyTree) (rest : List (String × PyTree))
    (hnd : (((nt0 :: rest).map Prod.fst)).Nodup) :
    ∀ comps sub, comps ≠ [] → dictAt rest comps = some sub →
      dictAt (nt0 :: rest) comps = some sub := by
  intro comps sub hne h
  cases comps with
  | nil => exact absurd rfl hne
  | cons c r =>
    cases hdl : dlookup c rest with
    | none => rw [dictAt_cons_none r hdl] at h; cases h
    | some v =>
      have hmem : (c, v) ∈ rest := dlookup_mem c v rest hdl
      have hnode : dlookup c (nt0 :: rest) = some v :=
        dlookup_of_mem_nodup c v _ (List.mem_cons_of_mem nt0 hmem) hnd
      cases v with
      | oid o => rw [dictAt_cons_oid r hdl] at h; cases h
      | dict s =>
        rw [dictAt_cons_dict r hdl] at h
        rw [dictAt_cons_dict r hnode]
        exact h

/-- The collection loop of `write_tree_recursive` produces well-formed
entries corresponding pointwise to the level it walked, with every written
subtree object intact in the final store. -/
theorem wtGo_corr (H : String → String → String)
    (hInj : ∀ t1 c1 t2 c2, H t1 c1 = H t2 c2 → t1 = t2 ∧ c1 = c2)
    (hHwf : ∀ t c, oidFacts (H t c) = true) :
    ∀ (fuel : Nat) (node : List (String × PyTree)) (st : Store)
      (es : List E3) (st2 : Store),
    wtGo H fuel node st = .ok (es, st2) →
    (∀ comps sub, dictAt node comps = some sub → (sub.map Prod.fst).Nodup) →
    (∀ comps sub, dictAt node comps = some sub → ∀ nt ∈ sub,
        nameFacts nt.1 = true ∧ ∀ o2, nt.2 = .oid o2 → oidFacts o2 = true) →
    hashKeep H st st2 ∧
    (∀ e ∈ es, entryWF e = true ∧ nameFacts e.1 = true) ∧
    List.Forall₂ (entCorr H st2 fuel) es node := by
  intro fuel
  induction fuel with
  | zero =>
    intro node st es st2 h _ _
    exact absurd h (by rw [wtGo]; simp)
  | succ f ihf =>
    intro node st es st2 h hJ3 hJ4
    cases node with
    | nil =>
      rw [wtGo] at h
      obtain ⟨he, hs⟩ : es = [] ∧ st2 = st := by
        injection h with h2
        exact ⟨(congrArg Prod.fst h2).symm, (congrArg Prod.snd h2).symm⟩
      subst he
      subst hs
      exact ⟨hashKeep_refl H _, by simp, List.Forall₂.nil⟩
    | cons nt0 rest =>
      obtain ⟨name, t⟩ := nt0
      have hndnode : (((name, t) :: rest).map Prod.fst).Nodup := hJ3 [] _ rfl
      have hJ3r : ∀ comps sub, dictAt rest comps = some sub →
          (sub.map Prod.fst).Nodup := by
        intro comps sub hda
        cases comps with
        | nil =>
          have hsub : sub = rest := by
            rw [dictAt] at hda
            injection hda with h2
            exact h2.symm
          subst hsub
          have h2 := hndnode
          rw [List.map_cons, List.nodup_cons] at h2
          exact h2.2
        | cons c r =>
          exact hJ3 (c :: r) sub
            (dictAt_tail_wf (name, t) rest hndnode (c :: r) sub (by simp) hda)
      have hJ4r : ∀ comps sub, dictAt rest comps = some sub → ∀ nt ∈ sub,
          nameFacts nt.1 = true ∧ ∀ o2, nt.2 = .oid o2 → oidFacts o2 = true := by
        intro comps sub hda
        cases comps with
        | nil =>
          have hsub : sub = rest := by
            rw [dictAt] at hda
            injection hda with h2
            exact h2.symm
          subst hsub
          intro nt hnt
          exact hJ4 [] _ rfl nt (List.mem_cons_of_mem _ hnt)
        | cons c r =>
          exact hJ4 (c :: r) sub
            (dictAt_tail_wf (name, t) rest hndnode (c :: r) sub (by simp) hda)
      cases t with
      | oid o =>
        rw [wtGo] at h
        obtain ⟨p, hrest, hok⟩ := bind_ok_inv _ _ _ h
        obtain ⟨he, hs⟩ : es = (name, o, "blob") :: p.1 ∧ st2 = p.2 := by
          injection hok with h2
          exact ⟨(congrArg Prod.fst h2).symm, (congrArg Prod.snd h2).symm⟩
        subst he
        subst hs
        obtain ⟨hkeep, hwf, hcorr⟩ := ihf rest st p.1 p.2 hrest hJ3r hJ4r
        have hhead := hJ4 [] _ rfl (name, .oid o) (List.mem_cons_self _ _)
        have hof : oidFacts o = true := hhead.2 o rfl
        refine ⟨hkeep, ?_, ?_⟩
        · intro e he2
          rcases List.mem_cons.1 he2 with he2 | he2
          · subst he2
            exact ⟨entryWF_mk "blob" name o (Or.inl rfl)
              (nameFacts_break name hhead.1) (oidFacts_break o hof)
              (oidFacts_space o hof), hhead.1⟩
          · exact hwf e he2
        · exact List.Forall₂.cons ⟨rfl, Or.inl ⟨o, rfl, rfl, rfl⟩⟩
            (List.Forall₂.imp (fun e nt he => entCorr_fuel_mono he) hcorr)
      | dict sub =>
        rw [wtGo] at h
        obtain ⟨q, hsubw, h⟩ := bind_ok_inv _ _ _ h
        obtain ⟨p, hrest, hok⟩ := bind_ok_inv _ _ _ h
        obtain ⟨he, hs⟩ : es = (name,
              (hash_object H q.2 "tree" (serializeEntries q.1)).1, "tree") :: p.1 ∧
            st2 = p.2 := by
          injection hok with h2
          exact ⟨(congrArg Prod.fst h2).symm, (congrArg Prod.snd h2).symm⟩
        subst he
        subst hs
        have hdlsub : dlookup name ((name, PyTree.dict sub) :: rest) =
            some (.dict sub) := by simp [dlookup]
        have hJ3s : ∀ comps s, dictAt sub comps = some s →
            (s.map Prod.fst).Nodup := by
          intro comps s hda
          exact hJ3 (name :: comps) s (by rw [dictAt_cons_dict comps hdlsub]; exact hda)
        have hJ4s : ∀ comps s, dictAt sub comps = some s → ∀ nt ∈ s,
            nameFacts nt.1 = true ∧ ∀ o2, nt.2 = .oid o2 → oidFacts o2 = true := by
          intro comps s hda
          exact hJ4 (name :: comps) s (by rw [dictAt_cons_dict comps hdlsub]; exact hda)
        obtain ⟨hkeepS, hwfS, hcorrS⟩ := ihf sub st q.1 q.2 hsubw hJ3s hJ4s
        have hsubnames : (q.1.map (fun e => e.1)).Nodup := by
          have hmapeq : q.1.map (fun e => e.1) = sub.map Prod.fst :=
            forall2_fst_eq (fun e nt he => he.1) hcorrS
        
          rw [hmapeq]
          exact hJ3 [name] sub (by rw [dictAt_cons_dict [] hdlsub]; rfl)
        have hkeep2 : hashKeep H q.2
            (hash_object H q.2 "tree" (serializeEntries q.1)).2 :=
          hashKeep_dinsert H hInj q.2 "tree" (serializeEntries q.1)
        obtain ⟨hkeepR, hwfR, hcorrR⟩ := ihf rest
          (hash_object H q.2 "tree" (serializeEntries q.1)).2 p.1 p.2 hrest hJ3r hJ4r
        have hwrite : dlookup (H "tree" (serializeEntries q.1))
            (hash_object H q.2 "tree" (serializeEntries q.1)).2 =
            some ("tree", serializeEntries q.1) := by
          show dlookup _ (dinsert (H "tree" (serializeEntries q.1))
            ("tree", serializeEntries q.1) q.2) = _
          rw [dlookup_dinsert, if_pos rfl]
        have hsubCorr : Corr H p.2 (f + 1) (H "tree" (serializeEntries q.1)) sub := by
          rw [Corr]
          refine ⟨q.1, rfl, hkeepR _ hwrite, hwfS, hsubnames, ?_⟩
          exact List.Forall₂.imp (fun e nt he =>
            entCorr_mono he (hashKeep_trans hkeep2 hkeepR)) hcorrS
        have hhead := hJ4 [] _ rfl (name, .dict sub) (List.mem_cons_self _ _)
        refine ⟨hashKeep_trans hkeepS (hashKeep_trans hkeep2 hkeepR), ?_, ?_⟩
        · intro e he2
          rcases List.mem_cons.1 he2 with he2 | he2
          · subst he2
            refine ⟨entryWF_mk "tree" name _ (Or.inr rfl)
              (nameFacts_break name hhead.1) ?_ ?_, hhead.1⟩
            · exact oidFacts_break _ (hHwf "tree" (serializeEntries q.1))
            · exact oidFacts_space _ (hHwf "tree" (serializeEntries q.1))
          · exact hwfR e he2
        · refine List.Forall₂.cons ⟨rfl, Or.inr ⟨sub, rfl, rfl, hsubCorr⟩⟩
            (List.Forall₂.imp (fun e nt he => entCorr_fuel_mono he) hcorrR)

theorem string_append_cancel_left (a b c : String) (h : a ++ b = a ++ c) :
    b = c := by
  apply string_ext
  have h2 := congrArg String.data h
  rw [string_data_append, string_data_append] at h2
  exact List.append_cancel_left h2

theorem pyJoin_cons_ne (c : String) (r : List String) (hr : r ≠ []) :
    pyJoin "/" (c :: r) = c ++ "/" ++ pyJoin "/" r := by
  cases r with
  | nil => exact absurd rfl hr
  | cons a b => rfl

theorem containsChar_false_all (s : String) (c : Char)
    (h : containsChar s c = false) :
    s.data.all (fun ch => !(decide (ch = c))) = true := by
  unfold containsChar at h
  rw [List.contains_eq_any_beq] at h
  rw [List.all_eq_true]
  intro ch hch
  rw [List.any_eq_false] at h
  have h2 := h ch hch
  simp only [Bool.not_eq_true', decide_eq_false_iff_not]
  intro he
  subst he
  simp at h2

theorem slash_in_append (c w : String) :
    containsChar (c ++ "/" ++ w) '/' = true := by
  unfold containsChar
  rw [string_data_append, string_data_append]
  rw [List.contains_eq_any_beq, List.any_eq_true]
  refine ⟨'/', ?_, by simp⟩
  exact List.mem_append_left _ (List.mem_append_right _ (by simp [show ("/" : String).data = ['/'] from rfl]))

theorem string_data_slash_append (c w : String) :
    (c ++ "/" ++ w).data = c.data ++ '/' :: w.data := by
  rw [string_data_append, string_data_append]
  rw [show ("/" : String).data = ['/'] from rfl]
  rw [List.append_assoc, List.singleton_append]

theorem slash_append_inj (c w nm w2 : String)
    (hc : containsChar c '/' = false) (hnm : containsChar nm '/' = false)
    (h : c ++ "/" ++ w = nm ++ "/" ++ w2) : c = nm ∧ w = w2 := by
  have h2 := congrArg (fun s => splitOnceL '/' s.data) h
  simp only [string_data_slash_append] at h2
  rw [splitOnceL_append '/' c.data w.data (containsChar_false_all c '/' hc)] at h2
  rw [splitOnceL_append '/' nm.data w2.data (containsChar_false_all nm '/' hnm)] at h2
  injection h2 with h3
  injection h3 with h4 h5
  exact ⟨string_ext h4, string_ext h5⟩

theorem pyJoin_single (c : String) : pyJoin "/" [c] = c := rfl

/-- A name that contains no separator cannot be a separator-joined longer
path. -/
theorem name_ne_joined (nm c : String) (r : List String) (hr : r ≠ [])
    (hnm : containsChar nm '/' = false) :
    nm ≠ pyJoin "/" (c :: r) := by
  intro he
  rw [pyJoin_cons_ne c r hr] at he
  rw [he] at hnm
  rw [slash_in_append] at hnm
  cases hnm

theorem iter_tree_entries_ser (st : Store) (oid : String) (es : List E3)
    (hlook : dlookup oid st = some ("tree", serializeEntries es))
    (hwf : ∀ e ∈ es, entryWF e = true) (hne : oid ≠ "") :
    iter_tree_entries st oid =
      .ok ((pySort es).map (fun e => (e.2.2, e.2.1, e.1))) := by
  unfold iter_tree_entries
  rw [if_neg hne]
  have hobj : get_object st oid (some "tree") = .ok (serializeEntries es) := by
    unfold get_object
    rw [hlook]
    rfl
  rw [hobj, eok_bind]
  unfold serializeEntries
  exact parse_lines (pySort es) (fun e he =>
    hwf e ((List.perm_insertionSort eLE es).mem_iff.1 he))

theorem treeLookup_some_head (node : List (String × PyTree)) (c : String)
    (r : List String) (o : String) (h : treeLookup node (c :: r) = some o) :
    ∃ v, dlookup c node = some v := by
  cases hd : dlookup c node with
  | none => rw [treeLookup_cons_none r hd] at h; cases h
  | some v => exact ⟨v, rfl⟩

theorem base_join_shift (base nm : String) (r : List String) (hr : r ≠ []) :
    base ++ pyJoin "/" (nm :: r) = (base ++ nm ++ "/") ++ pyJoin "/" r := by
  rw [pyJoin_cons_ne nm r hr]
  apply string_ext
  simp [string_data_append, List.append_assoc]

theorem fold_cons_step {α σ : Type} (f : σ → α → Except Err σ) (x : α)
    (l : List α) (b b2 r : σ) (h1 : f b x = .ok b2)
    (h2 : l.foldlM f b2 = .ok r) : (x :: l).foldlM f b = .ok r := by
  rw [List.foldlM_cons, h1, eok_bind]
  exact h2

/-- The entry fold of `get_tree`, one pass over the remaining (sorted)
entries: keys already placed stay intact, each entry adds exactly its own
paths, and every key of the result is a path through the nested dict. -/
theorem gtFoldGo (H : String → String → String) (stF : Store) (f : Nat)
    (base : String) (node : List (String × PyTree))
    (hnodeNames : ∀ c v, dlookup c node = some v → nameFacts c = true)
    (hIH : ∀ oid2 sub base2, Corr H stF f oid2 sub →
      ∃ m, get_tree stF f oid2 base2 = .ok m ∧
        (m.map Prod.fst).Nodup ∧
        (∀ comps o, treeLookup sub comps = some o →
          dlookup (base2 ++ pyJoin "/" comps) m = some o) ∧
        (∀ p v, dlookup p m = some v → ∃ comps, comps ≠ [] ∧
          p = base2 ++ pyJoin "/" comps ∧ treeLookup sub comps = some v)) :
    ∀ (todo : List (String × String × String)) (doneNames : List String)
      (results : List (String × String)),
    (∀ fe ∈ todo, nameFacts fe.2.2 = true ∧
      ((fe.1 = "blob" ∧ dlookup fe.2.2 node = some (.oid fe.2.1)) ∨
       (fe.1 = "tree" ∧ ∃ sub, dlookup fe.2.2 node = some (.dict sub) ∧
         Corr H stF f fe.2.1 sub))) →
    (∀ fe ∈ todo, fe.2.2 ∉ doneNames) →
    (todo.map (fun fe => fe.2.2)).Nodup →
    (results.map Prod.fst).Nodup →
    (∀ comps o, treeLookup node comps = some o → comps.headD "" ∈ doneNames →
      dlookup (base ++ pyJoin "/" comps) results = some o) →
    (∀ p v, dlookup p results = some v → ∃ comps, comps ≠ [] ∧
      p = base ++ pyJoin "/" comps ∧ treeLookup node comps = some v ∧
      comps.headD "" ∈ doneNames) →
    ∃ m, todo.foldlM (fun results e => do
        let (ty, oid2, name) := e
        if containsChar name '/' then (.error .assertionError :
          Except Err (List (String × String)))
        else if name = ".." || name = "." then .error .assertionError
        else
          let path := base ++ name
          if ty = "blob" then .ok (dinsert path oid2 results)
          else if ty = "tree" then do
            let sub ← get_tree stF f oid2 (path ++ "/")
            .ok (dupdate results sub)
          else .error .assertionError) results = .ok m ∧
      (m.map Prod.fst).Nodup ∧
      (∀ comps o, treeLookup node comps = some o →
        comps.headD "" ∈ doneNames ++ todo.map (fun fe => fe.2.2) →
        dlookup (base ++ pyJoin "/" comps) m = some o) ∧
      (∀ p v, dlookup p m = some v → ∃ comps, comps ≠ [] ∧
        p = base ++ pyJoin "/" comps ∧ treeLookup node comps = some v ∧
        comps.headD "" ∈ doneNames ++ todo.map (fun fe => fe.2.2)) := by
  intro todo
  induction todo with
  | nil =>
    intro doneNames results _ _ _ hnd hF1 hF2
    refine ⟨results, rfl, hnd, ?_, ?_⟩
    · intro comps o ht hh
      rw [List.map_nil, List.append_nil] at hh
      exact hF1 comps o ht hh
    · intro p v hp
      rcases hF2 p v hp with ⟨comps, h1, h2, h3, h4⟩
      exact ⟨comps, h1, h2, h3, by rw [List.map_nil, List.append_nil]; exact h4⟩
  | cons fe todo ihtodo =>
    intro doneNames results hfacts hnotdone hndtodo hnd hF1 hF2
    obtain ⟨ty, oid2, nm⟩ := fe
    have hfe := hfacts (ty, oid2, nm) (List.mem_cons_self _ _)
    have hnf : nameFacts nm = true := hfe.1
    have hnmnew : nm ∉ doneNames := hnotdone _ (List.mem_cons_self _ _)
    have hslash := nameFacts_slash nm hnf
    have hdot1 := nameFacts_dot1 nm hnf
    have hdot2 := nameFacts_dot2 nm hnf
    have hndtodo2 : (todo.map (fun fe => fe.2.2)).Nodup := by
      rw [List.map_cons, List.nodup_cons] at hndtodo
      exact hndtodo.2
    have hnmtodo : nm ∉ todo.map (fun fe => fe.2.2) := by
      rw [List.map_cons, List.nodup_cons] at hndtodo
      exact hndtodo.1
    have hnotdone2 : ∀ fe2 ∈ todo, fe2.2.2 ∉ doneNames ++ [nm] := by
      intro fe2 hfe2 hmem
      rw [List.mem_append] at hmem
      rcases hmem with hmem | hmem
      · exact hnotdone fe2 (List.mem_cons_of_mem _ hfe2) hmem
      · rw [List.mem_singleton] at hmem
        exact hnmtodo (hmem ▸ List.mem_map.2 ⟨fe2, hfe2, rfl⟩)
    have hmemshift : ∀ (x : String),
        x ∈ (doneNames ++ [nm]) ++ todo.map (fun fe => fe.2.2) ↔
        x ∈ doneNames ++ ((ty, oid2, nm) :: todo).map (fun fe => fe.2.2) := by
      intro x
      rw [List.map_cons, List.append_assoc, List.singleton_append]
    rcases hfe.2 with ⟨hty, hdl⟩ | ⟨hty, sub, hdl, hcorr⟩
    · -- a blob entry
      subst hty
      have hstep : (fun (results : List (String × String))
          (e : String × String × String) => do
          let (ty, oid2, name) := e
          if containsChar name '/' then (.error .assertionError :
            Except Err (List (String × String)))
          else if name = ".." || name = "." then .error .assertionError
          else
            let path := base ++ name
            if ty = "blob" then .ok (dinsert path oid2 results)
            else if ty = "tree" then do
              let sub ← get_tree stF f oid2 (path ++ "/")
              .ok (dupdate results sub)
            else .error .assertionError) results ("blob", oid2, nm) =
          .ok (dinsert (base ++ nm) oid2 results) := by
        simp only [hslash, hdot1, hdot2]
        rfl
      have hnd2 : ((dinsert (base ++ nm) oid2 results).map Prod.fst).Nodup :=
        dinsert_nodup _ _ _ hnd
      have hF1n : ∀ comps o, treeLookup node comps = some o →
          comps.headD "" ∈ doneNames ++ [nm] →
          dlookup (base ++ pyJoin "/" comps)
            (dinsert (base ++ nm) oid2 results) = some o := by
        intro comps o ht hh
        cases comps with
        | nil => rw [treeLookup] at ht; cases ht
        | cons c r =>
          by_cases hc : c = nm
          · subst hc
            rw [treeLookup_cons_oid r hdl] at ht
            cases hr : r with
            | cons a b =>
              rw [hr] at ht
              simp at ht
            | nil =>
              rw [hr] at ht
              simp only [List.isEmpty_nil, if_true] at ht
              injection ht with ho
              rw [pyJoin_single, dlookup_dinsert, if_pos rfl, ho]
          · have hcd : c ∈ doneNames := by
              rw [List.mem_append] at hh
              rcases hh with hh | hh
              · exact hh
              · rw [List.mem_singleton] at hh
                exact absurd hh hc
            rw [dlookup_dinsert, if_neg ?_]
            · exact hF1 (c :: r) o ht hcd
            · intro he
              have hj : pyJoin "/" (c :: r) = nm :=
                string_append_cancel_left base _ _ he
              cases hr : r with
              | nil =>
                rw [hr, pyJoin_single] at hj
                exact hc hj
              | cons a b =>
                rw [hr] at hj
                exact name_ne_joined nm c (a :: b) (by simp) hslash hj.symm
      have hF2n : ∀ p v, dlookup p (dinsert (base ++ nm) oid2 results) = some v →
          ∃ comps, comps ≠ [] ∧ p = base ++ pyJoin "/" comps ∧
            treeLookup node comps = some v ∧
            comps.headD "" ∈ doneNames ++ [nm] := by
        intro p v hp
        rw [dlookup_dinsert] at hp
        by_cases he : p = base ++ nm
        · rw [if_pos he] at hp
          injection hp with hv
          refine ⟨[nm], by simp, by rw [pyJoin_single]; exact he, ?_, by simp⟩
          rw [treeLookup_cons_oid [] hdl, hv]
          rfl
        · rw [if_neg he] at hp
          rcases hF2 p v hp with ⟨comps, h1, h2, h3, h4⟩
          exact ⟨comps, h1, h2, h3, List.mem_append_left _ h4⟩
      rcases ihtodo (doneNames ++ [nm]) (dinsert (base ++ nm) oid2 results)
        (fun fe2 h2 => hfacts fe2 (List.mem_cons_of_mem _ h2)) hnotdone2
        hndtodo2 hnd2 hF1n hF2n with ⟨m, hfold, hm1, hm2, hm3⟩
      refine ⟨m, ?_, hm1, ?_, ?_⟩
      · exact fold_cons_step _ _ _ _ _ _ hstep hfold
      · intro comps o ht hh
        exact hm2 comps o ht ((hmemshift _).2 hh)
      · intro p v hp
        rcases hm3 p v hp with ⟨comps, h1, h2, h3, h4⟩
        exact ⟨comps, h1, h2, h3, (hmemshift _).1 h4⟩
    · -- a tree entry
      subst hty
      rcases hIH oid2 sub ((base ++ nm) ++ "/") hcorr with
        ⟨subm, hsub_ok, hsubnd, hsubL1, hsubL2⟩
      have hstep : (fun (results : List (String × String))
          (e : String × String × String) => do
          let (ty, oid2, name) := e
          if containsChar name '/' then (.error .assertionError :
            Except Err (List (String × String)))
          else if name = ".." || name = "." then .error .assertionError
          else
            let path := base ++ name
            if ty = "blob" then .ok (dinsert path oid2 results)
            else if ty = "tree" then do
              let sub ← get_tree stF f oid2 (path ++ "/")
              .ok (dupdate results sub)
            else .error .assertionError) results ("tree", oid2, nm) =
          .ok (dupdate results subm) := by
        simp only [hslash, hdot1, hdot2]
        rw [if_neg (show ¬ (false = true) by simp)]
        rw [if_neg (show ¬ ((decide False || decide False) = true) by simp)]
        rw [if_neg (show ¬ ("tree" = "blob") by decide)]
        rw [if_pos trivial]
        rw [hsub_ok, eok_bind]
      have hnd2 : ((dupdate results subm).map Prod.fst).Nodup :=
        dupdate_nodup results subm hnd
      have hF1n : ∀ comps o, treeLookup node comps = some o →
          comps.headD "" ∈ doneNames ++ [nm] →
          dlookup (base ++ pyJoin "/" comps) (dupdate results subm) = some o := by
        intro comps o ht hh
        cases comps with
        | nil => rw [treeLookup] at ht; cases ht
        | cons c r =>
          rw [dlookup_dupdate _ _ _ hsubnd]
          by_cases hc : c = nm
          · subst hc
            rw [treeLookup_cons_dict r hdl] at ht
            cases hr : r with
            | nil =>
              rw [hr] at ht
              simp at ht
            | cons a b =>
              rw [hr] at ht
              rw [show ((a :: b : List String)).isEmpty = false from rfl,
                if_neg (by simp)] at ht
              have hkey := base_join_shift base c (a :: b) (by simp)
              rw [hkey, hsubL1 (a :: b) o ht]
          · have hcd : c ∈ doneNames := by
              rw [List.mem_append] at hh
              rcases hh with hh | hh
              · exact hh
              · rw [List.mem_singleton] at hh
                exact absurd hh hc
            have hcslash : containsChar c '/' = false := by
              rcases treeLookup_some_head node c r o ht with ⟨v, hv⟩
              exact nameFacts_slash c (hnodeNames c v hv)
            have hnone : dlookup (base ++ pyJoin "/" (c :: r)) subm = none := by
              cases hx : dlookup (base ++ pyJoin "/" (c :: r)) subm with
              | none => rfl
              | some v2 =>
                exfalso
                rcases hsubL2 _ v2 hx with ⟨comps2, hc1, hc2, hc3⟩
                have hj : pyJoin "/" (c :: r) = (nm ++ "/") ++ pyJoin "/" comps2 := by
                  apply string_append_cancel_left base
                  calc base ++ pyJoin "/" (c :: r)
                      = base ++ nm ++ "/" ++ pyJoin "/" comps2 := hc2
                    _ = base ++ ((nm ++ "/") ++ pyJoin "/" comps2) := by
                        apply string_ext
                        simp [string_data_append, List.append_assoc]
                cases hr : r with
                | nil =>
                  rw [hr, pyJoin_single] at hj
                  have : containsChar c '/' = true := by
                    rw [show (nm ++ "/") ++ pyJoin "/" comps2 =
                      nm ++ "/" ++ pyJoin "/" comps2 from rfl] at hj
                    rw [hj]
                    exact slash_in_append nm (pyJoin "/" comps2)
                  rw [hcslash] at this
                  cases this
                | cons a b =>
                  rw [hr, pyJoin_cons_ne c (a :: b) (by simp)] at hj
                  rcases slash_append_inj c (pyJoin "/" (a :: b)) nm
                    (pyJoin "/" comps2) hcslash hslash hj with ⟨hce, _⟩
                  exact hc hce
            rw [hnone]
            exact hF1 (c :: r) o ht hcd
      have hF2n : ∀ p v, dlookup p (dupdate results subm) = some v →
          ∃ comps, comps ≠ [] ∧ p = base ++ pyJoin "/" comps ∧
            treeLookup node comps = some v ∧
            comps.headD "" ∈ doneNames ++ [nm] := by
        intro p v hp
        rw [dlookup_dupdate _ _ _ hsubnd] at hp
        cases hx : dlookup p subm with
        | some v2 =>
          rw [hx] at hp
          injection hp with hv
          subst hv
          rcases hsubL2 p v2 hx with ⟨comps2, hc1, hc2, hc3⟩
          refine ⟨nm :: comps2, by simp, ?_, ?_, by simp⟩
          · rw [base_join_shift base nm comps2 hc1]
            exact hc2
          · rw [treeLookup_cons_dict comps2 hdl,
              isEmpty_false_of_ne comps2 hc1, if_neg (by simp)]
            exact hc3
        | none =>
          rw [hx] at hp
          rcases hF2 p v hp with ⟨comps, h1, h2, h3, h4⟩
          exact ⟨comps, h1, h2, h3, List.mem_append_left _ h4⟩
      rcases ihtodo (doneNames ++ [nm]) (dupdate results subm)
        (fun fe2 h2 => hfacts fe2 (List.mem_cons_of_mem _ h2)) hnotdone2
        hndtodo2 hnd2 hF1n hF2n with ⟨m, hfold, hm1, hm2, hm3⟩
      refine ⟨m, ?_, hm1, ?_, ?_⟩
      · exact fold_cons_step _ _ _ _ _ _ hstep hfold
      · intro comps o ht hh
        exact hm2 comps o ht ((hmemshift _).2 hh)
      · intro p v hp
        rcases hm3 p v hp with ⟨comps, h1, h2, h3, h4⟩
        exact ⟨comps, h1, h2, h3, (hmemshift _).1 h4⟩

/-- Reading a stored tree back: `get_tree` succeeds on a corresponding
stored tree and its flat map holds exactly the blob paths of the nested
dict, each prefixed with `base`. -/
theorem get_tree_corr (H : String → String → String)
    (hHne : ∀ t c, H t c ≠ "") (stF : Store) :
    ∀ (fuel : Nat) (oid : String) (node : List (String × PyTree)) (base : String),
    Corr H stF fuel oid node →
    ∃ m, get_tree stF fuel oid base = .ok m ∧
      (m.map Prod.fst).Nodup ∧
      (∀ comps o, treeLookup node comps = some o →
        dlookup (base ++ pyJoin "/" comps) m = some o) ∧
      (∀ p v, dlookup p m = some v → ∃ comps, comps ≠ [] ∧
        p = base ++ pyJoin "/" comps ∧ treeLookup node comps = some v) := by
  intro fuel
  induction fuel with
  | zero =>
    intro oid node base hc
    exact absurd hc (by rw [Corr]; simp)
  | succ f ihf =>
    intro oid node base hc
    rw [Corr] at hc
    rcases hc with ⟨es, hoid, hlook, hwf, hnd, hcorr⟩
    have hnodenames_eq : es.map (fun e => e.1) = node.map Prod.fst :=
      forall2_fst_eq (fun e nt he => he.1) hcorr
    have hnodeND : (node.map Prod.fst).Nodup := hnodenames_eq ▸ hnd
    have hnodeNames : ∀ c v, dlookup c node = some v → nameFacts c = true := by
      intro c v hv
      have hmem : (c, v) ∈ node := dlookup_mem c v node hv
      have hcn : c ∈ es.map (fun e => e.1) := by
        rw [hnodenames_eq]
        exact List.mem_map.2 ⟨(c, v), hmem, rfl⟩
      rcases List.mem_map.1 hcn with ⟨e, hemem, hee⟩
      rw [← hee]
      exact (hwf e hemem).2
    have hiter : iter_tree_entries stF oid =
        .ok ((pySort es).map (fun e => (e.2.2, e.2.1, e.1))) := by
      apply iter_tree_entries_ser stF oid es hlook (fun e he => (hwf e he).1)
      rw [hoid]
      exact hHne _ _
    have hfactsF : ∀ fe ∈ (pySort es).map (fun e => (e.2.2, e.2.1, e.1)),
        nameFacts fe.2.2 = true ∧
        ((fe.1 = "blob" ∧ dlookup fe.2.2 node = some (.oid fe.2.1)) ∨
         (fe.1 = "tree" ∧ ∃ sub, dlookup fe.2.2 node = some (.dict sub) ∧
           Corr H stF f fe.2.1 sub)) := by
      intro fe hfe
      rcases List.mem_map.1 hfe with ⟨e, hemem, hfee⟩
      have hees : e ∈ es := (List.perm_insertionSort eLE es).mem_iff.1 hemem
      subst hfee
      refine ⟨(hwf e hees).2, ?_⟩
      rcases forall2_mem_left hcorr e hees with ⟨nt, hntmem, hrel⟩
      have hdl : dlookup e.1 node = some nt.2 := by
        have hmem2 : (e.1, nt.2) ∈ node := by
          rw [hrel.1]
          rw [show (nt.1, nt.2) = nt from rfl]
          exact hntmem
        exact dlookup_of_mem_nodup _ _ node hmem2 hnodeND
      rcases hrel.2 with ⟨o, hnto, he1, he2⟩ | ⟨sub, hnts, he2, hsc⟩
      · left
        refine ⟨he2, ?_⟩
        rw [hdl, hnto, he1]
      · right
        exact ⟨he2, sub, by rw [hdl, hnts], hsc⟩
    have hndF : (((pySort es).map (fun e => (e.2.2, e.2.1, e.1))).map
        (fun fe => fe.2.2)).Nodup := by
      rw [List.map_map]
      have hns : ((pySort es).map (fun e => e.1)).Nodup :=
        (((List.perm_insertionSort eLE es).map (fun e => e.1)).nodup_iff).2 hnd
      simpa [Function.comp] using hns
    rcases gtFoldGo H stF f base node hnodeNames
      (fun oid2 sub base2 hc2 => ihf oid2 sub base2 hc2)
      ((pySort es).map (fun e => (e.2.2, e.2.1, e.1))) [] []
      hfactsF (by simp) hndF (by simp)
      (by intro comps o _ hh; simp at hh)
      (by intro p v hp; simp [dlookup] at hp)
      with ⟨m, hfold, hm1, hm2, hm3⟩
    refine ⟨m, ?_, hm1, ?_, ?_⟩
    · rw [get_tree, hiter, eok_bind]
      exact hfold
    · intro comps o ht
      apply hm2 comps o ht
      cases comps with
      | nil => rw [treeLookup] at ht; cases ht
      | cons c r =>
        rcases treeLookup_some_head node c r o ht with ⟨v, hv⟩
        have hcn : c ∈ node.map Prod.fst :=
          List.mem_map.2 ⟨(c, v), dlookup_mem c v node hv, rfl⟩
        rw [← hnodenames_eq] at hcn
        rw [List.nil_append, List.map_map]
        show c ∈ (pySort es).map ((fun fe => fe.2.2) ∘ (fun e => (e.2.2, e.2.1, e.1)))
        rcases List.mem_map.1 hcn with ⟨e, hees, hec⟩
        exact List.mem_map.2 ⟨e,
          (List.perm_insertionSort eLE es).mem_iff.2 hees, hec⟩
    · intro p v hp
      rcases hm3 p v hp with ⟨comps, h1, h2, h3, _⟩
      exact ⟨comps, h1, h2, h3⟩

theorem dlookup_compsLookup (S : List (String × String)) (p : String) :
    compsLookup S (pySplit '/' p) = dlookup p S := by
  induction S with
  | nil => rfl
  | cons pv rest ih =>
    obtain ⟨k, v⟩ := pv
    by_cases h : k = p
    · subst h
      simp [compsLookup, dlookup]
    · have hne : pySplit '/' k ≠ pySplit '/' p := fun he => h (pySplit_inj k p he)
      have hne2 : ¬ p = k := fun he => h he.symm
      simp only [compsLookup, dlookup, hne, hne2, if_false, ih]

/-- C7 (amended): writing the index as a tree and expanding the returned
root id with `get_tree` reproduces the index as a map — provided no index
path is a leading-segment (directory prefix) of another, the path components
are line-break-free, separator-free and none of `.`/`..`, the blob ids are
line-break- and space-free, and the digest function is injective with
digests that are non-empty, line-break-free and space-free.  Without the
leading-segment condition the grouping loop silently drops or breaks nested
paths (see the counterexample). -/
theorem c7_write_tree_get_tree_roundtrip (H : String → String → String)
    (st : GitState) (fuel : Nat) (rootOid : String) (st1 : GitState)
    (hInj : ∀ t1 c1 t2 c2, H t1 c1 = H t2 c2 → t1 = t2 ∧ c1 = c2)
    (hHwf : ∀ t c, oidFacts (H t c) = true)
    (hHne : ∀ t c, H t c ≠ "")
    (hpw : List.Pairwise pairFree (st.indexFile.getD []))
    (hfacts : ∀ pv ∈ st.indexFile.getD [],
      (∀ c ∈ pySplit '/' pv.1, nameFacts c = true) ∧ oidFacts pv.2 = true)
    (hw : write_tree H st fuel = (st1, .ok rootOid)) :
    ∃ m, get_tree st1.store (fuel + 1) rootOid "" = .ok m ∧
      ∀ p, dlookup p m = dlookup p (st.indexFile.getD []) := by
  rcases buildIndexTree_char (st.indexFile.getD []) hpw hfacts with
    ⟨node, hbuild, h1, h3, h4⟩
  unfold write_tree at hw
  simp only [hbuild] at hw
  cases hwn : wt_node H fuel node st.store with
  | error e =>
    simp only [hwn] at hw
    exact absurd (congrArg Prod.snd hw) (by simp)
  | ok pr =>
    simp only [hwn, Prod.mk.injEq, Except.ok.injEq] at hw
    obtain ⟨hst1, hroid⟩ := hw
    unfold wt_node at hwn
    obtain ⟨q, hwtgo, hok⟩ := bind_ok_inv _ _ _ hwn
    have hpr : pr = hash_object H q.2 "tree" (serializeEntries q.1) := by
      injection hok with h2
      exact h2.symm
    subst hpr
    obtain ⟨hkeep, hwfes, hcorres⟩ := wtGo_corr H hInj hHwf fuel node st.store
      q.1 q.2 hwtgo h3 h4
    have hesnames : q.1.map (fun e => e.1) = node.map Prod.fst :=
      forall2_fst_eq (fun e nt he => he.1) hcorres
    have hesnd : (q.1.map (fun e => e.1)).Nodup := by
      rw [hesnames]
      exact h3 [] node rfl
    have hkeep2 : hashKeep H q.2
        (hash_object H q.2 "tree" (serializeEntries q.1)).2 :=
      hashKeep_dinsert H hInj q.2 "tree" (serializeEntries q.1)
    have hrootCorr : Corr H (hash_object H q.2 "tree" (serializeEntries q.1)).2
        (fuel + 1) (H "tree" (serializeEntries q.1)) node := by
      rw [Corr]
      refine ⟨q.1, rfl, ?_, hwfes, hesnd, ?_⟩
      · show dlookup _ (dinsert (H "tree" (serializeEntries q.1))
          ("tree", serializeEntries q.1) q.2) = _
        rw [dlookup_dinsert, if_pos rfl]
      · exact List.Forall₂.imp (fun e nt he => entCorr_mono he hkeep2) hcorres
    rcases get_tree_corr H hHne _ (fuel + 1)
      (H "tree" (serializeEntries q.1)) node "" hrootCorr with
      ⟨m, hgt, hmnd, hL1, hL2⟩
    refine ⟨m, ?_, ?_⟩
    · rw [← hst1, ← hroid]
      exact hgt
    · intro p
      cases hdi : dlookup p (st.indexFile.getD []) with
      | some o =>
        have ht : treeLookup node (pySplit '/' p) = some o := by
          rw [h1 (pySplit '/' p), dlookup_compsLookup, hdi]
        have hthis := hL1 (pySplit '/' p) o ht
        rw [pyJoin_pySplit p, string_nil_append p] at hthis
        exact hthis
      | none =>
        cases hdm : dlookup p m with
        | none => rfl
        | some v =>
          exfalso
          rcases hL2 p v hdm with ⟨comps, hc1, hc2, hc3⟩
          rw [h1 comps] at hc3
          rcases compsLookup_some _ _ _ hc3 with ⟨pv, hpmem, hps, hpv⟩
          have hp1 : pv.1 = pyJoin "/" comps := by
            rw [← pyJoin_pySplit pv.1, hps]
          have hpp : p = pyJoin "/" comps := by
            rw [hc2, string_nil_append]
          rw [dlookup_none_iff] at hdi
          apply hdi
          rw [hpp, ← hp1]
          exact List.mem_map.2 ⟨pv, hpmem, rfl⟩

/-- The constant digest used by the C7 counterexample run. -/
def c7H : String → String → String := fun _ _ => "h0"

/-- A computable injective digest with line-break-free, space-free,
non-empty output: each character is encoded in unary over `b` with an `a`
terminator; the two inputs are separated by `z` after a leading `h`. -/
def encC (c : Char) : List Char := List.replicate (c.toNat + 1) 'b' ++ ['a']

def encL : List Char → List Char
  | [] => []
  | c :: cs => encC c ++ encL cs

def c7wH (t c : String) : String := ⟨'h' :: (encL t.data ++ 'z' :: encL c.data)⟩

theorem encC_chars (c : Char) : ∀ ch ∈ encC c, ch = 'a' ∨ ch = 'b' := by
  intro ch hch
  unfold encC at hch
  rcases List.mem_append.1 hch with h | h
  · exact Or.inr (List.eq_of_mem_replicate h)
  · rw [List.mem_singleton] at h
    exact Or.inl h

theorem encL_chars : ∀ (l : List Char), ∀ ch ∈ encL l, ch = 'a' ∨ ch = 'b' := by
  intro l
  induction l with
  | nil => intro ch hch; simp [encL] at hch
  | cons c cs ih =>
    intro ch hch
    rw [show encL (c :: cs) = encC c ++ encL cs from rfl] at hch
    rcases List.mem_append.1 hch with h | h
    · exact encC_chars c ch h
    · exact ih ch h

theorem rep_b_inj : ∀ (n m : Nat) (r1 r2 : List Char),
    List.replicate n 'b' ++ 'a' :: r1 = List.replicate m 'b' ++ 'a' :: r2 →
    n = m ∧ r1 = r2 := by
  intro n
  induction n with
  | zero =>
    intro m r1 r2 h
    cases m with
    | zero =>
      simp only [List.replicate, List.nil_append] at h
      injection h with h1 h2
      exact ⟨rfl, h2⟩
    | succ m2 =>
      rw [List.replicate_succ] at h
      simp only [List.replicate, List.nil_append, List.cons_append] at h
      injection h with h1 h2
      exact absurd h1 (by decide)
  | succ n2 ih =>
    intro m r1 r2 h
    cases m with
    | zero =>
      rw [List.replicate_succ] at h
      simp only [List.replicate, List.nil_append, List.cons_append] at h
      injection h with h1 h2
      exact absurd h1 (by decide)
    | succ m2 =>
      rw [List.replicate_succ, List.replicate_succ] at h
      rw [List.cons_append, List.cons_append] at h
      injection h with h1 h2
      rcases ih m2 r1 r2 h2 with ⟨hnm, hr⟩
      exact ⟨by rw [hnm], hr⟩

theorem encL_cons (x : Char) (xs : List Char) :
    encL (x :: xs) = List.replicate (x.toNat + 1) 'b' ++ 'a' :: encL xs := by
  show encC x ++ encL xs = _
  unfold encC
  rw [List.append_assoc, List.singleton_append]

theorem encL_ne_nil (c : Char) (cs : List Char) : encL (c :: cs) ≠ [] := by
  rw [encL_cons]
  simp

theorem encL_inj : ∀ (l1 l2 : List Char), encL l1 = encL l2 → l1 = l2 := by
  intro l1
  induction l1 with
  | nil =>
    intro l2 h
    cases l2 with
    | nil => rfl
    | cons d ds => exact absurd h.symm (encL_ne_nil d ds)
  | cons c cs ih =>
    intro l2 h
    cases l2 with
    | nil => exact absurd h (encL_ne_nil c cs)
    | cons d ds =>
      rw [encL_cons, encL_cons] at h
      rcases rep_b_inj _ _ _ _ h with ⟨hnm, hr⟩
      have htn : c.toNat = d.toNat := Nat.succ_injective hnm
      have hc : c = d := by
        have h1 := Char.ofNat_toNat c
        have h2 := Char.ofNat_toNat d
        rw [← h1, ← h2, htn]
      rw [hc, ih ds hr]

theorem c7wH_inj : ∀ t1 c1 t2 c2, c7wH t1 c1 = c7wH t2 c2 → t1 = t2 ∧ c1 = c2 := by
  intro t1 c1 t2 c2 h
  have hd : 'h' :: (encL t1.data ++ 'z' :: encL c1.data) =
      'h' :: (encL t2.data ++ 'z' :: encL c2.data) := congrArg String.data h
  injection hd with _ hd2
  have hz1 : (encL t1.data).all (fun ch => !(decide (ch = 'z'))) = true := by
    rw [List.all_eq_true]
    intro ch hch
    rcases encL_chars t1.data ch hch with h2 | h2 <;> rw [h2] <;> decide
  have hz2 : (encL t2.data).all (fun ch => !(decide (ch = 'z'))) = true := by
    rw [List.all_eq_true]
    intro ch hch
    rcases encL_chars t2.data ch hch with h2 | h2 <;> rw [h2] <;> decide
  have hsp := congrArg (splitOnceL 'z') hd2
  rw [splitOnceL_append 'z' _ _ hz1, splitOnceL_append 'z' _ _ hz2] at hsp
  injection hsp with hsp2
  injection hsp2 with ha hb
  exact ⟨string_ext (encL_inj _ _ ha), string_ext (encL_inj _ _ hb)⟩

theorem c7wH_chars (t c : String) :
    ∀ ch ∈ (c7wH t c).data, ch = 'h' ∨ ch = 'z' ∨ ch = 'a' ∨ ch = 'b' := by
  intro ch hch
  rw [show (c7wH t c).data = 'h' :: (encL t.data ++ 'z' :: encL c.data) from rfl] at hch
  rcases List.mem_cons.1 hch with h | h
  · exact Or.inl h
  rcases List.mem_append.1 h with h | h
  · rcases encL_chars t.data ch h with h2 | h2
    · exact Or.inr (Or.inr (Or.inl h2))
    · exact Or.inr (Or.inr (Or.inr h2))
  rcases List.mem_cons.1 h with h | h
  · exact Or.inr (Or.inl h)
  · rcases encL_chars c.data ch h with h2 | h2
    · exact Or.inr (Or.inr (Or.inl h2))
    · exact Or.inr (Or.inr (Or.inr h2))

theorem c7wH_wf : ∀ t c, oidFacts (c7wH t c) = true := by
  intro t c
  unfold oidFacts breakFree spaceFreeB
  rw [Bool.and_eq_true, List.all_eq_true, List.all_eq_true]
  constructor
  · intro ch hch
    rcases c7wH_chars t c ch hch with h | h | h | h <;> rw [h] <;> decide
  · intro ch hch
    rcases c7wH_chars t c ch hch with h | h | h | h <;> rw [h] <;> decide

theorem c7wH_ne : ∀ t c, c7wH t c ≠ "" := by
  intro t c h
  have h2 : 'h' :: (encL t.data ++ 'z' :: encL c.data) = [] := congrArg String.data h
  cases h2

/-- C7: counterexample to the unrestricted claim — the index
`{"a/b": o2, "a": o1}` has separator-free components none of which is
`.` or `..`, yet writing it and reading the root tree back loses the
nested path `a/b`: the grouping loop's final assignment overwrites the
sub-dict built for `a/b` when the later path `a` is a leading segment of
it. -/
theorem c7_write_then_read_loses_nested_path :
    ((write_tree c7H ⟨[], [], some [("a/b", "o2"), ("a", "o1")]⟩ 5).2.bind
      (fun oid =>
        (get_tree (write_tree c7H
          ⟨[], [], some [("a/b", "o2"), ("a", "o1")]⟩ 5).1.store 5 oid "").map
          (fun m => dlookup "a/b" m))) = .ok none ∧
    dlookup "a/b" [("a/b", "o2"), ("a", "o1")] = some "o2" := by
  constructor
  · decide
  · decide

/-- C7 witness: a concrete index round-trips through `write_tree` and
`get_tree` under the injective digest. -/
theorem c7_roundtrip_witness :
    ∃ m, get_tree (write_tree c7wH ⟨[], [], some [("a", "o1")]⟩ 3).1.store (3 + 1)
        ((write_tree c7wH ⟨[], [], some [("a", "o1")]⟩ 3).2.toOption.getD "") "" = .ok m ∧
      dlookup "a" m = some "o1" ∧ dlookup "b" m = none := by
  rcases c7_write_tree_get_tree_roundtrip c7wH ⟨[], [], some [("a", "o1")]⟩ 3
    ((write_tree c7wH ⟨[], [], some [("a", "o1")]⟩ 3).2.toOption.getD "")
    (write_tree c7wH ⟨[], [], some [("a", "o1")]⟩ 3).1
    c7wH_inj c7wH_wf c7wH_ne (by simp) (by decide) (by rfl) with ⟨m, hm, hl⟩
  refine ⟨m, hm, ?_, ?_⟩
  · rw [hl "a"]
    rfl
  · rw [hl "b"]
    rfl

end Ugit
